import Mathlib

/-!
# Latest: a single-value container served by one coordination goroutine

Shallow embedding of `latest.go` as a labelled transition system.

The Go program is concurrent: any number of client goroutines call `Put`,
`Get` and `Stop`; the first of them runs `start` under `l.once`, which makes
the two unbuffered channels and spawns the coordination goroutine.  An
execution is a list of events (one atomic step of one goroutine, or one
rendezvous of a sender with a receiver); `step` is the effect of one event and
`run` the effect of a list of them.  The nondeterminism of the scheduler and of
`select` is the choice of the next event.

Go primitives are modelled by their language semantics:
* an unbuffered channel hands a value over only when a sender and a receiver
  are both at the channel; a receive from a closed channel yields the zero
  value (and `ok = false`); a send on a closed channel and a close of a closed
  or nil channel panic; operations on a nil channel block;
* `sync.Once.Do f` runs `f` in the first caller only, and no caller returns
  from `Do` before that run of `f` has returned;
* a panic ends the call (or the goroutine) that raised it.  The other
  goroutines may go on, as when the caller recovers; in a program that does not
  recover the execution stops there, and every beginning of an execution is an
  execution.

Names follow the source: `lin`, `lout` and `once` are the fields `l.in`, `l.out`
and `l.once`, `cin` is the local `in` of `start`, `thing` and `ok` are the
goroutine's variables, and program counters are named after source lines.
-/

namespace Latest

/-- Go `interface{}` value: `none` is the nil interface (the zero value). -/
abbrev Value (α : Type) := Option α

/-- Channel identity: the index of the `make` that created it. -/
abbrev Chan := Nat

/-- The three exported methods, with their argument. -/
inductive Op (α : Type) where
  | put (thing : Value α)
  | get
  | stop
  deriving DecidableEq

/-- Program counter of a client goroutine inside `Put`, `Get` or `Stop`. -/
inductive CPC where
  /-- at `l.once.Do(l.start)` (lines 16, 23, 29) -/
  | once
  /-- in `start`, before `l.in = make(chan interface{})` (line 34) -/
  | s34
  /-- in `start`, before `l.out = make(chan interface{})` (line 35) -/
  | s35
  /-- in `start`, before `in := l.in` (line 36) -/
  | s36
  /-- in `start`, before `go func() {...}()` (line 37) -/
  | s37
  /-- at the channel operation: `l.in <- thing` (17), `<-l.out` (24), `close(l.in)` (30) -/
  | body
  /-- the method has returned -/
  | ret
  /-- the method has panicked -/
  | dead
  deriving DecidableEq

/-- One call of a method by a client goroutine. -/
structure Call (α : Type) where
  /-- which method, with its argument -/
  op : Op α
  pc : CPC
  /-- local variable `in` of `start` (line 36); `none` is the nil channel -/
  cin : Option Chan
  /-- the value returned by `Get` (meaningful when `op = get` and `pc = ret`) -/
  res : Value α
  deriving DecidableEq

/-- Program counter of the coordination goroutine (the `go func` of line 37). -/
inductive GPC where
  /-- before `defer close(l.out)` (line 38) -/
  | l38
  /-- at `thing := <-l.in` (line 39) -/
  | l39
  /-- at the loop condition `ok` of the `for` (line 40) -/
  | l40
  /-- at the `select` (line 41) -/
  | l41
  /-- loop left, the deferred `close(l.out)` is about to run -/
  | ret
  /-- the goroutine has terminated -/
  | done
  /-- the goroutine has panicked -/
  | dead
  deriving DecidableEq

/-- A coordination goroutine: its program counter and its variables. -/
structure Gor (α : Type) where
  pc : GPC
  /-- the captured local `in` of `start` -/
  cin : Option Chan
  /-- the argument of the deferred `close`, evaluated at line 38 -/
  dout : Option Chan
  /-- the held value -/
  thing : Value α
  /-- the loop variable `ok` -/
  ok : Bool
  deriving DecidableEq

/-- State of `l.once`: not yet used, `start` being run by call `c`, or done. -/
inductive OnceSt where
  | fresh
  | running (c : Nat)
  | done
  deriving DecidableEq

/-- The whole program state: the fields of the `Latest` struct, the channels
made so far (each with its closed flag), the coordination goroutines spawned
so far and the calls made so far (a call's id is its index). -/
structure Sys (α : Type) where
  /-- field `l.in`; `none` is the nil channel -/
  lin : Option Chan
  /-- field `l.out` -/
  lout : Option Chan
  /-- field `l.once` -/
  once : OnceSt
  /-- closed flag of every channel made so far -/
  chans : List Bool
  gos : List (Gor α)
  calls : List (Call α)
  deriving DecidableEq

/-- The zero-value `Latest`, with no call made yet. -/
def init {α : Type} : Sys α :=
  { lin := none, lout := none, once := .fresh, chans := [], gos := [], calls := [] }

/-- One atomic step of the program. -/
inductive Event (α : Type) where
  /-- a client goroutine calls a method; the call gets the next call id -/
  | invoke (op : Op α)
  /-- `l.once.Do(l.start)` in the first caller: enters `start` -/
  | doStart (c : Nat)
  /-- `l.once.Do(l.start)` once `start` has been run: returns at once -/
  | doSkip (c : Nat)
  /-- line 34: `l.in = make(chan interface{})` -/
  | mkIn (c : Nat)
  /-- line 35: `l.out = make(chan interface{})` -/
  | mkOut (c : Nat)
  /-- line 36: `in := l.in` -/
  | copyIn (c : Nat)
  /-- line 37: `go func() {...}()`; `start` and `Do` return -/
  | spawn (c : Nat)
  /-- line 17 meets line 39 or 42: `Put` call `c` hands `v` to goroutine `g` -/
  | putSend (c g : Nat) (v : Value α)
  /-- line 17 on a closed channel: panic -/
  | putPanic (c : Nat)
  /-- line 24 meets line 43: goroutine `g` hands `v` to `Get` call `c` -/
  | getRecv (c g : Nat) (v : Value α)
  /-- line 24 on a closed channel: `Get` returns nil -/
  | getClosed (c : Nat)
  /-- line 30: `close(l.in)` -/
  | stopClose (c : Nat)
  /-- line 30 on a closed or nil channel: panic -/
  | stopPanic (c : Nat)
  /-- line 38: `defer close(l.out)` evaluates `l.out` -/
  | gDefer (g : Nat)
  /-- line 39 or 42: the receive from the closed inbound channel -/
  | gRecvClosed (g : Nat)
  /-- line 40: the loop condition -/
  | gTest (g : Nat)
  /-- the deferred `close(l.out)` runs and the goroutine terminates -/
  | gClose (g : Nat)
  /-- the goroutine panics: deferred close of a closed or nil channel, or
  line 43 chosen on a closed channel -/
  | gPanic (g : Nat)
  deriving DecidableEq

/-- Channel `ch` exists and is open. -/
def isOpen {α : Type} (s : Sys α) (ch : Chan) : Bool := s.chans[ch]? = some false

/-- Channel `ch` exists and is closed. -/
def isClosed {α : Type} (s : Sys α) (ch : Chan) : Bool := s.chans[ch]? = some true

/-- The channel value `o` is a channel that exists and is open (false for nil). -/
def optOpen {α : Type} (s : Sys α) (o : Option Chan) : Bool :=
  match o with
  | some ch => isOpen s ch
  | none => false

/-- The channel value `o` is a channel that exists and is closed (false for nil). -/
def optClosed {α : Type} (s : Sys α) (o : Option Chan) : Bool :=
  match o with
  | some ch => isClosed s ch
  | none => false

/-- The call is a `Put`. -/
def Op.isPut {α : Type} : Op α → Bool
  | .put _ => true
  | _ => false

/-- Replace call `c`. -/
def setCall {α : Type} (s : Sys α) (c : Nat) (x : Call α) : Sys α :=
  { s with calls := s.calls.set c x }

/-- Replace goroutine `g`. -/
def setGor {α : Type} (s : Sys α) (g : Nat) (x : Gor α) : Sys α :=
  { s with gos := s.gos.set g x }

/-- The channel goroutine `x` receives from at its current statement:
line 39 reads the field `l.in`, line 42 the captured local `in`. -/
def recvChan {α : Type} (s : Sys α) (x : Gor α) : Option Chan :=
  match x.pc with
  | .l39 => s.lin
  | .l41 => x.cin
  | _ => none

/-- The goroutine after a receive on its inbound channel delivered `v` with
indicator `ok`: line 39 assigns `thing` and the `for` clause initialises `ok`
to true; line 42 assigns both `thing` and `ok`.  Control is then at the loop
condition. -/
def afterRecv {α : Type} (x : Gor α) (v : Value α) (ok : Bool) : Gor α :=
  match x.pc with
  | .l39 => { x with pc := .l40, thing := v, ok := true }
  | _ => { x with pc := .l40, thing := v, ok := ok }

/-- The goroutine after the loop condition of line 40: into the `select` when
`ok` holds, out of the loop (to the deferred close) otherwise. -/
def afterTest {α : Type} (x : Gor α) : Gor α :=
  { x with pc := if x.ok = true then .l41 else .ret }

/-- The effect of one event, `none` when the event is not enabled. -/
def step {α : Type} [DecidableEq α] (s : Sys α) : Event α → Option (Sys α)
  | .invoke op =>
    some { s with calls := s.calls ++ [{ op := op, pc := .once, cin := none, res := none }] }
  | .doStart c =>
    match s.calls[c]? with
    | some x =>
      if x.pc = .once ∧ s.once = .fresh then
        some { s with once := .running c, calls := s.calls.set c { x with pc := .s34 } }
      else none
    | none => none
  | .doSkip c =>
    match s.calls[c]? with
    | some x =>
      if x.pc = .once ∧ s.once = .done then some (setCall s c { x with pc := .body })
      else none
    | none => none
  | .mkIn c =>
    match s.calls[c]? with
    | some x =>
      if x.pc = .s34 then
        some { s with lin := some s.chans.length, chans := s.chans ++ [false],
                      calls := s.calls.set c { x with pc := .s35 } }
      else none
    | none => none
  | .mkOut c =>
    match s.calls[c]? with
    | some x =>
      if x.pc = .s35 then
        some { s with lout := some s.chans.length, chans := s.chans ++ [false],
                      calls := s.calls.set c { x with pc := .s36 } }
      else none
    | none => none
  | .copyIn c =>
    match s.calls[c]? with
    | some x =>
      if x.pc = .s36 then some (setCall s c { x with pc := .s37, cin := s.lin })
      else none
    | none => none
  | .spawn c =>
    match s.calls[c]? with
    | some x =>
      if x.pc = .s37 then
        some { s with once := .done,
                      gos := s.gos ++ [{ pc := .l38, cin := x.cin, dout := none,
                                          thing := none, ok := false }],
                      calls := s.calls.set c { x with pc := .body } }
      else none
    | none => none
  | .putSend c g v =>
    match s.calls[c]?, s.gos[g]?, s.lin with
    | some x, some y, some ch =>
      if x.pc = .body ∧ x.op = .put v ∧ isOpen s ch = true ∧ recvChan s y = some ch then
        some { s with calls := s.calls.set c { x with pc := .ret },
                      gos := s.gos.set g (afterRecv y v true) }
      else none
    | _, _, _ => none
  | .putPanic c =>
    match s.calls[c]?, s.lin with
    | some x, some ch =>
      if x.pc = .body ∧ x.op.isPut = true ∧ isClosed s ch = true then
        some (setCall s c { x with pc := .dead })
      else none
    | _, _ => none
  | .getRecv c g v =>
    match s.calls[c]?, s.gos[g]?, s.lout with
    | some x, some y, some ch =>
      if x.pc = .body ∧ x.op = .get ∧ isOpen s ch = true ∧ y.pc = .l41 ∧ y.thing = v then
        some { s with calls := s.calls.set c { x with pc := .ret, res := v },
                      gos := s.gos.set g { y with pc := .l40 } }
      else none
    | _, _, _ => none
  | .getClosed c =>
    match s.calls[c]?, s.lout with
    | some x, some ch =>
      if x.pc = .body ∧ x.op = .get ∧ isClosed s ch = true then
        some (setCall s c { x with pc := .ret, res := none })
      else none
    | _, _ => none
  | .stopClose c =>
    match s.calls[c]?, s.lin with
    | some x, some ch =>
      if x.pc = .body ∧ x.op = .stop ∧ isOpen s ch = true then
        some { s with chans := s.chans.set ch true,
                      calls := s.calls.set c { x with pc := .ret } }
      else none
    | _, _ => none
  | .stopPanic c =>
    match s.calls[c]? with
    | some x =>
      if x.pc = .body ∧ x.op = .stop ∧ optOpen s s.lin = false then
        some (setCall s c { x with pc := .dead })
      else none
    | none => none
  | .gDefer g =>
    match s.gos[g]? with
    | some y =>
      if y.pc = .l38 then some (setGor s g { y with pc := .l39, dout := s.lout })
      else none
    | none => none
  | .gRecvClosed g =>
    match s.gos[g]? with
    | some y =>
      match recvChan s y with
      | some ch =>
        if isClosed s ch = true then some (setGor s g (afterRecv y none false))
        else none
      | none => none
    | none => none
  | .gTest g =>
    match s.gos[g]? with
    | some y =>
      if y.pc = .l40 then
        some (setGor s g (afterTest y))
      else none
    | none => none
  | .gClose g =>
    match s.gos[g]? with
    | some y =>
      match y.dout with
      | some ch =>
        if y.pc = .ret ∧ isOpen s ch = true then
          some { s with chans := s.chans.set ch true, gos := s.gos.set g { y with pc := .done } }
        else none
      | none => none
    | none => none
  | .gPanic g =>
    match s.gos[g]? with
    | some y =>
      if (y.pc = .ret ∧ optOpen s y.dout = false)
          ∨ (y.pc = .l41 ∧ optClosed s s.lout = true) then
        some (setGor s g { y with pc := .dead })
      else none
    | none => none

/-- The effect of a list of events, `none` when one of them is not enabled. -/
def run {α : Type} [DecidableEq α] (s : Sys α) : List (Event α) → Option (Sys α)
  | [] => some s
  | e :: es =>
    match step s e with
    | some s' => run s' es
    | none => none

/-! ## Executions -/

/-- Number of calls made in a list of events. -/
def invokes {α : Type} : List (Event α) → Nat
  | [] => 0
  | .invoke _ :: es => invokes es + 1
  | _ :: es => invokes es

/-- The call that returns at an event, with the value `Get` returns: `Get`
returns at a handoff from the goroutine or on the closed outbound channel. -/
def getRet {α : Type} : Event α → Option (Nat × Value α)
  | .getRecv c _ v => some (c, v)
  | .getClosed c => some (c, none)
  | _ => none

/-- The event is a call of `Stop`. -/
def isStopCall {α : Type} : Event α → Bool
  | .invoke .stop => true
  | _ => false

/-- The event is a call of `Put`. -/
def isPutCall {α : Type} : Event α → Bool
  | .invoke (.put _) => true
  | _ => false

/-- The event is a call of `Get`. -/
def isGetCall {α : Type} : Event α → Bool
  | .invoke .get => true
  | _ => false

/-- The event is a call of a method. -/
def isCall {α : Type} : Event α → Bool
  | .invoke _ => true
  | _ => false

/-- The event is a step of the coordination goroutine alone. -/
def isGorStep {α : Type} : Event α → Bool
  | .gDefer _ => true
  | .gRecvClosed _ => true
  | .gTest _ => true
  | .gClose _ => true
  | _ => false

/-- The value the goroutine holds after one more event, as the events tell
it: the value of a handoff from a `Put`, nil after a receive from the closed
inbound channel, unchanged otherwise; `none` before the first receive. -/
def heldStep {α : Type} (h : Option (Value α)) : Event α → Option (Value α)
  | .putSend _ _ v => some v
  | .gRecvClosed _ => some none
  | _ => h

/-- The value the goroutine holds after a list of events, as the events tell it. -/
def held {α : Type} (es : List (Event α)) : Option (Value α) := es.foldl heldStep none

/-- The value of the last handoff from a `Put` after one more event. -/
def lastPutStep {α : Type} (h : Option (Value α)) : Event α → Option (Value α)
  | .putSend _ _ v => some v
  | _ => h

/-- The value of the last handoff from a `Put` in a list of events. -/
def lastPut {α : Type} (es : List (Event α)) : Option (Value α) := es.foldl lastPutStep none

/-- Whether a `Put` is in progress after one more event: a call of `Put` begins
one, its handoff or its panic ends it. -/
def busyStep {α : Type} (b : Bool) : Event α → Bool
  | .invoke (.put _) => true
  | .putSend _ _ _ => false
  | .putPanic _ => false
  | _ => b

/-- A `Put` is in progress after a list of events. -/
def putBusy {α : Type} (es : List (Event α)) : Bool := es.foldl busyStep false

/-- One more event of the scan for overlapping `Put` calls: the first component
stays true as long as no `Put` was called while another was in progress, the
second tells whether a `Put` is in progress. -/
def seqStep {α : Type} (st : Bool × Bool) (e : Event α) : Bool × Bool :=
  (st.1 && !(isPutCall e && st.2), busyStep st.2 e)

/-- The calls of `Put` do not overlap: each `Put` is called when no `Put` is
in progress. -/
def seqPuts {α : Type} (es : List (Event α)) : Bool := (es.foldl seqStep (true, false)).1

/-- The step relation: `Step s e s'` lists, event by event, when `e` is enabled
in `s` and the state it leads to. -/
inductive Step {α : Type} : Sys α → Event α → Sys α → Prop where
  | invoke (s : Sys α) (op : Op α) :
      Step s (.invoke op)
        { s with calls := s.calls ++ [{ op := op, pc := .once, cin := none, res := none }] }
  | doStart (s : Sys α) (c : Nat) (x : Call α) (hx : s.calls[c]? = some x)
      (hpc : x.pc = .once) (ho : s.once = .fresh) :
      Step s (.doStart c)
        { s with once := .running c, calls := s.calls.set c { x with pc := .s34 } }
  | doSkip (s : Sys α) (c : Nat) (x : Call α) (hx : s.calls[c]? = some x)
      (hpc : x.pc = .once) (ho : s.once = .done) :
      Step s (.doSkip c) (setCall s c { x with pc := .body })
  | mkIn (s : Sys α) (c : Nat) (x : Call α) (hx : s.calls[c]? = some x) (hpc : x.pc = .s34) :
      Step s (.mkIn c)
        { s with lin := some s.chans.length, chans := s.chans ++ [false],
                 calls := s.calls.set c { x with pc := .s35 } }
  | mkOut (s : Sys α) (c : Nat) (x : Call α) (hx : s.calls[c]? = some x) (hpc : x.pc = .s35) :
      Step s (.mkOut c)
        { s with lout := some s.chans.length, chans := s.chans ++ [false],
                 calls := s.calls.set c { x with pc := .s36 } }
  | copyIn (s : Sys α) (c : Nat) (x : Call α) (hx : s.calls[c]? = some x) (hpc : x.pc = .s36) :
      Step s (.copyIn c) (setCall s c { x with pc := .s37, cin := s.lin })
  | spawn (s : Sys α) (c : Nat) (x : Call α) (hx : s.calls[c]? = some x) (hpc : x.pc = .s37) :
      Step s (.spawn c)
        { s with once := .done,
                 gos := s.gos ++ [{ pc := .l38, cin := x.cin, dout := none,
                                     thing := none, ok := false }],
                 calls := s.calls.set c { x with pc := .body } }
  | putSend (s : Sys α) (c g : Nat) (v : Value α) (x : Call α) (y : Gor α) (ch : Chan)
      (hx : s.calls[c]? = some x) (hy : s.gos[g]? = some y) (hin : s.lin = some ch)
      (hpc : x.pc = .body) (hop : x.op = .put v) (hopen : isOpen s ch = true)
      (hrecv : recvChan s y = some ch) :
      Step s (.putSend c g v)
        { s with calls := s.calls.set c { x with pc := .ret },
                 gos := s.gos.set g (afterRecv y v true) }
  | putPanic (s : Sys α) (c : Nat) (x : Call α) (ch : Chan)
      (hx : s.calls[c]? = some x) (hin : s.lin = some ch)
      (hpc : x.pc = .body) (hop : x.op.isPut = true) (hclosed : isClosed s ch = true) :
      Step s (.putPanic c) (setCall s c { x with pc := .dead })
  | getRecv (s : Sys α) (c g : Nat) (v : Value α) (x : Call α) (y : Gor α) (ch : Chan)
      (hx : s.calls[c]? = some x) (hy : s.gos[g]? = some y) (hout : s.lout = some ch)
      (hpc : x.pc = .body) (hop : x.op = .get) (hopen : isOpen s ch = true)
      (hsel : y.pc = .l41) (hv : y.thing = v) :
      Step s (.getRecv c g v)
        { s with calls := s.calls.set c { x with pc := .ret, res := v },
                 gos := s.gos.set g { y with pc := .l40 } }
  | getClosed (s : Sys α) (c : Nat) (x : Call α) (ch : Chan)
      (hx : s.calls[c]? = some x) (hout : s.lout = some ch)
      (hpc : x.pc = .body) (hop : x.op = .get) (hclosed : isClosed s ch = true) :
      Step s (.getClosed c) (setCall s c { x with pc := .ret, res := none })
  | stopClose (s : Sys α) (c : Nat) (x : Call α) (ch : Chan)
      (hx : s.calls[c]? = some x) (hin : s.lin = some ch)
      (hpc : x.pc = .body) (hop : x.op = .stop) (hopen : isOpen s ch = true) :
      Step s (.stopClose c)
        { s with chans := s.chans.set ch true, calls := s.calls.set c { x with pc := .ret } }
  | stopPanic (s : Sys α) (c : Nat) (x : Call α) (hx : s.calls[c]? = some x)
      (hpc : x.pc = .body) (hop : x.op = .stop) (hno : optOpen s s.lin = false) :
      Step s (.stopPanic c) (setCall s c { x with pc := .dead })
  | gDefer (s : Sys α) (g : Nat) (y : Gor α) (hy : s.gos[g]? = some y) (hpc : y.pc = .l38) :
      Step s (.gDefer g) (setGor s g { y with pc := .l39, dout := s.lout })
  | gRecvClosed (s : Sys α) (g : Nat) (y : Gor α) (ch : Chan) (hy : s.gos[g]? = some y)
      (hrecv : recvChan s y = some ch) (hclosed : isClosed s ch = true) :
      Step s (.gRecvClosed g) (setGor s g (afterRecv y none false))
  | gTest (s : Sys α) (g : Nat) (y : Gor α) (hy : s.gos[g]? = some y) (hpc : y.pc = .l40) :
      Step s (.gTest g) (setGor s g (afterTest y))
  | gClose (s : Sys α) (g : Nat) (y : Gor α) (ch : Chan) (hy : s.gos[g]? = some y)
      (hd : y.dout = some ch) (hpc : y.pc = .ret) (hopen : isOpen s ch = true) :
      Step s (.gClose g)
        { s with chans := s.chans.set ch true, gos := s.gos.set g { y with pc := .done } }
  | gPanic (s : Sys α) (g : Nat) (y : Gor α) (hy : s.gos[g]? = some y)
      (hp : (y.pc = .ret ∧ optOpen s y.dout = false)
          ∨ (y.pc = .l41 ∧ optClosed s s.lout = true)) :
      Step s (.gPanic g) (setGor s g { y with pc := .dead })

/-! ## The invariant of the reachable states -/

/-- Where the program stands while call `x` runs `start`: which channels exist
and what the fields and the local `in` hold, by the line `x` is at. -/
def StartAt {α : Type} (s : Sys α) (x : Call α) : Prop :=
  (x.pc = .s34 ∧ s.chans = [] ∧ s.lin = none ∧ s.lout = none) ∨
  (x.pc = .s35 ∧ s.chans = [false] ∧ s.lin = some 0 ∧ s.lout = none) ∨
  (x.pc = .s36 ∧ s.chans = [false, false] ∧ s.lin = some 0 ∧ s.lout = some 1) ∨
  (x.pc = .s37 ∧ s.chans = [false, false] ∧ s.lin = some 0 ∧ s.lout = some 1 ∧ x.cin = some 0)

/-- What holds of the coordination goroutine once `start` has run, `ci` and
`co` being the closed flags of the inbound and the outbound channel. -/
def GorOk {α : Type} (ci co : Bool) (y : Gor α) : Prop :=
  y.cin = some 0 ∧ (y.pc ≠ .l38 → y.dout = some 1) ∧ y.pc ≠ .dead ∧
  (co = true ↔ y.pc = .done) ∧ (y.pc = .ret ∨ y.pc = .done → ci = true) ∧
  (y.pc = .l40 → y.ok = false → ci = true) ∧ (y.pc = .l41 → y.ok = true)

/-- What holds of every call once `start` has run, `ci` being the closed flag
of the inbound channel. -/
def CallOk {α : Type} (ci : Bool) (x : Call α) : Prop :=
  (x.pc = .once ∨ x.pc = .body ∨ x.pc = .ret ∨ x.pc = .dead) ∧
  (x.pc = .dead → ci = true ∧ x.op ≠ .get) ∧ (x.op = .stop → x.pc = .ret → ci = true)

/-- The invariant of the reachable states, by the state of `l.once`. -/
structure Inv {α : Type} (s : Sys α) : Prop where
  fresh : s.once = .fresh →
    s.lin = none ∧ s.lout = none ∧ s.chans = [] ∧ s.gos = [] ∧
      ∀ (i : Nat) (x : Call α), s.calls[i]? = some x → x.pc = .once
  running : ∀ r, s.once = .running r →
    s.gos = [] ∧ (∀ (i : Nat) (x : Call α), s.calls[i]? = some x → i ≠ r → x.pc = .once) ∧
      ∃ x, s.calls[r]? = some x ∧ StartAt s x
  done : s.once = .done →
    s.lin = some 0 ∧ s.lout = some 1 ∧
      ∃ ci co y, s.chans = [ci, co] ∧ s.gos = [y] ∧ GorOk ci co y ∧
        ∀ (i : Nat) (x : Call α), s.calls[i]? = some x → CallOk ci x

/-! ## Observations on executions used by the claims -/

/-- The event is an entry into `start` (the first `l.once.Do`). -/
def isStart {α : Type} : Event α → Bool
  | .doStart _ => true
  | _ => false

/-- Number of times `start` is entered in a list of events. -/
def starts {α : Type} (es : List (Event α)) : Nat := es.countP isStart

/-- The call has got past its `l.once.Do(l.start)`. -/
def Call.past {α : Type} (x : Call α) : Bool :=
  x.pc = .body ∨ x.pc = .ret ∨ x.pc = .dead

/-- What the events of an execution tell about the state it reaches. -/
structure TInv {α : Type} (es : List (Event α)) (s : Sys α) : Prop where
  len : s.calls.length = invokes es
  op : ∀ (i : Nat) (x : Call α), s.calls[i]? = some x → .invoke x.op ∈ es
  put : ∀ (c g : Nat) (v : Value α), .putSend c g v ∈ es →
    ∃ x, s.calls[c]? = some x ∧ x.op = .put v ∧ x.pc = .ret
  stop : ∀ (c : Nat), .stopClose c ∈ es → ∃ x, s.calls[c]? = some x ∧ x.op = .stop ∧ x.pc = .ret
  get : ∀ (e : Event α), e ∈ es → ∀ (c : Nat) (v : Value α), getRet e = some (c, v) →
    ∃ x, s.calls[c]? = some x ∧ x.op = .get ∧ x.pc = .ret ∧ x.res = v
  closed : isClosed s 0 = true → ∃ c, .stopClose c ∈ es
  recv : ∀ (g : Nat), .gRecvClosed g ∈ es → isClosed s 0 = true
  held0 : s.gos = [] → held es = none
  held1 : ∀ (g : Nat) (y : Gor α), s.gos[g]? = some y →
    (y.pc = .l38 ∨ y.pc = .l39 → held es = none) ∧
    (y.pc ≠ .l38 → y.pc ≠ .l39 → held es = some y.thing)

/-- `Stop` is never called in the list of events. -/
def noStop {α : Type} (es : List (Event α)) : Bool := es.all (fun e => !isStopCall e)

/-- `Put` is never called in the list of events. -/
def noPut {α : Type} (es : List (Event α)) : Bool := es.all (fun e => !isPutCall e)

/-- No method is called in the list of events. -/
def noCall {α : Type} (es : List (Event α)) : Bool := es.all (fun e => !isCall e)

/-- Every `Put` called so far has returned or panicked. -/
def PutsDone {α : Type} (s : Sys α) : Prop :=
  ∀ (i : Nat) (x : Call α), s.calls[i]? = some x → x.op.isPut = true →
    x.pc = .ret ∨ x.pc = .dead

/-- At most one `Put` is in progress. -/
def OnePut {α : Type} (s : Sys α) : Prop :=
  ∀ (i j : Nat) (x z : Call α), s.calls[i]? = some x → s.calls[j]? = some z →
    x.op.isPut = true → z.op.isPut = true → x.pc ≠ .ret → x.pc ≠ .dead →
    z.pc ≠ .ret → z.pc ≠ .dead → i = j

/-- The arguments of the calls of `Put` in a list of events, in call order. -/
def putCalls {α : Type} (es : List (Event α)) : List (Value α) :=
  es.filterMap (fun e => match e with
    | .invoke (.put v) => some v
    | _ => none)

/-- The methods called in a list of events, in call order. -/
def callsOf {α : Type} (es : List (Event α)) : List (Op α) :=
  es.filterMap (fun e => match e with
    | .invoke op => some op
    | _ => none)

/-- The goroutine is in its serving loop (at the `select`, or at the loop
condition with `ok` true) and holds `v`. -/
def Serving {α : Type} (s : Sys α) (v : Value α) : Prop :=
  ∃ y, s.gos = [y] ∧ (y.pc = .l41 ∨ (y.pc = .l40 ∧ y.ok = true)) ∧ y.thing = v

/-- One `Get` run alone, from its call to its return of `v`: the call (which
gets call id `c`), its `l.once.Do`, the goroutine's loop condition when it
is at line 40 (`test`), and the handoff. -/
def getBlock {α : Type} (c : Nat) (test : Bool) (v : Value α) : List (Event α) :=
  [.invoke .get, .doSkip c] ++ (if test then [.gTest 0] else []) ++ [.getRecv c 0 v]

/-- The schedule of `k` calls of `Get` one after the other, each returning `v`,
the first with call id `c`; after a handoff the goroutine is at line 40. -/
def seqGets {α : Type} (c : Nat) (test : Bool) (v : Value α) : Nat → List (Event α)
  | 0 => []
  | k + 1 => getBlock c test v ++ seqGets (c + 1) true v k

/-- The goroutine is at the loop condition of line 40. -/
def atTest {α : Type} (s : Sys α) : Bool := s.gos.any (fun y => decide (y.pc = .l40))

/-- An execution in which a `Get` called after `Stop` has returned is handed the
value of the earlier `Put`: `Put(7)` runs `start` and hands 7 over, the
goroutine goes back to its `select`, `Stop` closes the inbound channel and
returns, `Get` is called, and the `select` takes its send branch. -/
def staleTrace : List (Event Nat) :=
  [.invoke (.put (some 7)), .doStart 0, .mkIn 0, .mkOut 0, .copyIn 0, .spawn 0, .gDefer 0,
   .putSend 0 0 (some 7), .gTest 0, .invoke .stop, .doSkip 1, .stopClose 1,
   .invoke .get, .doSkip 2, .getRecv 2 0 (some 7)]

/-- Bound on the number of steps a call still takes when no handoff is ever
possible, the steps of the goroutine it may still spawn included. -/
def CPC.rank : CPC → Nat
  | .once => 12
  | .s34 => 11
  | .s35 => 10
  | .s36 => 9
  | .s37 => 8
  | .body => 1
  | .ret => 0
  | .dead => 0

/-- Bound on the number of steps the goroutine still takes when no handoff is
ever possible. -/
def Gor.rank {α : Type} (y : Gor α) : Nat :=
  match y.pc with
  | .l38 => 6
  | .l39 => 5
  | .l40 => if y.ok = true then 4 else 2
  | .l41 => 3
  | .ret => 1
  | .done => 0
  | .dead => 0

/-- Bound on the number of steps left in a state when no handoff is ever possible. -/
def work {α : Type} (s : Sys α) : Nat :=
  (s.calls.map (fun x => x.pc.rank)).sum + (s.gos.map Gor.rank).sum

/-! ## Sample executions -/

/-- The state once `start` has run: the two channels with their closed flags,
one goroutine and the calls. -/
def ranState (ci co : Bool) (g : Gor Nat) (calls : List (Call Nat)) : Sys Nat :=
  { lin := some 0, lout := some 1, once := .done, chans := [ci, co], gos := [g], calls := calls }

/-- The goroutine past line 38, at `pc`, holding `thing`. -/
def gorAt (pc : GPC) (thing : Value Nat) (ok : Bool) : Gor Nat :=
  { pc := pc, cin := some 0, dout := some 1, thing := thing, ok := ok }

/-- The goroutine just spawned. -/
def gorNew : Gor Nat := { pc := .l38, cin := some 0, dout := none, thing := none, ok := false }

/-- `Put(1)` comes first, runs `start` and hands 1 over. -/
def demoStart : List (Event Nat) :=
  [.invoke (.put (some 1)), .doStart 0, .mkIn 0, .mkOut 0, .copyIn 0, .spawn 0, .gDefer 0,
   .putSend 0 0 (some 1)]

/-- After `demoStart`, before `Put(2)` hands 2 over. -/
def winsHead : List (Event Nat) :=
  demoStart ++ [.invoke (.put (some 2)), .doSkip 1, .gTest 0]

/-- `Put(1)`, then `Put(2)`, then a `Get`, one after the other. -/
def winsTrace : List (Event Nat) :=
  winsHead ++ .putSend 1 0 (some 2) ::
    ([] ++ .invoke .get :: ([.doSkip 2, .gTest 0] ++ .getRecv 2 0 (some 2) :: []))

/-- The state at the call of the `Get` in `winsTrace`. -/
def winsMid : Sys Nat :=
  ranState false false (gorAt .l40 (some 2) true)
    [{ op := .put (some 1), pc := .ret, cin := some 0, res := none },
     { op := .put (some 2), pc := .ret, cin := none, res := none },
     { op := .get, pc := .once, cin := none, res := none }]

/-- The state `winsTrace` leads to. -/
def winsState : Sys Nat :=
  ranState false false (gorAt .l40 (some 2) true)
    [{ op := .put (some 1), pc := .ret, cin := some 0, res := none },
     { op := .put (some 2), pc := .ret, cin := none, res := none },
     { op := .get, pc := .ret, cin := none, res := some 2 }]

/-- A `Get` comes first, runs `start` and waits; then `Put(1)` hands 1 over. -/
def blockTrace : List (Event Nat) :=
  [.invoke .get, .doStart 0, .mkIn 0, .mkOut 0, .copyIn 0, .spawn 0, .gDefer 0,
   .invoke (.put (some 1)), .doSkip 1, .putSend 1 0 (some 1)]

/-- The state `blockTrace` leads to: the `Get` is still pending. -/
def blockState : Sys Nat :=
  ranState false false (gorAt .l40 (some 1) true)
    [{ op := .get, pc := .body, cin := some 0, res := none },
     { op := .put (some 1), pc := .ret, cin := none, res := none }]

/-- A `Get` comes first and runs `start`; then `Stop` closes the inbound channel. -/
def shutTrace : List (Event Nat) :=
  [.invoke .get, .doStart 0, .mkIn 0, .mkOut 0, .copyIn 0, .spawn 0,
   .invoke .stop, .doSkip 1, .stopClose 1]

/-- The state `shutTrace` leads to: the `Get` is pending, the `Stop` has returned. -/
def shutState : Sys Nat :=
  ranState true false gorNew
    [{ op := .get, pc := .body, cin := some 0, res := none },
     { op := .stop, pc := .ret, cin := none, res := none }]

/-- A `Get` comes first, runs `start` and waits at its receive. -/
def waitTrace : List (Event Nat) :=
  [.invoke .get, .doStart 0, .mkIn 0, .mkOut 0, .copyIn 0, .spawn 0, .gDefer 0]

/-- The state `waitTrace` leads to. -/
def waitState : Sys Nat :=
  ranState false false (gorAt .l39 none false)
    [{ op := .get, pc := .body, cin := some 0, res := none }]

/-- After `shutTrace`, the goroutine receives nil from the closed inbound channel
and gets to its `select`. -/
def shutHead : List (Event Nat) := shutTrace ++ [.gDefer 0, .gRecvClosed 0, .gTest 0]

/-- After `shutHead`, the `select` hands the nil it holds to the pending `Get`. -/
def shutServed : List (Event Nat) := shutHead ++ .getRecv 0 0 none :: []

/-- The state `shutServed` leads to. -/
def shutServedState : Sys Nat :=
  ranState true false (gorAt .l40 none true)
    [{ op := .get, pc := .ret, cin := some 0, res := none },
     { op := .stop, pc := .ret, cin := none, res := none }]

/-- After `demoStart`, a `Get` is called and gets to its receive. -/
def readHead : List (Event Nat) := demoStart ++ [.gTest 0, .invoke .get, .doSkip 1]

/-- After `demoStart`, a `Get` is called and receives 1. -/
def readTrace : List (Event Nat) := readHead ++ .getRecv 1 0 (some 1) :: []

/-- The state `readTrace` leads to. -/
def readState : Sys Nat :=
  ranState false false (gorAt .l40 (some 1) true)
    [{ op := .put (some 1), pc := .ret, cin := some 0, res := none },
     { op := .get, pc := .ret, cin := none, res := some 1 }]

/-- The state `demoStart` leads to. -/
def demoState : Sys Nat :=
  ranState false false (gorAt .l40 (some 1) true)
    [{ op := .put (some 1), pc := .ret, cin := some 0, res := none }]

/-- `Stop` comes first, runs `start`, closes the inbound channel and returns. -/
def stopPre : List (Event Nat) :=
  [.invoke .stop, .doStart 0, .mkIn 0, .mkOut 0, .copyIn 0, .spawn 0, .stopClose 0]

/-- The state `stopPre` leads to. -/
def stopState : Sys Nat :=
  ranState true false gorNew [{ op := .stop, pc := .ret, cin := some 0, res := none }]

/-- After `stopPre`, with a further call of `op` that has got to its channel operation. -/
def stopThen (op : Op Nat) : Sys Nat :=
  ranState true false gorNew
    [{ op := .stop, pc := .ret, cin := some 0, res := none },
     { op := op, pc := .body, cin := none, res := none }]

/-- `Stop` alone, and the goroutine run to its end: 13 events. -/
def aloneTrace : List (Event Nat) :=
  stopPre ++ [.gDefer 0, .gRecvClosed 0, .gTest 0, .gRecvClosed 0, .gTest 0, .gClose 0]

/-- The state `aloneTrace` leads to. -/
def aloneState : Sys Nat :=
  ranState true true (gorAt .done none false)
    [{ op := .stop, pc := .ret, cin := some 0, res := none }]

/-- The state `staleTrace` leads to. -/
def staleState : Sys Nat :=
  ranState true false (gorAt .l40 (some 7) true)
    [{ op := .put (some 7), pc := .ret, cin := some 0, res := none },
     { op := .stop, pc := .ret, cin := none, res := none },
     { op := .get, pc := .ret, cin := none, res := some 7 }]

/-- The state at the call of the `Get` in `staleTrace`. -/
def staleMid : Sys Nat :=
  ranState true false (gorAt .l41 (some 7) true)
    [{ op := .put (some 7), pc := .ret, cin := some 0, res := none },
     { op := .stop, pc := .ret, cin := none, res := none },
     { op := .get, pc := .once, cin := none, res := none }]

/-- The events of `staleTrace` before the close by `Stop`. -/
def staleHead : List (Event Nat) :=
  [.invoke (.put (some 7)), .doStart 0, .mkIn 0, .mkOut 0, .copyIn 0, .spawn 0, .gDefer 0,
   .putSend 0 0 (some 7), .gTest 0, .invoke .stop, .doSkip 1]

/-- A `Get` comes first and has run `start` up to line 37. -/
def lazyPre : List (Event Nat) := [.invoke .get, .doStart 0, .mkIn 0, .mkOut 0, .copyIn 0]

/-- The state `lazyPre` leads to. -/
def lazyMid : Sys Nat :=
  { lin := some 0, lout := some 1, once := .running 0, chans := [false, false], gos := [],
    calls := [{ op := .get, pc := .s37, cin := some 0, res := none }] }

/-- The goroutine is spawned, then `Put(5)` is called and hands 5 over. -/
def lazyPost : List (Event Nat) :=
  [.spawn 0, .invoke (.put (some 5)), .doSkip 1, .gDefer 0, .putSend 1 0 (some 5)]

/-- The state `lazyPost` leads to from `lazyMid`. -/
def lazyEnd : Sys Nat :=
  ranState false false (gorAt .l40 (some 5) true)
    [{ op := .get, pc := .body, cin := some 0, res := none },
     { op := .put (some 5), pc := .ret, cin := none, res := none }]

set_option linter.unusedSectionVars false
variable {α : Type} [DecidableEq α]

/-! ## Basic facts about executions -/

theorem Step.of_step {s s' : Sys α} {e : Event α} (h : step s e = some s') : Step s e s' := by
  cases e <;> simp only [step] at h
  case invoke op => cases h; exact .invoke s op
  case doStart c =>
    split at h
    · split_ifs at h with hc
      cases h; exact .doStart s c _ ‹_› hc.1 hc.2
    · cases h
  case doSkip c =>
    split at h
    · split_ifs at h with hc
      cases h; exact .doSkip s c _ ‹_› hc.1 hc.2
    · cases h
  case mkIn c =>
    split at h
    · split_ifs at h with hc
      cases h; exact .mkIn s c _ ‹_› hc
    · cases h
  case mkOut c =>
    split at h
    · split_ifs at h with hc
      cases h; exact .mkOut s c _ ‹_› hc
    · cases h
  case copyIn c =>
    split at h
    · split_ifs at h with hc
      cases h; exact .copyIn s c _ ‹_› hc
    · cases h
  case spawn c =>
    split at h
    · split_ifs at h with hc
      cases h; exact .spawn s c _ ‹_› hc
    · cases h
  case putSend c g v =>
    split at h
    · split_ifs at h with hc
      cases h; exact .putSend s c g v _ _ _ ‹_› ‹_› ‹_› hc.1 hc.2.1 hc.2.2.1 hc.2.2.2
    · cases h
  case putPanic c =>
    split at h
    · split_ifs at h with hc
      cases h; exact .putPanic s c _ _ ‹_› ‹_› hc.1 hc.2.1 hc.2.2
    · cases h
  case getRecv c g v =>
    split at h
    · split_ifs at h with hc
      cases h; exact .getRecv s c g v _ _ _ ‹_› ‹_› ‹_› hc.1 hc.2.1 hc.2.2.1 hc.2.2.2.1 hc.2.2.2.2
    · cases h
  case getClosed c =>
    split at h
    · split_ifs at h with hc
      cases h; exact .getClosed s c _ _ ‹_› ‹_› hc.1 hc.2.1 hc.2.2
    · cases h
  case stopClose c =>
    split at h
    · split_ifs at h with hc
      cases h; exact .stopClose s c _ _ ‹_› ‹_› hc.1 hc.2.1 hc.2.2
    · cases h
  case stopPanic c =>
    split at h
    · split_ifs at h with hc
      cases h; exact .stopPanic s c _ ‹_› hc.1 hc.2.1 hc.2.2
    · cases h
  case gDefer g =>
    split at h
    · split_ifs at h with hc
      cases h; exact .gDefer s g _ ‹_› hc
    · cases h
  case gRecvClosed g =>
    split at h
    · split at h
      · split_ifs at h with hc
        cases h; exact .gRecvClosed s g _ _ ‹_› ‹_› hc
      · cases h
    · cases h
  case gTest g =>
    split at h
    · split_ifs at h with hc
      cases h; exact .gTest s g _ ‹_› hc
    · cases h
  case gClose g =>
    split at h
    · split at h
      · split_ifs at h with hc
        cases h; exact .gClose s g _ _ ‹_› ‹_› hc.1 hc.2
      · cases h
    · cases h
  case gPanic g =>
    split at h
    · split_ifs at h with hc
      cases h; exact .gPanic s g _ ‹_› hc
    · cases h

theorem run_nil (s : Sys α) : run s [] = some s := rfl

theorem run_cons (s : Sys α) (e : Event α) (es : List (Event α)) :
    run s (e :: es) = (step s e).bind (fun s' => run s' es) := by
  simp only [run]
  cases step s e <;> rfl

theorem run_append (s : Sys α) (a b : List (Event α)) :
    run s (a ++ b) = (run s a).bind (fun s' => run s' b) := by
  induction a generalizing s with
  | nil => rfl
  | cons e a ih =>
    simp only [List.cons_append, run_cons]
    cases step s e with
    | none => rfl
    | some s' => simpa using ih s'

theorem run_append_some {s s' : Sys α} {a b : List (Event α)} (h : run s (a ++ b) = some s') :
    ∃ m, run s a = some m ∧ run m b = some s' := by
  rw [run_append] at h
  cases hm : run s a with
  | none => simp [hm] at h
  | some m => exact ⟨m, rfl, by simpa [hm] using h⟩

theorem run_snoc_some {s s' : Sys α} {a : List (Event α)} {e : Event α}
    (h : run s (a ++ [e]) = some s') : ∃ m, run s a = some m ∧ step m e = some s' := by
  obtain ⟨m, hm, he⟩ := run_append_some h
  refine ⟨m, hm, ?_⟩
  rw [run_cons] at he
  cases hs : step m e with
  | none => simp [hs] at he
  | some t => simpa [hs, run_nil] using he

/-- Induction over the executions from a state `s0`: a property of the
events so far and the state reached that holds at the start and is kept by
every enabled event holds after every execution. -/
theorem run_induction {s0 : Sys α} (P : List (Event α) → Sys α → Prop) (h0 : P [] s0)
    (hstep : ∀ es s e s', run s0 es = some s → P es s → step s e = some s' → P (es ++ [e]) s') :
    ∀ es s, run s0 es = some s → P es s := by
  intro es
  induction es using List.reverseRecOn with
  | nil => intro s h; cases h; exact h0
  | append_singleton es e ih =>
    intro s h
    obtain ⟨m, hm, he⟩ := run_snoc_some h
    exact hstep es m e s hm (ih m hm) he

/-! ## The invariant holds in every reachable state -/

theorem inv_init : Inv (init : Sys α) where
  fresh := fun _ => ⟨rfl, rfl, rfl, rfl, fun i x h => by simp [Latest.init] at h⟩
  running := fun r h => by simp [Latest.init] at h
  done := fun h => by simp [Latest.init] at h

/-- A call inside `start` is the one call running `start`. -/
theorem Inv.of_start {s : Sys α} (hi : Inv s) {c : Nat} {x : Call α} (hx : s.calls[c]? = some x)
    (hpc : x.pc = .s34 ∨ x.pc = .s35 ∨ x.pc = .s36 ∨ x.pc = .s37) :
    s.once = .running c ∧ s.gos = [] ∧ (∀ i z, s.calls[i]? = some z → i ≠ c → z.pc = .once) ∧
      StartAt s x := by
  cases ho : s.once with
  | fresh =>
    have := (hi.fresh ho).2.2.2.2 c x hx
    rw [this] at hpc; simp at hpc
  | done =>
    obtain ⟨_, _, ci, co, y, _, _, _, hc⟩ := hi.done ho
    have := (hc c x hx).1
    rcases this with h | h | h | h <;> rw [h] at hpc <;> simp at hpc
  | running r =>
    obtain ⟨hg, hoth, z, hz, hst⟩ := hi.running r ho
    by_cases hcr : c = r
    · subst hcr
      rw [hx] at hz; cases hz
      exact ⟨rfl, hg, hoth, hst⟩
    · have := hoth c x hx hcr
      rw [this] at hpc; simp at hpc

/-- A call past `l.once.Do` witnesses that `start` has run. -/
theorem Inv.of_past {s : Sys α} (hi : Inv s) {c : Nat} {x : Call α} (hx : s.calls[c]? = some x)
    (hpc : x.pc = .body ∨ x.pc = .ret ∨ x.pc = .dead) : s.once = .done := by
  cases ho : s.once with
  | fresh =>
    have := (hi.fresh ho).2.2.2.2 c x hx
    rw [this] at hpc; simp at hpc
  | done => rfl
  | running r =>
    obtain ⟨hg, hoth, z, hz, hst⟩ := hi.running r ho
    by_cases hcr : c = r
    · subst hcr
      rw [hx] at hz; cases hz
      rcases hst with h | h | h | h <;> rw [h.1] at hpc <;> simp at hpc
    · have := hoth c x hx hcr
      rw [this] at hpc; simp at hpc

/-- A goroutine exists only once `start` has run, and it is goroutine 0. -/
theorem Inv.of_gor {s : Sys α} (hi : Inv s) {g : Nat} {y : Gor α} (hy : s.gos[g]? = some y) :
    s.once = .done ∧ g = 0 ∧ s.gos = [y] := by
  cases ho : s.once with
  | fresh =>
    have := (hi.fresh ho).2.2.2.1
    rw [this] at hy; simp at hy
  | running r =>
    have := (hi.running r ho).1
    rw [this] at hy; simp at hy
  | done =>
    obtain ⟨_, _, ci, co, z, _, hg, _, _⟩ := hi.done ho
    rw [hg] at hy
    cases g with
    | zero => simp at hy; subst hy; exact ⟨rfl, rfl, hg⟩
    | succ n => simp at hy

theorem forall_set {β : Type} {l : List β} {c : Nat} {x' : β} {P : Nat → β → Prop}
    (h : ∀ i z, l[i]? = some z → i ≠ c → P i z) (hx : P c x') :
    ∀ i z, (l.set c x')[i]? = some z → P i z := by
  intro i z hz
  rw [List.getElem?_set] at hz
  by_cases hci : c = i
  · subst hci
    rw [if_pos rfl] at hz
    split_ifs at hz
    cases hz; exact hx
  · rw [if_neg hci] at hz
    exact h i z hz (fun h' => hci h'.symm)

theorem forall_snoc {β : Type} {l : List β} {x' : β} {P : Nat → β → Prop}
    (h : ∀ i z, l[i]? = some z → P i z) (hx : P l.length x') :
    ∀ i z, (l ++ [x'])[i]? = some z → P i z := by
  intro i z hz
  rw [List.getElem?_append] at hz
  split_ifs at hz with hlt
  · exact h i z hz
  · have : i - l.length = 0 := by
      by_contra hne
      obtain ⟨k, hk⟩ := Nat.exists_eq_succ_of_ne_zero hne
      rw [hk] at hz; simp at hz
    rw [this] at hz
    simp at hz
    have : i = l.length := by omega
    subst this; subst hz; exact hx

theorem Inv.mk_done {s : Sys α} (ho : s.once = .done) (hin : s.lin = some 0)
    (hout : s.lout = some 1) (ci co : Bool) (y : Gor α) (hch : s.chans = [ci, co])
    (hg : s.gos = [y]) (hgo : GorOk ci co y)
    (hc : ∀ (i : Nat) (x : Call α), s.calls[i]? = some x → CallOk ci x) : Inv s where
  fresh := fun h => by rw [ho] at h; cases h
  running := fun r h => by rw [ho] at h; cases h
  done := fun _ => ⟨hin, hout, ci, co, y, hch, hg, hgo, hc⟩

theorem Inv.mk_running {s : Sys α} (r : Nat) (ho : s.once = .running r) (hg : s.gos = [])
    (hoth : ∀ (i : Nat) (x : Call α), s.calls[i]? = some x → i ≠ r → x.pc = .once)
    (x : Call α) (hx : s.calls[r]? = some x) (hst : StartAt s x) : Inv s where
  fresh := fun h => by rw [ho] at h; cases h
  running := fun r' h => by
    rw [ho] at h; cases h
    exact ⟨hg, hoth, x, hx, hst⟩
  done := fun h => by rw [ho] at h; cases h

/-- What the invariant says once `start` has run. -/
theorem Inv.at_done {s : Sys α} (hi : Inv s) (ho : s.once = .done) :
    s.lin = some 0 ∧ s.lout = some 1 ∧
      ∃ ci co y, s.chans = [ci, co] ∧ s.gos = [y] ∧ GorOk ci co y ∧
        ∀ (i : Nat) (x : Call α), s.calls[i]? = some x → CallOk ci x := hi.done ho

theorem StartAt.at34 {s : Sys α} {x : Call α} (h : StartAt s x) (hpc : x.pc = .s34) :
    s.chans = [] ∧ s.lin = none ∧ s.lout = none := by
  rcases h with h | h | h | h
  · exact h.2
  all_goals (rw [hpc] at h; simp at h)

theorem StartAt.at35 {s : Sys α} {x : Call α} (h : StartAt s x) (hpc : x.pc = .s35) :
    s.chans = [false] ∧ s.lin = some 0 ∧ s.lout = none := by
  rcases h with h | h | h | h
  · rw [hpc] at h; simp at h
  · exact h.2
  all_goals (rw [hpc] at h; simp at h)

theorem StartAt.at36 {s : Sys α} {x : Call α} (h : StartAt s x) (hpc : x.pc = .s36) :
    s.chans = [false, false] ∧ s.lin = some 0 ∧ s.lout = some 1 := by
  rcases h with h | h | h | h
  · rw [hpc] at h; simp at h
  · rw [hpc] at h; simp at h
  · exact h.2
  · rw [hpc] at h; simp at h

theorem StartAt.at37 {s : Sys α} {x : Call α} (h : StartAt s x) (hpc : x.pc = .s37) :
    s.chans = [false, false] ∧ s.lin = some 0 ∧ s.lout = some 1 ∧ x.cin = some 0 := by
  rcases h with h | h | h | h
  · rw [hpc] at h; simp at h
  · rw [hpc] at h; simp at h
  · rw [hpc] at h; simp at h
  · exact h.2

/-- Every enabled event keeps the invariant. -/
theorem Inv.preserved {s s' : Sys α} {e : Event α} (hi : Inv s) (h : Step s e s') : Inv s' := by
  cases h with
  | invoke op =>
    refine ⟨fun ho => ?_, fun r ho => ?_, fun ho => ?_⟩
    · obtain ⟨h1, h2, h3, h4, h5⟩ := hi.fresh ho
      exact ⟨h1, h2, h3, h4, forall_snoc h5 rfl⟩
    · obtain ⟨h1, h2, x, hx, hst⟩ := hi.running r ho
      refine ⟨h1, ?_, x, ?_, hst⟩
      · exact forall_snoc (P := fun i (z : Call α) => i ≠ r → z.pc = .once) h2 (fun _ => rfl)
      · show (s.calls ++ _)[r]? = some x
        rw [List.getElem?_append_left (List.getElem?_eq_some.mp hx).1]; exact hx
    · obtain ⟨h1, h2, ci, co, y, h3, h4, h5, h6⟩ := hi.done ho
      refine ⟨h1, h2, ci, co, y, h3, h4, h5, forall_snoc h6 ?_⟩
      exact ⟨Or.inl rfl, (by simp), (by simp)⟩
  | doStart c x hx hpc ho =>
    obtain ⟨h1, h2, h3, h4, h5⟩ := hi.fresh ho
    refine Inv.mk_running c rfl h4 ?_ { x with pc := .s34 } ?_ (Or.inl ⟨rfl, h3, h1, h2⟩)
    · exact forall_set (P := fun i (z : Call α) => i ≠ c → z.pc = .once) (fun i z hz _ _ => h5 i z hz)
        (fun h => absurd rfl h)
    · exact List.getElem?_set_self (List.getElem?_eq_some.mp hx).1
  | doSkip c x hx hpc ho =>
    obtain ⟨h1, h2, ci, co, y, h3, h4, h5, h6⟩ := hi.done ho
    refine Inv.mk_done ho h1 h2 ci co y h3 h4 h5 ?_
    exact forall_set (fun i z hz _ => h6 i z hz)
      ⟨Or.inr (Or.inl rfl), (by simp), (by simp)⟩
  | mkIn c x hx hpc =>
    obtain ⟨ho, hg, hoth, hst⟩ := hi.of_start hx (Or.inl hpc)
    have h := hst.at34 hpc
    refine Inv.mk_running c ho hg ?_ { x with pc := .s35 } ?_ ?_
    · exact forall_set (P := fun i (z : Call α) => i ≠ c → z.pc = .once)
        (fun i z hz hne _ => hoth i z hz hne) (fun h => absurd rfl h)
    · exact List.getElem?_set_self (List.getElem?_eq_some.mp hx).1
    · exact Or.inr (Or.inl ⟨rfl, by simp [h.1], by simp [h.1], h.2.2⟩)
  | mkOut c x hx hpc =>
    obtain ⟨ho, hg, hoth, hst⟩ := hi.of_start hx (Or.inr (Or.inl hpc))
    have h := hst.at35 hpc
    refine Inv.mk_running c ho hg ?_ { x with pc := .s36 } ?_ ?_
    · exact forall_set (P := fun i (z : Call α) => i ≠ c → z.pc = .once)
        (fun i z hz hne _ => hoth i z hz hne) (fun h => absurd rfl h)
    · exact List.getElem?_set_self (List.getElem?_eq_some.mp hx).1
    · exact Or.inr (Or.inr (Or.inl ⟨rfl, by simp [h.1], h.2.1, by simp [h.1]⟩))
  | copyIn c x hx hpc =>
    obtain ⟨ho, hg, hoth, hst⟩ := hi.of_start hx (Or.inr (Or.inr (Or.inl hpc)))
    have h := hst.at36 hpc
    refine Inv.mk_running c ho hg ?_ { x with pc := .s37, cin := s.lin } ?_ ?_
    · exact forall_set (P := fun i (z : Call α) => i ≠ c → z.pc = .once)
        (fun i z hz hne _ => hoth i z hz hne) (fun h => absurd rfl h)
    · exact List.getElem?_set_self (List.getElem?_eq_some.mp hx).1
    · exact Or.inr (Or.inr (Or.inr ⟨rfl, h.1, h.2.1, h.2.2, h.2.1⟩))
  | spawn c x hx hpc =>
    obtain ⟨ho, hg, hoth, hst⟩ := hi.of_start hx (Or.inr (Or.inr (Or.inr hpc)))
    have h := hst.at37 hpc
    refine Inv.mk_done rfl h.2.1 h.2.2.1 false false
      { pc := .l38, cin := x.cin, dout := none, thing := none, ok := false } h.1
      (by simp [hg]) ?_ ?_
    · exact ⟨h.2.2.2, by simp, by simp, by simp, by simp, by simp, by simp⟩
    · refine forall_set (fun i z hz hne => ?_) ?_
      · have hz1 := hoth i z hz hne
        exact ⟨Or.inl hz1, by simp [hz1], by simp [hz1]⟩
      · exact ⟨Or.inr (Or.inl rfl), (by simp), (by simp)⟩
  | putSend c g v x y ch hx hy hin hpc hop hopen hrecv =>
    have ho := hi.of_past hx (Or.inl hpc)
    obtain ⟨h1, h2, ci, co, y', h3, h4, h5, h6⟩ := hi.done ho
    obtain ⟨-, hg0, hgy⟩ := hi.of_gor hy
    subst hg0
    rw [h4] at hgy; cases hgy
    rw [h1] at hin; cases hin
    have hci : ci = false := by simpa [isOpen, h3] using hopen
    subst hci
    obtain ⟨g1, g2, g3, g4, g5, g6, g7⟩ := h5
    have hpcy : y.pc = .l39 ∨ y.pc = .l41 := by
      unfold recvChan at hrecv
      split at hrecv <;> simp_all
    refine Inv.mk_done ho h1 h2 false co (afterRecv y v true) h3 (by simp [h4]) ?_ ?_
    · rcases hpcy with hp | hp
      · refine ⟨by simp [afterRecv, hp, g1], fun _ => by simpa [afterRecv, hp] using g2 (by simp [hp]),
          by simp [afterRecv, hp], ?_, by simp [afterRecv, hp], by simp [afterRecv, hp],
          by simp [afterRecv, hp]⟩
        rw [g4, hp]; simp [afterRecv, hp]
      · refine ⟨by simp [afterRecv, hp, g1], fun _ => by simpa [afterRecv, hp] using g2 (by simp [hp]),
          by simp [afterRecv, hp], ?_, by simp [afterRecv, hp], by simp [afterRecv, hp],
          by simp [afterRecv, hp]⟩
        rw [g4, hp]; simp [afterRecv, hp]
    · exact forall_set (fun i z hz _ => h6 i z hz)
        ⟨Or.inr (Or.inr (Or.inl rfl)), (by simp), by simp [hop]⟩
  | putPanic c x ch hx hin hpc hop hclosed =>
    have ho := hi.of_past hx (Or.inl hpc)
    obtain ⟨h1, h2, ci, co, y', h3, h4, h5, h6⟩ := hi.done ho
    rw [h1] at hin; cases hin
    have hci : ci = true := by simpa [isClosed, h3] using hclosed
    refine Inv.mk_done ho h1 h2 ci co y' h3 h4 h5 ?_
    refine forall_set (fun i z hz _ => h6 i z hz)
        ⟨Or.inr (Or.inr (Or.inr rfl)), fun _ => ⟨hci, ?_⟩, (by simp)⟩
    intro hget
    have hget' : x.op = .get := hget
    rw [hget'] at hop
    simp [Op.isPut] at hop
  | getRecv c g v x y ch hx hy hout hpc hop hopen hsel hv =>
    have ho := hi.of_past hx (Or.inl hpc)
    obtain ⟨h1, h2, ci, co, y', h3, h4, h5, h6⟩ := hi.done ho
    obtain ⟨-, hg0, hgy⟩ := hi.of_gor hy
    subst hg0
    rw [h4] at hgy; cases hgy
    obtain ⟨g1, g2, g3, g4, g5, g6, g7⟩ := h5
    refine Inv.mk_done ho h1 h2 ci co { y with pc := .l40 } h3 (by simp [h4]) ?_ ?_
    · refine ⟨g1, fun _ => g2 (by simp [hsel]), by simp, ?_, by simp, ?_, by simp⟩
      · rw [g4, hsel]; simp
      · intro _ hok
        simp [g7 hsel] at hok
    · exact forall_set (fun i z hz _ => h6 i z hz)
        ⟨Or.inr (Or.inr (Or.inl rfl)), (by simp), by simp [hop]⟩
  | getClosed c x ch hx hout hpc hop hclosed =>
    have ho := hi.of_past hx (Or.inl hpc)
    obtain ⟨h1, h2, ci, co, y', h3, h4, h5, h6⟩ := hi.done ho
    refine Inv.mk_done ho h1 h2 ci co y' h3 h4 h5 ?_
    exact forall_set (fun i z hz _ => h6 i z hz)
        ⟨Or.inr (Or.inr (Or.inl rfl)), (by simp), by simp [hop]⟩
  | stopClose c x ch hx hin hpc hop hopen =>
    have ho := hi.of_past hx (Or.inl hpc)
    obtain ⟨h1, h2, ci, co, y', h3, h4, h5, h6⟩ := hi.done ho
    rw [h1] at hin; cases hin
    obtain ⟨g1, g2, g3, g4, g5, g6, g7⟩ := h5
    refine Inv.mk_done ho h1 h2 true co y' (by simp [h3]) h4
      ⟨g1, g2, g3, g4, fun _ => rfl, fun _ _ => rfl, g7⟩ ?_
    refine forall_set (fun i z hz _ => ?_) ⟨Or.inr (Or.inr (Or.inl rfl)), (by simp),
      fun _ _ => rfl⟩
    obtain ⟨c1, c2, c3⟩ := h6 i z hz
    exact ⟨c1, fun h => ⟨rfl, (c2 h).2⟩, fun _ _ => rfl⟩
  | stopPanic c x hx hpc hop hno =>
    have ho := hi.of_past hx (Or.inl hpc)
    obtain ⟨h1, h2, ci, co, y', h3, h4, h5, h6⟩ := hi.done ho
    have hci : ci = true := by
      simp [optOpen, h1, isOpen, h3] at hno
      simpa using hno
    refine Inv.mk_done ho h1 h2 ci co y' h3 h4 h5 ?_
    exact forall_set (fun i z hz _ => h6 i z hz)
        ⟨Or.inr (Or.inr (Or.inr rfl)), fun _ => ⟨hci, by simp [hop]⟩, (by simp)⟩
  | gDefer g y hy hpc =>
    obtain ⟨ho, hg0, hgy⟩ := hi.of_gor hy
    subst hg0
    obtain ⟨h1, h2, ci, co, y', h3, h4, h5, h6⟩ := hi.done ho
    rw [h4] at hgy; cases hgy
    obtain ⟨g1, g2, g3, g4, g5, g6, g7⟩ := h5
    refine Inv.mk_done ho h1 h2 ci co { y with pc := .l39, dout := s.lout } h3
      (by simp [setGor, h4]) ?_ h6
    refine ⟨g1, fun _ => h2, by simp, ?_, by simp, by simp, by simp⟩
    rw [g4, hpc]; simp
  | gRecvClosed g y ch hy hrecv hclosed =>
    obtain ⟨ho, hg0, hgy⟩ := hi.of_gor hy
    subst hg0
    obtain ⟨h1, h2, ci, co, y', h3, h4, h5, h6⟩ := hi.done ho
    rw [h4] at hgy; cases hgy
    obtain ⟨g1, g2, g3, g4, g5, g6, g7⟩ := h5
    have hpcy : (y.pc = .l39 ∨ y.pc = .l41) ∧ ch = 0 := by
      unfold recvChan at hrecv
      split at hrecv <;> simp_all
    have hci : ci = true := by
      have := hclosed
      rw [hpcy.2] at this
      simpa [isClosed, h3] using this
    refine Inv.mk_done ho h1 h2 ci co (afterRecv y none false) h3 (by simp [setGor, h4]) ?_ h6
    rcases hpcy.1 with hp | hp
    · refine ⟨by simp [afterRecv, hp, g1], fun _ => by simpa [afterRecv, hp] using g2 (by simp [hp]),
        by simp [afterRecv, hp], ?_, by simp [afterRecv, hp], by simp [afterRecv, hp, hci],
        by simp [afterRecv, hp]⟩
      rw [g4, hp]; simp [afterRecv, hp]
    · refine ⟨by simp [afterRecv, hp, g1], fun _ => by simpa [afterRecv, hp] using g2 (by simp [hp]),
        by simp [afterRecv, hp], ?_, by simp [afterRecv, hp], by simp [afterRecv, hp, hci],
        by simp [afterRecv, hp]⟩
      rw [g4, hp]; simp [afterRecv, hp]
  | gTest g y hy hpc =>
    obtain ⟨ho, hg0, hgy⟩ := hi.of_gor hy
    subst hg0
    obtain ⟨h1, h2, ci, co, y', h3, h4, h5, h6⟩ := hi.done ho
    rw [h4] at hgy; cases hgy
    obtain ⟨g1, g2, g3, g4, g5, g6, g7⟩ := h5
    refine Inv.mk_done ho h1 h2 ci co (afterTest y) h3 (by simp [setGor, h4]) ?_ h6
    cases hok : y.ok with
    | true =>
      refine ⟨by simp [afterTest, hok, g1], fun _ => by simpa [afterTest, hok] using g2 (by simp [hpc]),
        by simp [afterTest, hok], ?_, by simp [afterTest, hok], by simp [afterTest, hok],
        by simp [afterTest, hok]⟩
      rw [g4, hpc]; simp [afterTest, hok]
    | false =>
      refine ⟨by simp [afterTest, hok, g1], fun _ => by simpa [afterTest, hok] using g2 (by simp [hpc]),
        by simp [afterTest, hok], ?_, fun _ => g6 hpc hok, by simp [afterTest, hok],
        by simp [afterTest, hok]⟩
      rw [g4, hpc]; simp [afterTest, hok]
  | gClose g y ch hy hd hpc hopen =>
    obtain ⟨ho, hg0, hgy⟩ := hi.of_gor hy
    subst hg0
    obtain ⟨h1, h2, ci, co, y', h3, h4, h5, h6⟩ := hi.done ho
    rw [h4] at hgy; cases hgy
    obtain ⟨g1, g2, g3, g4, g5, g6, g7⟩ := h5
    have hch : ch = 1 := by
      have := g2 (by simp [hpc])
      rw [hd] at this; simpa using this
    subst hch
    refine Inv.mk_done ho h1 h2 ci true { y with pc := .done } (by simp [h3]) (by simp [h4]) ?_ h6
    exact ⟨g1, fun _ => g2 (by simp [hpc]), by simp, by simp, fun _ => g5 (Or.inl hpc), by simp,
      by simp⟩
  | gPanic g y hy hp =>
    exfalso
    obtain ⟨ho, hg0, hgy⟩ := hi.of_gor hy
    subst hg0
    obtain ⟨h1, h2, ci, co, y', h3, h4, h5, h6⟩ := hi.done ho
    rw [h4] at hgy; cases hgy
    obtain ⟨g1, g2, g3, g4, g5, g6, g7⟩ := h5
    rcases hp with ⟨hp, hq⟩ | ⟨hp, hq⟩
    · have hd := g2 (by simp [hp])
      have hco : co = false := by
        cases co with
        | false => rfl
        | true => rw [g4.mp rfl] at hp; cases hp
      simp [optOpen, hd, isOpen, h3, hco] at hq
    · have hco : co = false := by
        cases co with
        | false => rfl
        | true => rw [g4.mp rfl] at hp; cases hp
      simp [optClosed, h2, isClosed, h3, hco] at hq

/-- The invariant holds after every execution from the zero-value `Latest`. -/
theorem inv_of_run {es : List (Event α)} {s : Sys α} (h : run init es = some s) : Inv s :=
  run_induction (fun _ s => Inv s) inv_init
    (fun _ _ _ _ _ hi hs => hi.preserved (Step.of_step hs)) es s h

/-- The invariant is kept along every execution. -/
theorem inv_along {es : List (Event α)} {s s' : Sys α} (hi : Inv s) (h : run s es = some s') :
    Inv s' :=
  run_induction (fun _ s => Inv s) hi
    (fun _ _ _ _ _ hi hs => hi.preserved (Step.of_step hs)) es s' h

/-! ## Lazy start -/

/-- Induction over the executions from the zero-value `Latest`, with the
invariant at hand. -/
theorem reach_induction (P : List (Event α) → Sys α → Prop) (h0 : P [] init)
    (hstep : ∀ es s e s', run init es = some s → Inv s → P es s → Step s e s' →
      P (es ++ [e]) s') :
    ∀ es s, run init es = some s → P es s :=
  run_induction P h0 (fun es s e s' hr hp hs => hstep es s e s' hr (inv_of_run hr) hp
    (Step.of_step hs))

/-- A property of states kept by every enabled event from a state with the
invariant is kept along every execution from such a state. -/
theorem run_preserve {P : Sys α → Prop}
    (hstep : ∀ s e s', Inv s → P s → Step s e s' → P s')
    {m s : Sys α} {es : List (Event α)} (hi : Inv m) (hp : P m) (h : run m es = some s) : P s := by
  have := run_induction (fun _ s => Inv s ∧ P s) ⟨hi, hp⟩
    (fun _ s e s' _ hip hs =>
      ⟨hip.1.preserved (Step.of_step hs), hstep s e s' hip.1 hip.2 (Step.of_step hs)⟩) es s h
  exact this.2

theorem starts_snoc (es : List (Event α)) (e : Event α) :
    starts (es ++ [e]) = starts es + (if isStart e = true then 1 else 0) := by
  simp [starts, List.countP_append, List.countP_cons]

/-- The number of entries into `start` is 0 while `l.once` is fresh and 1 afterwards. -/
theorem starts_eq {es : List (Event α)} {s : Sys α} (h : run init es = some s) :
    starts es = if s.once = .fresh then 0 else 1 := by
  refine reach_induction (fun es s => starts es = if s.once = .fresh then 0 else 1) ?_ ?_ es s h
  · simp [starts, init]
  · intro es s e s' _ hi ih hs
    rw [starts_snoc, ih]
    cases hs with
    | doStart c x hx hpc ho => simp [isStart, ho]
    | spawn c x hx hpc =>
      have := (hi.of_start hx (Or.inr (Or.inr (Or.inr hpc)))).1
      simp [isStart, this]
    | mkIn c x hx hpc => simp [isStart]
    | mkOut c x hx hpc => simp [isStart]
    | stopClose c x ch hx hin hpc hop hopen => simp [isStart]
    | putSend c g v x y ch hx hy hin hpc hop hopen hrecv => simp [isStart]
    | getRecv c g v x y ch hx hy hout hpc hop hopen hsel hv => simp [isStart]
    | gClose g y ch hy hd hpc hopen => simp [isStart]
    | _ => simp [isStart, setCall, setGor]

/-- Once set, the fields `l.in` and `l.out` keep their value, and once `start`
has run the channels and the goroutines stay the ones it made. -/
theorem fields_stable {m s : Sys α} {es : List (Event α)} (hi : Inv m) (h : run m es = some s) :
    (∀ ch, m.lin = some ch → s.lin = some ch) ∧ (∀ ch, m.lout = some ch → s.lout = some ch) ∧
      (m.once = .done → s.once = .done ∧ s.chans.length = m.chans.length ∧
        s.gos.length = m.gos.length) := by
  refine run_preserve (P := fun s => (∀ ch, m.lin = some ch → s.lin = some ch) ∧
      (∀ ch, m.lout = some ch → s.lout = some ch) ∧
      (m.once = .done → s.once = .done ∧ s.chans.length = m.chans.length ∧
        s.gos.length = m.gos.length)) ?_ hi ⟨fun _ h => h, fun _ h => h, fun h => ⟨h, rfl, rfl⟩⟩ h
  intro s e s' hi ⟨p1, p2, p3⟩ hs
  cases hs with
  | doStart c x hx hpc ho =>
    refine ⟨p1, p2, fun hd => ?_⟩
    have := (p3 hd).1
    rw [ho] at this; cases this
  | mkIn c x hx hpc =>
    obtain ⟨ho, hg, hoth, hst⟩ := hi.of_start hx (Or.inl hpc)
    have h := hst.at34 hpc
    refine ⟨fun ch hch => ?_, p2, fun hd => ?_⟩
    · have := p1 ch hch
      rw [h.2.1] at this; cases this
    · have := (p3 hd).1
      rw [ho] at this; cases this
  | mkOut c x hx hpc =>
    obtain ⟨ho, hg, hoth, hst⟩ := hi.of_start hx (Or.inr (Or.inl hpc))
    have h := hst.at35 hpc
    refine ⟨p1, fun ch hch => ?_, fun hd => ?_⟩
    · have := p2 ch hch
      rw [h.2.2] at this; cases this
    · have := (p3 hd).1
      rw [ho] at this; cases this
  | spawn c x hx hpc =>
    obtain ⟨ho, hg, hoth, hst⟩ := hi.of_start hx (Or.inr (Or.inr (Or.inr hpc)))
    refine ⟨p1, p2, fun hd => ?_⟩
    have := (p3 hd).1
    rw [ho] at this; cases this
  | stopClose c x ch hx hin hpc hop hopen =>
    exact ⟨p1, p2, fun hd => ⟨(p3 hd).1, by simpa using (p3 hd).2.1, (p3 hd).2.2⟩⟩
  | putSend c g v x y ch hx hy hin hpc hop hopen hrecv =>
    exact ⟨p1, p2, fun hd => ⟨(p3 hd).1, (p3 hd).2.1, by simpa using (p3 hd).2.2⟩⟩
  | getRecv c g v x y ch hx hy hout hpc hop hopen hsel hv =>
    exact ⟨p1, p2, fun hd => ⟨(p3 hd).1, (p3 hd).2.1, by simpa using (p3 hd).2.2⟩⟩
  | gClose g y ch hy hd hpc hopen =>
    exact ⟨p1, p2, fun hd => ⟨(p3 hd).1, by simpa using (p3 hd).2.1, by simpa using (p3 hd).2.2⟩⟩
  | invoke op => exact ⟨p1, p2, p3⟩
  | doSkip c x hx hpc ho => exact ⟨p1, p2, p3⟩
  | copyIn c x hx hpc => exact ⟨p1, p2, p3⟩
  | putPanic c x ch hx hin hpc hop hclosed => exact ⟨p1, p2, p3⟩
  | getClosed c x ch hx hout hpc hop hclosed => exact ⟨p1, p2, p3⟩
  | stopPanic c x hx hpc hop hno => exact ⟨p1, p2, p3⟩
  | gDefer g y hy hpc =>
    exact ⟨p1, p2, fun hd => ⟨(p3 hd).1, (p3 hd).2.1, by simpa [setGor] using (p3 hd).2.2⟩⟩
  | gRecvClosed g y ch hy hrecv hclosed =>
    exact ⟨p1, p2, fun hd => ⟨(p3 hd).1, (p3 hd).2.1, by simpa [setGor] using (p3 hd).2.2⟩⟩
  | gTest g y hy hpc =>
    exact ⟨p1, p2, fun hd => ⟨(p3 hd).1, (p3 hd).2.1, by simpa [setGor] using (p3 hd).2.2⟩⟩
  | gPanic g y hy hp =>
    exact ⟨p1, p2, fun hd => ⟨(p3 hd).1, (p3 hd).2.1, by simpa [setGor] using (p3 hd).2.2⟩⟩

/-- At most two channels and at most one goroutine exist in a state with the invariant. -/
theorem Inv.counts {s : Sys α} (hi : Inv s) : s.chans.length ≤ 2 ∧ s.gos.length ≤ 1 := by
  cases ho : s.once with
  | fresh =>
    obtain ⟨_, _, h3, h4, _⟩ := hi.fresh ho
    simp [h3, h4]
  | running r =>
    obtain ⟨hg, _, x, _, hst⟩ := hi.running r ho
    rcases hst with h | h | h | h <;> simp [h.2.1, hg]
  | done =>
    obtain ⟨_, _, ci, co, y, h3, h4, _, _⟩ := hi.done ho
    simp [h3, h4]

/-- C9 (exactly-once lazy start). In every execution from the zero-value
`Latest`, made of any calls of `Put`, `Get` and `Stop` in any interleaving,
split at any point into `pre` and `post`: `start` is entered at most once, and
exactly once as soon as some call has got past its `l.once.Do`; at most two
channels are ever made and at most one coordination goroutine ever exists; a
field `l.in` or `l.out` that has been set is never replaced; once `start` has
run no channel is made and no goroutine is spawned any more; and every call
that has got past its `l.once.Do` finds the fields set to the two channels
`start` made and exactly one goroutine. -/
theorem lazy_start_exactly_once (pre post : List (Event α)) (m s : Sys α)
    (hpre : run init pre = some m) (hpost : run m post = some s) :
    starts (pre ++ post) ≤ 1 ∧
    ((∃ (i : Nat) (x : Call α), s.calls[i]? = some x ∧ x.past = true) →
      starts (pre ++ post) = 1) ∧
    s.chans.length ≤ 2 ∧ s.gos.length ≤ 1 ∧
    (∀ ch, m.lin = some ch → s.lin = some ch) ∧
    (∀ ch, m.lout = some ch → s.lout = some ch) ∧
    (m.once = .done → s.once = .done ∧ s.chans.length = m.chans.length ∧
      s.gos.length = m.gos.length) ∧
    (∀ (i : Nat) (x : Call α), s.calls[i]? = some x → x.past = true →
      s.lin = some 0 ∧ s.lout = some 1 ∧ s.chans.length = 2 ∧ s.gos.length = 1) := by
  have hall : run init (pre ++ post) = some s := by
    rw [run_append, hpre]; exact hpost
  have hi : Inv s := inv_of_run hall
  have hst := starts_eq hall
  have hpast : ∀ (i : Nat) (x : Call α), s.calls[i]? = some x → x.past = true →
      s.once = .done := by
    intro i x hx hp
    refine hi.of_past hx ?_
    simpa [Call.past] using hp
  obtain ⟨f1, f2, f3⟩ := fields_stable (inv_of_run hpre) hpost
  refine ⟨?_, ?_, hi.counts.1, hi.counts.2, f1, f2, f3, ?_⟩
  · rw [hst]; split <;> simp
  · rintro ⟨i, x, hx, hp⟩
    rw [hst, hpast i x hx hp]; simp
  · intro i x hx hp
    obtain ⟨h1, h2, ci, co, y, h3, h4, _, _⟩ := hi.done (hpast i x hx hp)
    simp [h1, h2, h3, h4]

/-! ## What a step never undoes -/

theorem set_mono {l : List (Call α)} {c : Nat} {x x' : Call α} (hx : l[c]? = some x)
    (hop : x'.op = x.op) (hr : x.pc ≠ .ret) (hd : x.pc ≠ .dead) :
    ∀ (i : Nat) (z : Call α), l[i]? = some z →
      ∃ z', (l.set c x')[i]? = some z' ∧ z'.op = z.op ∧ (z.pc = .ret → z' = z) ∧
        (z.pc = .dead → z' = z) := by
  intro i z hz
  by_cases hci : c = i
  · subst hci
    rw [hx] at hz; cases hz
    refine ⟨x', List.getElem?_set_self (List.getElem?_eq_some.mp hx).1, hop, ?_, ?_⟩
    · intro h; exact absurd h hr
    · intro h; exact absurd h hd
  · exact ⟨z, by rw [List.getElem?_set_ne hci]; exact hz, rfl, fun _ => rfl, fun _ => rfl⟩

/-- A step keeps every call, with its method and argument, and leaves the calls
that have returned or panicked as they are. -/
theorem Step.calls_mono {s s' : Sys α} {e : Event α} (h : Step s e s') :
    ∀ (i : Nat) (z : Call α), s.calls[i]? = some z →
      ∃ z', s'.calls[i]? = some z' ∧ z'.op = z.op ∧ (z.pc = .ret → z' = z) ∧
        (z.pc = .dead → z' = z) := by
  cases h with
  | invoke op =>
    intro i z hz
    refine ⟨z, ?_, rfl, fun _ => rfl, fun _ => rfl⟩
    show (s.calls ++ _)[i]? = some z
    rw [List.getElem?_append_left (List.getElem?_eq_some.mp hz).1]; exact hz
  | doStart c x hx hpc ho => exact set_mono hx rfl (by simp [hpc]) (by simp [hpc])
  | doSkip c x hx hpc ho => exact set_mono hx rfl (by simp [hpc]) (by simp [hpc])
  | mkIn c x hx hpc => exact set_mono hx rfl (by simp [hpc]) (by simp [hpc])
  | mkOut c x hx hpc => exact set_mono hx rfl (by simp [hpc]) (by simp [hpc])
  | copyIn c x hx hpc => exact set_mono hx rfl (by simp [hpc]) (by simp [hpc])
  | spawn c x hx hpc => exact set_mono hx rfl (by simp [hpc]) (by simp [hpc])
  | putSend c g v x y ch hx hy hin hpc hop hopen hrecv =>
    exact set_mono hx rfl (by simp [hpc]) (by simp [hpc])
  | putPanic c x ch hx hin hpc hop hclosed =>
    exact set_mono hx rfl (by simp [hpc]) (by simp [hpc])
  | getRecv c g v x y ch hx hy hout hpc hop hopen hsel hv =>
    exact set_mono hx rfl (by simp [hpc]) (by simp [hpc])
  | getClosed c x ch hx hout hpc hop hclosed =>
    exact set_mono hx rfl (by simp [hpc]) (by simp [hpc])
  | stopClose c x ch hx hin hpc hop hopen =>
    exact set_mono hx rfl (by simp [hpc]) (by simp [hpc])
  | stopPanic c x hx hpc hop hno => exact set_mono hx rfl (by simp [hpc]) (by simp [hpc])
  | gDefer g y hy hpc => exact fun i z hz => ⟨z, hz, rfl, fun _ => rfl, fun _ => rfl⟩
  | gRecvClosed g y ch hy hrecv hclosed =>
    exact fun i z hz => ⟨z, hz, rfl, fun _ => rfl, fun _ => rfl⟩
  | gTest g y hy hpc => exact fun i z hz => ⟨z, hz, rfl, fun _ => rfl, fun _ => rfl⟩
  | gClose g y ch hy hd hpc hopen =>
    exact fun i z hz => ⟨z, hz, rfl, fun _ => rfl, fun _ => rfl⟩
  | gPanic g y hy hp => exact fun i z hz => ⟨z, hz, rfl, fun _ => rfl, fun _ => rfl⟩

/-- A step never reopens a channel. -/
theorem Step.closed_mono {s s' : Sys α} {e : Event α} (h : Step s e s') (ch : Chan)
    (hc : isClosed s ch = true) : isClosed s' ch = true := by
  have hc' : s.chans[ch]? = some true := by simpa [isClosed] using hc
  have hlt := (List.getElem?_eq_some.mp hc').1
  have key : ∀ k, (s.chans.set k true)[ch]? = some true := by
    intro k
    rw [List.getElem?_set]
    split_ifs with h1 h2
    · rfl
    · subst h1; exact absurd hlt h2
    · exact hc'
  have app : (s.chans ++ [false])[ch]? = some true := by
    rw [List.getElem?_append_left hlt]; exact hc'
  cases h <;> simp only [isClosed, setCall, setGor, decide_eq_true_eq] <;>
    first | exact hc' | exact key _ | exact app

/-- An execution keeps every call, with its method and argument, and leaves the
calls that have returned or panicked as they are. -/
theorem run_calls_mono {s s' : Sys α} {es : List (Event α)} (h : run s es = some s') :
    ∀ (i : Nat) (z : Call α), s.calls[i]? = some z →
      ∃ z', s'.calls[i]? = some z' ∧ z'.op = z.op ∧ (z.pc = .ret → z' = z) ∧
        (z.pc = .dead → z' = z) := by
  refine run_induction (fun _ t => ∀ (i : Nat) (z : Call α), s.calls[i]? = some z →
      ∃ z', t.calls[i]? = some z' ∧ z'.op = z.op ∧ (z.pc = .ret → z' = z) ∧
        (z.pc = .dead → z' = z)) ?_ ?_ es s' h
  · exact fun i z hz => ⟨z, hz, rfl, fun _ => rfl, fun _ => rfl⟩
  · intro es t e t' _ ih hs i z hz
    obtain ⟨z1, h1, h2, h3, h4⟩ := ih i z hz
    obtain ⟨z2, k1, k2, k3, k4⟩ := (Step.of_step hs).calls_mono i z1 h1
    refine ⟨z2, k1, k2.trans h2, fun hr => ?_, fun hd => ?_⟩
    · have := h3 hr; subst this; exact k3 hr
    · have := h4 hd; subst this; exact k4 hd

/-- An execution never reopens a channel. -/
theorem run_closed_mono {s s' : Sys α} {es : List (Event α)} (h : run s es = some s') (ch : Chan)
    (hc : isClosed s ch = true) : isClosed s' ch = true :=
  run_induction (fun _ t => isClosed t ch = true) hc
    (fun _ _ _ _ _ ih hs => (Step.of_step hs).closed_mono ch ih) es s' h

/-! ## What the events tell about the state -/

theorem invokes_append (a b : List (Event α)) : invokes (a ++ b) = invokes a + invokes b := by
  induction a with
  | nil => simp [invokes]
  | cons e a ih =>
    cases e <;> simp [invokes, ih]
    omega

theorem invokes_snoc (es : List (Event α)) (e : Event α) :
    invokes (es ++ [e]) = invokes es + (if isCall e = true then 1 else 0) := by
  rw [invokes_append]
  cases e <;> simp [invokes, isCall]

theorem held_snoc (es : List (Event α)) (e : Event α) :
    held (es ++ [e]) = heldStep (held es) e := by
  simp [held, List.foldl_append]

theorem mem_snoc {β : Type} {x e : β} {es : List β} : x ∈ es ++ [e] ↔ x ∈ es ∨ x = e := by
  simp

/-- After a step every call is a call there was before, or the call just made. -/
theorem Step.calls_back {s s' : Sys α} {e : Event α} (h : Step s e s') :
    ∀ (i : Nat) (z' : Call α), s'.calls[i]? = some z' →
      (∃ z, s.calls[i]? = some z ∧ z.op = z'.op) ∨ e = .invoke z'.op := by
  cases h with
  | invoke op =>
    exact forall_snoc (P := fun i (z' : Call α) =>
      (∃ z, s.calls[i]? = some z ∧ z.op = z'.op) ∨ Event.invoke op = .invoke z'.op)
      (fun i z hz => Or.inl ⟨z, hz, rfl⟩) (Or.inr rfl)
  | doStart c x hx hpc ho =>
    exact forall_set (fun i z hz _ => Or.inl ⟨z, hz, rfl⟩) (Or.inl ⟨x, hx, rfl⟩)
  | doSkip c x hx hpc ho =>
    exact forall_set (fun i z hz _ => Or.inl ⟨z, hz, rfl⟩) (Or.inl ⟨x, hx, rfl⟩)
  | mkIn c x hx hpc =>
    exact forall_set (fun i z hz _ => Or.inl ⟨z, hz, rfl⟩) (Or.inl ⟨x, hx, rfl⟩)
  | mkOut c x hx hpc =>
    exact forall_set (fun i z hz _ => Or.inl ⟨z, hz, rfl⟩) (Or.inl ⟨x, hx, rfl⟩)
  | copyIn c x hx hpc =>
    exact forall_set (fun i z hz _ => Or.inl ⟨z, hz, rfl⟩) (Or.inl ⟨x, hx, rfl⟩)
  | spawn c x hx hpc =>
    exact forall_set (fun i z hz _ => Or.inl ⟨z, hz, rfl⟩) (Or.inl ⟨x, hx, rfl⟩)
  | putSend c g v x y ch hx hy hin hpc hop hopen hrecv =>
    exact forall_set (fun i z hz _ => Or.inl ⟨z, hz, rfl⟩) (Or.inl ⟨x, hx, rfl⟩)
  | putPanic c x ch hx hin hpc hop hclosed =>
    exact forall_set (fun i z hz _ => Or.inl ⟨z, hz, rfl⟩) (Or.inl ⟨x, hx, rfl⟩)
  | getRecv c g v x y ch hx hy hout hpc hop hopen hsel hv =>
    exact forall_set (fun i z hz _ => Or.inl ⟨z, hz, rfl⟩) (Or.inl ⟨x, hx, rfl⟩)
  | getClosed c x ch hx hout hpc hop hclosed =>
    exact forall_set (fun i z hz _ => Or.inl ⟨z, hz, rfl⟩) (Or.inl ⟨x, hx, rfl⟩)
  | stopClose c x ch hx hin hpc hop hopen =>
    exact forall_set (fun i z hz _ => Or.inl ⟨z, hz, rfl⟩) (Or.inl ⟨x, hx, rfl⟩)
  | stopPanic c x hx hpc hop hno =>
    exact forall_set (fun i z hz _ => Or.inl ⟨z, hz, rfl⟩) (Or.inl ⟨x, hx, rfl⟩)
  | gDefer g y hy hpc => exact fun i z hz => Or.inl ⟨z, hz, rfl⟩
  | gRecvClosed g y ch hy hrecv hclosed => exact fun i z hz => Or.inl ⟨z, hz, rfl⟩
  | gTest g y hy hpc => exact fun i z hz => Or.inl ⟨z, hz, rfl⟩
  | gClose g y ch hy hd hpc hopen => exact fun i z hz => Or.inl ⟨z, hz, rfl⟩
  | gPanic g y hy hp => exact fun i z hz => Or.inl ⟨z, hz, rfl⟩

/-- The number of calls grows by one at a call and not otherwise. -/
theorem Step.calls_length {s s' : Sys α} {e : Event α} (h : Step s e s') :
    s'.calls.length = s.calls.length + (if isCall e = true then 1 else 0) := by
  cases h <;> simp [isCall, setCall, setGor]

/-- The inbound channel is channel 0: closing another channel leaves it as it is. -/
theorem Step.closed_back {s s' : Sys α} {e : Event α} (hi : Inv s) (h : Step s e s')
    (hc : isClosed s' 0 = true) : isClosed s 0 = true ∨ ∃ c, e = .stopClose c := by
  cases h with
  | mkIn c x hx hpc =>
    have h := ((hi.of_start hx (Or.inl hpc)).2.2.2).at34 hpc
    simp [isClosed, h.1] at hc
  | mkOut c x hx hpc =>
    have h := ((hi.of_start hx (Or.inr (Or.inl hpc))).2.2.2).at35 hpc
    simp [isClosed, h.1] at hc
  | stopClose c x ch hx hin hpc hop hopen => exact Or.inr ⟨c, rfl⟩
  | gClose g y ch hy hd hpc hopen =>
    obtain ⟨ho, hg0, hgy⟩ := hi.of_gor hy
    obtain ⟨h1, h2, ci, co, y', h3, h4, h5, h6⟩ := hi.done ho
    rw [h4] at hgy; cases hgy
    have hch : ch = 1 := by
      have := h5.2.1 (by simp [hpc])
      rw [hd] at this; simpa using this
    subst hch
    left
    simpa [isClosed, h3] using hc
  | invoke op => exact Or.inl hc
  | doStart c x hx hpc ho => exact Or.inl hc
  | doSkip c x hx hpc ho => exact Or.inl hc
  | copyIn c x hx hpc => exact Or.inl hc
  | spawn c x hx hpc => exact Or.inl hc
  | putSend c g v x y ch hx hy hin hpc hop hopen hrecv => exact Or.inl hc
  | putPanic c x ch hx hin hpc hop hclosed => exact Or.inl hc
  | getRecv c g v x y ch hx hy hout hpc hop hopen hsel hv => exact Or.inl hc
  | getClosed c x ch hx hout hpc hop hclosed => exact Or.inl hc
  | stopPanic c x hx hpc hop hno => exact Or.inl hc
  | gDefer g y hy hpc => exact Or.inl hc
  | gRecvClosed g y ch hy hrecv hclosed => exact Or.inl hc
  | gTest g y hy hpc => exact Or.inl hc
  | gPanic g y hy hp => exact Or.inl hc

/-- The held value follows the events: `held` is what the goroutine holds. -/
theorem held_step {es : List (Event α)} {s s' : Sys α} {e : Event α} (hi : Inv s)
    (h0 : s.gos = [] → held es = none)
    (h1 : ∀ (g : Nat) (y : Gor α), s.gos[g]? = some y →
      (y.pc = .l38 ∨ y.pc = .l39 → held es = none) ∧
      (y.pc ≠ .l38 → y.pc ≠ .l39 → held es = some y.thing))
    (h : Step s e s') :
    (s'.gos = [] → held (es ++ [e]) = none) ∧
    ∀ (g : Nat) (y : Gor α), s'.gos[g]? = some y →
      (y.pc = .l38 ∨ y.pc = .l39 → held (es ++ [e]) = none) ∧
      (y.pc ≠ .l38 → y.pc ≠ .l39 → held (es ++ [e]) = some y.thing) := by
  rw [held_snoc]
  cases h with
  | invoke op => exact ⟨h0, h1⟩
  | doStart c x hx hpc ho => exact ⟨h0, h1⟩
  | doSkip c x hx hpc ho => exact ⟨h0, h1⟩
  | mkIn c x hx hpc => exact ⟨h0, h1⟩
  | mkOut c x hx hpc => exact ⟨h0, h1⟩
  | copyIn c x hx hpc => exact ⟨h0, h1⟩
  | putPanic c x ch hx hin hpc hop hclosed => exact ⟨h0, h1⟩
  | getClosed c x ch hx hout hpc hop hclosed => exact ⟨h0, h1⟩
  | stopClose c x ch hx hin hpc hop hopen => exact ⟨h0, h1⟩
  | stopPanic c x hx hpc hop hno => exact ⟨h0, h1⟩
  | spawn c x hx hpc =>
    have hg := (hi.of_start hx (Or.inr (Or.inr (Or.inr hpc)))).2.1
    refine ⟨fun hn => by simp [hg] at hn, fun g y hy => ?_⟩
    have hy' : ([{ pc := GPC.l38, cin := x.cin, dout := none, thing := none, ok := false }]
        : List (Gor α))[g]? = some y := by simpa [hg] using hy
    cases g with
    | zero =>
      simp at hy'; subst hy'
      exact ⟨fun _ => h0 hg, fun hne => absurd rfl hne⟩
    | succ n => simp at hy'
  | putSend c g v x y ch hx hy hin hpc hop hopen hrecv =>
    obtain ⟨-, hg0, hgy⟩ := hi.of_gor hy
    subst hg0
    have hpcy : y.pc = .l39 ∨ y.pc = .l41 := by
      unfold recvChan at hrecv
      split at hrecv <;> simp_all
    refine ⟨fun hn => by simp [hgy] at hn, fun g z hz => ?_⟩
    have hz' : ([afterRecv y v true] : List (Gor α))[g]? = some z := by simpa [hgy] using hz
    cases g with
    | zero =>
      simp at hz'; subst hz'
      rcases hpcy with hp | hp <;> simp [afterRecv, hp, heldStep]
    | succ n => simp at hz'
  | getRecv c g v x y ch hx hy hout hpc hop hopen hsel hv =>
    obtain ⟨-, hg0, hgy⟩ := hi.of_gor hy
    subst hg0
    have := (h1 0 y hy).2 (by simp [hsel]) (by simp [hsel])
    refine ⟨fun hn => by simp [hgy] at hn, fun g z hz => ?_⟩
    have hz' : ([{ y with pc := GPC.l40 }] : List (Gor α))[g]? = some z := by
      simpa [hgy] using hz
    cases g with
    | zero =>
      simp at hz'; subst hz'
      simpa [heldStep] using this
    | succ n => simp at hz'
  | gDefer g y hy hpc =>
    obtain ⟨-, hg0, hgy⟩ := hi.of_gor hy
    subst hg0
    have := (h1 0 y hy).1 (Or.inl hpc)
    refine ⟨fun hn => by simp [setGor, hgy] at hn, fun g z hz => ?_⟩
    have hz' : ([{ y with pc := GPC.l39, dout := s.lout }] : List (Gor α))[g]? = some z := by
      simpa [setGor, hgy] using hz
    cases g with
    | zero =>
      simp at hz'; subst hz'
      simpa [heldStep] using this
    | succ n => simp at hz'
  | gRecvClosed g y ch hy hrecv hclosed =>
    obtain ⟨-, hg0, hgy⟩ := hi.of_gor hy
    subst hg0
    have hpcy : y.pc = .l39 ∨ y.pc = .l41 := by
      unfold recvChan at hrecv
      split at hrecv <;> simp_all
    refine ⟨fun hn => by simp [setGor, hgy] at hn, fun g z hz => ?_⟩
    have hz' : ([afterRecv y none false] : List (Gor α))[g]? = some z := by
      simpa [setGor, hgy] using hz
    cases g with
    | zero =>
      simp at hz'; subst hz'
      rcases hpcy with hp | hp <;> simp [afterRecv, hp, heldStep]
    | succ n => simp at hz'
  | gTest g y hy hpc =>
    obtain ⟨-, hg0, hgy⟩ := hi.of_gor hy
    subst hg0
    have := (h1 0 y hy).2 (by simp [hpc]) (by simp [hpc])
    refine ⟨fun hn => by simp [setGor, hgy] at hn, fun g z hz => ?_⟩
    have hz' : ([afterTest y] : List (Gor α))[g]? = some z := by
      simpa [setGor, hgy] using hz
    cases g with
    | zero =>
      simp at hz'; subst hz'
      cases hok : y.ok <;> simpa [heldStep, afterTest, hok] using this
    | succ n => simp at hz'
  | gClose g y ch hy hd hpc hopen =>
    obtain ⟨-, hg0, hgy⟩ := hi.of_gor hy
    subst hg0
    have := (h1 0 y hy).2 (by simp [hpc]) (by simp [hpc])
    refine ⟨fun hn => by simp [hgy] at hn, fun g z hz => ?_⟩
    have hz' : ([{ y with pc := GPC.done }] : List (Gor α))[g]? = some z := by
      simpa [hgy] using hz
    cases g with
    | zero =>
      simp at hz'; subst hz'
      simpa [heldStep] using this
    | succ n => simp at hz'
  | gPanic g y hy hp =>
    have := hi.preserved (Step.gPanic s g y hy hp)
    obtain ⟨-, hg0, hgy⟩ := hi.of_gor hy
    subst hg0
    have hd := this.of_gor (g := 0) (y := { y with pc := GPC.dead }) (by simp [setGor, hgy])
    obtain ⟨_, _, ci, co, y', h3, h4, h5, h6⟩ := this.done hd.1
    have h4' : ([{ y with pc := GPC.dead }] : List (Gor α)) = [y'] := by
      simpa [setGor, hgy] using h4
    simp at h4'
    subst h4'
    exact absurd rfl h5.2.2.1

/-- The events of an execution from the zero-value `Latest` tell the state it reaches. -/
theorem tinv_of_run {es : List (Event α)} {s : Sys α} (h : run init es = some s) : TInv es s := by
  refine reach_induction (fun es s => TInv es s) ?_ ?_ es s h
  · exact {
      len := rfl
      op := fun i x hx => by simp [init] at hx
      put := fun c g v hm => by simp at hm
      stop := fun c hm => by simp at hm
      get := fun e hm => by simp at hm
      closed := fun hc => by simp [isClosed, init] at hc
      recv := fun g hm => by simp at hm
      held0 := fun _ => rfl
      held1 := fun g y hy => by simp [init] at hy }
  · intro es s e s' _ hi ih hs
    have hheld := held_step hi ih.held0 ih.held1 hs
    refine { len := ?_, op := ?_, put := ?_, stop := ?_, get := ?_, closed := ?_, recv := ?_,
             held0 := hheld.1, held1 := hheld.2 }
    · rw [hs.calls_length, invokes_snoc, ih.len]
    · intro i x hx
      rcases hs.calls_back i x hx with ⟨z, hz, hop⟩ | hnew
      · rw [← hop]; exact mem_snoc.mpr (Or.inl (ih.op i z hz))
      · exact mem_snoc.mpr (Or.inr hnew.symm)
    · intro c g v hm
      rcases mem_snoc.mp hm with hold | hnew
      · obtain ⟨x, hx, hop, hpc⟩ := ih.put c g v hold
        obtain ⟨z', k1, _, k3, _⟩ := hs.calls_mono c x hx
        have := k3 hpc; subst this
        exact ⟨z', k1, hop, hpc⟩
      · subst hnew
        cases hs with
        | putSend c g v x y ch hx hy hin hpc hop hopen hrecv =>
          exact ⟨_, List.getElem?_set_self (List.getElem?_eq_some.mp hx).1, hop, rfl⟩
    · intro c hm
      rcases mem_snoc.mp hm with hold | hnew
      · obtain ⟨x, hx, hop, hpc⟩ := ih.stop c hold
        obtain ⟨z', k1, _, k3, _⟩ := hs.calls_mono c x hx
        have := k3 hpc; subst this
        exact ⟨z', k1, hop, hpc⟩
      · subst hnew
        cases hs with
        | stopClose c x ch hx hin hpc hop hopen =>
          exact ⟨_, List.getElem?_set_self (List.getElem?_eq_some.mp hx).1, hop, rfl⟩
    · intro e' hm c v hr
      rcases mem_snoc.mp hm with hold | hnew
      · obtain ⟨x, hx, hop, hpc, hres⟩ := ih.get e' hold c v hr
        obtain ⟨z', k1, _, k3, _⟩ := hs.calls_mono c x hx
        have := k3 hpc; subst this
        exact ⟨z', k1, hop, hpc, hres⟩
      · subst hnew
        cases hs with
        | getRecv c' g v' x y ch hx hy hout hpc hop hopen hsel hv =>
          simp [getRet] at hr
          obtain ⟨rfl, rfl⟩ := hr
          exact ⟨_, List.getElem?_set_self (List.getElem?_eq_some.mp hx).1, hop, rfl, rfl⟩
        | getClosed c' x ch hx hout hpc hop hclosed =>
          simp [getRet] at hr
          obtain ⟨rfl, rfl⟩ := hr
          exact ⟨_, List.getElem?_set_self (List.getElem?_eq_some.mp hx).1, hop, rfl, rfl⟩
        | _ => simp [getRet] at hr
    · intro hc
      rcases hs.closed_back hi hc with hold | ⟨c, hnew⟩
      · obtain ⟨c, hm⟩ := ih.closed hold
        exact ⟨c, mem_snoc.mpr (Or.inl hm)⟩
      · exact ⟨c, mem_snoc.mpr (Or.inr hnew.symm)⟩
    · intro g hm
      rcases mem_snoc.mp hm with hold | hnew
      · exact hs.closed_mono 0 (ih.recv g hold)
      · subst hnew
        refine hs.closed_mono 0 ?_
        cases hs with
        | gRecvClosed g y ch hy hrecv hclosed =>
          obtain ⟨ho, hg0, hgy⟩ := hi.of_gor hy
          obtain ⟨h1, h2, ci, co, y', h3, h4, h5, h6⟩ := hi.done ho
          rw [h4] at hgy; cases hgy
          have : ch = 0 := by
            unfold recvChan at hrecv
            split at hrecv
            · rw [h1] at hrecv; simpa using hrecv.symm
            · rw [h5.1] at hrecv; simpa using hrecv.symm
            · cases hrecv
          subst this
          exact hclosed

/-! ## Where the values a `Get` returns come from -/

/-- An execution through an event splits at that event. -/
theorem run_split {s0 s : Sys α} {pre post : List (Event α)} {e : Event α}
    (h : run s0 (pre ++ e :: post) = some s) :
    ∃ m m', run s0 pre = some m ∧ Step m e m' ∧ run m' post = some s ∧
      run s0 (pre ++ [e]) = some m' := by
  obtain ⟨m, hm, hrest⟩ := run_append_some h
  rw [run_cons] at hrest
  cases hs : step m e with
  | none => simp [hs] at hrest
  | some m' =>
    refine ⟨m, m', hm, Step.of_step hs, by simpa [hs] using hrest, ?_⟩
    rw [run_append, hm]
    simp [run_cons, hs, run_nil]

theorem lastPut_snoc (es : List (Event α)) (e : Event α) :
    lastPut (es ++ [e]) = lastPutStep (lastPut es) e := by
  simp [lastPut, List.foldl_append]

/-- The value of the last handoff is the value of some handoff. -/
theorem lastPut_mem {es : List (Event α)} {v : Value α} (h : lastPut es = some v) :
    ∃ c g, .putSend c g v ∈ es := by
  induction es using List.reverseRecOn generalizing v with
  | nil => simp [lastPut] at h
  | append_singleton es e ih =>
    rw [lastPut_snoc] at h
    cases e with
    | putSend c g w =>
      simp [lastPutStep] at h
      subst h
      exact ⟨c, g, by simp⟩
    | _ =>
      simp only [lastPutStep] at h
      obtain ⟨c, g, hm⟩ := ih h
      exact ⟨c, g, mem_snoc.mpr (Or.inl hm)⟩

/-- Without a receive from the closed inbound channel the goroutine holds the
value of the last handoff. -/
theorem held_eq_lastPut {es : List (Event α)} (h : ∀ g, Event.gRecvClosed g ∉ es) :
    held es = lastPut es := by
  induction es using List.reverseRecOn with
  | nil => rfl
  | append_singleton es e ih =>
    rw [held_snoc, lastPut_snoc, ih (fun g hm => h g (mem_snoc.mpr (Or.inl hm)))]
    cases e with
    | gRecvClosed g => exact absurd (mem_snoc.mpr (Or.inr rfl)) (h g)
    | _ => rfl

/-- Without a handoff from a `Put` the goroutine holds nothing or nil. -/
theorem held_no_put {es : List (Event α)} (h : ∀ c g v, Event.putSend c g v ∉ es) :
    held es = none ∨ held es = some none := by
  induction es using List.reverseRecOn with
  | nil => exact Or.inl rfl
  | append_singleton es e ih =>
    rw [held_snoc]
    have ih' := ih (fun c g v hm => h c g v (mem_snoc.mpr (Or.inl hm)))
    cases e with
    | putSend c g v => exact absurd (mem_snoc.mpr (Or.inr rfl)) (h c g v)
    | gRecvClosed g => exact Or.inr rfl
    | _ => exact ih'

/-- After more events without a handoff from a `Put` the goroutine holds what
it held or nil. -/
theorem held_append_no_put (a b : List (Event α)) (h : ∀ c g v, Event.putSend c g v ∉ b) :
    held (a ++ b) = held a ∨ held (a ++ b) = some none := by
  induction b using List.reverseRecOn with
  | nil => left; simp
  | append_singleton b e ih =>
    rw [← List.append_assoc, held_snoc]
    have ih' := ih (fun c g v hm => h c g v (mem_snoc.mpr (Or.inl hm)))
    cases e with
    | putSend c g v => exact absurd (mem_snoc.mpr (Or.inr rfl)) (h c g v)
    | gRecvClosed g => exact Or.inr rfl
    | _ => exact ih'

theorem noStop_mem {es : List (Event α)} (h : noStop es = true) :
    Event.invoke (Op.stop : Op α) ∉ es := by
  intro hm
  have := List.all_eq_true.mp h _ hm
  simp [isStopCall] at this

theorem noPut_mem {es : List (Event α)} (h : noPut es = true) (v : Value α) :
    Event.invoke (Op.put v) ∉ es := by
  intro hm
  have := List.all_eq_true.mp h _ hm
  simp [isPutCall] at this

theorem noStop_append {a b : List (Event α)} :
    noStop (a ++ b) = true ↔ noStop a = true ∧ noStop b = true := by
  simp [noStop, List.all_append]

theorem noPut_append {a b : List (Event α)} :
    noPut (a ++ b) = true ↔ noPut a = true ∧ noPut b = true := by
  simp [noPut, List.all_append]

/-- While `Stop` has not been called the inbound channel is not closed and the
goroutine has not received from it closed. -/
theorem open_of_noStop {es : List (Event α)} {s : Sys α} (h : run init es = some s)
    (hn : noStop es = true) : isClosed s 0 = false ∧ ∀ g, Event.gRecvClosed g ∉ es := by
  have ht := tinv_of_run h
  have hopen : isClosed s 0 = false := by
    cases hc : isClosed s 0 with
    | false => rfl
    | true =>
      obtain ⟨c, hm⟩ := ht.closed hc
      obtain ⟨x, hx, hop, _⟩ := ht.stop c hm
      have := ht.op c x hx
      rw [hop] at this
      exact absurd this (noStop_mem hn)
  refine ⟨hopen, fun g hm => ?_⟩
  have := ht.recv g hm
  rw [hopen] at this; cases this

/-- While `Put` has not been called no value has been handed over. -/
theorem no_send_of_noPut {es : List (Event α)} {s : Sys α} (h : run init es = some s)
    (hn : noPut es = true) : ∀ c g v, Event.putSend c g v ∉ es := by
  intro c g v hm
  have ht := tinv_of_run h
  obtain ⟨x, hx, hop, _⟩ := ht.put c g v hm
  have := ht.op c x hx
  rw [hop] at this
  exact absurd this (noPut_mem hn v)

/-- The value a `Get` returns at an event: nil from the closed outbound channel,
or else the value the goroutine holds by the events before. -/
theorem get_value {pre : List (Event α)} {m m' : Sys α} {e : Event α} {c : Nat} {v : Value α}
    (hpre : run init pre = some m) (hs : Step m e m') (hr : getRet e = some (c, v)) :
    (held pre = some v ∧ ∃ g, e = .getRecv c g v) ∨
      (v = none ∧ e = .getClosed c ∧ isClosed m 1 = true ∧ isClosed m 0 = true) := by
  have hi := inv_of_run hpre
  have ht := tinv_of_run hpre
  cases hs with
  | getRecv c' g v' x y ch hx hy hout hpc hop hopen hsel hv =>
    simp [getRet] at hr
    obtain ⟨rfl, rfl⟩ := hr
    obtain ⟨-, hg0, -⟩ := hi.of_gor hy
    subst hg0
    have := (ht.held1 0 y hy).2 (by simp [hsel]) (by simp [hsel])
    exact Or.inl ⟨by rw [this, hv], _, rfl⟩
  | getClosed c' x ch hx hout hpc hop hclosed =>
    simp [getRet] at hr
    obtain ⟨rfl, rfl⟩ := hr
    have ho := hi.of_past hx (Or.inl hpc)
    obtain ⟨h1, h2, ci, co, y', h3, h4, h5, h6⟩ := hi.done ho
    rw [h2] at hout; cases hout
    have hco : co = true := by simpa [isClosed, h3] using hclosed
    have hci : ci = true := h5.2.2.2.2.1 (Or.inr (h5.2.2.2.1.mp hco))
    refine Or.inr ⟨rfl, rfl, hclosed, ?_⟩
    simp [isClosed, h3, hci]
  | _ => simp [getRet] at hr

/-- While `Stop` is not called, a value returned by a `Get` was handed over by a
`Put` called with it, at an earlier event. -/
theorem get_from_put (es pre post : List (Event α)) (s : Sys α) (e : Event α)
    (c : Nat) (v : Value α) (hrun : run init es = some s) (hns : noStop es = true)
    (hsplit : es = pre ++ e :: post) (hret : getRet e = some (c, v)) :
    (∃ c' g', Event.putSend c' g' v ∈ pre ∧
      ∃ x', s.calls[c']? = some x' ∧ x'.op = .put v ∧ x'.pc = .ret) ∧
    Event.invoke (Op.put v) ∈ pre ∧
    ∃ x, s.calls[c]? = some x ∧ x.op = .get ∧ x.pc = .ret ∧ x.res = v := by
  subst hsplit
  obtain ⟨m, m', hpre, hs, hpost, _⟩ := run_split hrun
  have hns' := (noStop_append.mp hns).1
  obtain ⟨hopen, hnr⟩ := open_of_noStop hpre hns'
  have htm := tinv_of_run hpre
  have hts := tinv_of_run hrun
  have hheld : held pre = some v := by
    rcases get_value hpre hs hret with ⟨h, _⟩ | ⟨_, _, _, hc⟩
    · exact h
    · rw [hopen] at hc; cases hc
  rw [held_eq_lastPut hnr] at hheld
  obtain ⟨c', g', hm⟩ := lastPut_mem hheld
  refine ⟨⟨c', g', hm, hts.put c' g' v (by simp [hm])⟩, ?_, hts.get e (by simp) c v hret⟩
  obtain ⟨x, hx, hop, _⟩ := htm.put c' g' v hm
  have := htm.op c' x hx
  rwa [hop] at this

/-! ## Calls of `Put` that do not overlap -/

/-- A call in progress after a step was in progress before, or has just been made. -/
theorem Step.pending_back {s s' : Sys α} {e : Event α} (h : Step s e s') :
    ∀ (i : Nat) (z' : Call α), s'.calls[i]? = some z' → z'.pc ≠ .ret → z'.pc ≠ .dead →
      (∃ z, s.calls[i]? = some z ∧ z.op = z'.op ∧ z.pc ≠ .ret ∧ z.pc ≠ .dead) ∨
      (e = .invoke z'.op ∧ i = s.calls.length) := by
  intro i z' hz' hr hd
  by_cases hlt : i < s.calls.length
  · obtain ⟨z, hz⟩ : ∃ z, s.calls[i]? = some z := ⟨s.calls[i], List.getElem?_eq_getElem hlt⟩
    obtain ⟨w, k1, k2, k3, k4⟩ := h.calls_mono i z hz
    rw [hz'] at k1; cases k1
    refine Or.inl ⟨z, hz, k2.symm, fun hp => ?_, fun hp => ?_⟩
    · have := k3 hp; subst this; exact hr hp
    · have := k4 hp; subst this; exact hd hp
  · right
    have hlen := h.calls_length
    have hi' := (List.getElem?_eq_some.mp hz').1
    rcases h.calls_back i z' hz' with ⟨z, hz, _⟩ | hnew
    · exact absurd (List.getElem?_eq_some.mp hz).1 hlt
    · refine ⟨hnew, ?_⟩
      rw [hnew] at hlen
      simp [isCall] at hlen
      omega

theorem seq_fold (es : List (Event α)) :
    es.foldl seqStep (true, false) = (seqPuts es, putBusy es) := by
  induction es using List.reverseRecOn with
  | nil => rfl
  | append_singleton es e ih =>
    simp only [seqPuts, putBusy, List.foldl_append, List.foldl_cons, List.foldl_nil] at ih ⊢
    rw [ih]
    simp [seqStep]

theorem putBusy_snoc (es : List (Event α)) (e : Event α) :
    putBusy (es ++ [e]) = busyStep (putBusy es) e := by
  simp [putBusy, List.foldl_append]

theorem seqPuts_snoc (es : List (Event α)) (e : Event α) :
    seqPuts (es ++ [e]) = (seqPuts es && !(isPutCall e && putBusy es)) := by
  have := seq_fold es
  simp only [seqPuts, List.foldl_append, List.foldl_cons, List.foldl_nil]
  rw [this]
  simp [seqStep]

theorem seqPuts_append_left {a b : List (Event α)} (h : seqPuts (a ++ b) = true) :
    seqPuts a = true := by
  induction b using List.reverseRecOn with
  | nil => simpa using h
  | append_singleton b e ih =>
    rw [← List.append_assoc, seqPuts_snoc] at h
    simp only [Bool.and_eq_true] at h
    exact ih h.1

/-- When the calls of `Put` do not overlap, at most one `Put` is in progress,
and none when the last `Put` called has handed its value over. -/
theorem seq_done {es : List (Event α)} {s : Sys α} (h : run init es = some s)
    (hseq : seqPuts es = true) : (putBusy es = false → PutsDone s) ∧ OnePut s := by
  revert hseq
  refine reach_induction (fun es s => seqPuts es = true →
    (putBusy es = false → PutsDone s) ∧ OnePut s) ?_ ?_ es s h
  · intro _
    exact ⟨fun _ i x hx => by simp [init] at hx, fun i j x z hx => by simp [init] at hx⟩
  · intro es s e s' _ hi ih hs hseq
    rw [seqPuts_snoc] at hseq
    simp only [Bool.and_eq_true, Bool.not_eq_true', Bool.and_eq_false_iff] at hseq
    obtain ⟨hq, hu⟩ := ih hseq.1
    rw [putBusy_snoc]
    -- calls of `Put` in progress after the step that were in progress before
    have old : ∀ (i : Nat) (z' : Call α), s'.calls[i]? = some z' → z'.op.isPut = true →
        z'.pc ≠ .ret → z'.pc ≠ .dead → isPutCall e = false →
        ∃ z, s.calls[i]? = some z ∧ z.op.isPut = true ∧ z.pc ≠ .ret ∧ z.pc ≠ .dead := by
      intro i z' hz' hp hr hd hne
      rcases hs.pending_back i z' hz' hr hd with ⟨z, hz, hop, h1, h2⟩ | ⟨hnew, _⟩
      · exact ⟨z, hz, by rw [hop]; exact hp, h1, h2⟩
      · subst hnew
        cases hzo : z'.op with
        | put w => simp [isPutCall, hzo] at hne
        | get => simp [hzo, Op.isPut] at hp
        | stop => simp [hzo, Op.isPut] at hp
    by_cases hput : isPutCall e = true
    · -- a call of `Put`: no `Put` was in progress
      have hbusy : putBusy es = false := by
        rcases hseq.2 with h | h
        · rw [h] at hput; cases hput
        · exact h
      have hdone := hq hbusy
      have hnew : ∀ (i : Nat) (z' : Call α), s'.calls[i]? = some z' → z'.op.isPut = true →
          z'.pc ≠ .ret → z'.pc ≠ .dead → i = s.calls.length := by
        intro i z' hz' hp hr hd
        rcases hs.pending_back i z' hz' hr hd with ⟨z, hz, hop, h1, h2⟩ | ⟨_, hlen⟩
        · rcases hdone i z hz (by rw [hop]; exact hp) with h | h
          · exact absurd h h1
          · exact absurd h h2
        · exact hlen
      refine ⟨fun hb => ?_, fun i j x z hx hz hpx hpz h1 h2 h3 h4 => ?_⟩
      · cases e with
        | invoke op =>
          cases op with
          | put w => simp [busyStep] at hb
          | get => simp [isPutCall] at hput
          | stop => simp [isPutCall] at hput
        | _ => simp [isPutCall] at hput
      · rw [hnew i x hx hpx h1 h2, hnew j z hz hpz h3 h4]
    · have hput' : isPutCall e = false := by simpa using hput
      have hu' : OnePut s' := by
        intro i j x z hx hz hpx hpz h1 h2 h3 h4
        obtain ⟨x0, hx0, p1, p2, p3⟩ := old i x hx hpx h1 h2 hput'
        obtain ⟨z0, hz0, q1, q2, q3⟩ := old j z hz hpz h3 h4 hput'
        exact hu i j x0 z0 hx0 hz0 p1 q1 p2 p3 q2 q3
      refine ⟨fun hb => ?_, hu'⟩
      intro i z' hz' hp
      by_contra hcon
      simp only [not_or] at hcon
      obtain ⟨z0, hz0, q1, q2, q3⟩ := old i z' hz' hp hcon.1 hcon.2 hput'
      cases hs with
      | putSend c g v x y ch hx hy hin hpc hop hopen hrecv =>
        have hci : i = c := hu i c z0 x hz0 hx q1 (by simp [hop, Op.isPut]) q2 q3
          (by simp [hpc]) (by simp [hpc])
        subst hci
        rw [List.getElem?_set_self (List.getElem?_eq_some.mp hx).1] at hz'
        cases hz'
        exact hcon.1 rfl
      | putPanic c x ch hx hin hpc hop hclosed =>
        have hci : i = c := hu i c z0 x hz0 hx q1 hop q2 q3 (by simp [hpc]) (by simp [hpc])
        subst hci
        simp only [setCall] at hz'
        rw [List.getElem?_set_self (List.getElem?_eq_some.mp hx).1] at hz'
        cases hz'
        exact hcon.2 rfl
      | invoke op =>
        cases op with
        | put w => simp [isPutCall] at hput'
        | get =>
          rcases hq (by simpa [busyStep] using hb) i z0 hz0 q1 with h | h
          · exact q2 h
          · exact q3 h
        | stop =>
          rcases hq (by simpa [busyStep] using hb) i z0 hz0 q1 with h | h
          · exact q2 h
          · exact q3 h
      | _ =>
        rcases hq (by simpa [busyStep] using hb) i z0 hz0 q1 with h | h
        · exact q2 h
        · exact q3 h

/-- Once every `Put` called has returned, and as long as no `Put` is called, no
value is handed over and every `Put` called has returned. -/
theorem no_send_after {m s : Sys α} {es : List (Event α)} (hq : PutsDone m)
    (h : run m es = some s) (hn : noPut es = true) :
    (∀ c g v, Event.putSend c g v ∉ es) ∧ PutsDone s := by
  revert hn
  refine run_induction (fun es s => noPut es = true →
    (∀ c g v, Event.putSend c g v ∉ es) ∧ PutsDone s) ?_ ?_ es s h
  · intro _
    exact ⟨fun c g v hm => by simp at hm, hq⟩
  · intro es t e t' _ ih hs hn
    obtain ⟨hn1, hn2⟩ := noPut_append.mp hn
    obtain ⟨i1, i2⟩ := ih hn1
    have hs' := Step.of_step hs
    have hne : isPutCall e = false := by simpa [noPut] using hn2
    refine ⟨fun c g v hm => ?_, fun i z' hz' hp => ?_⟩
    · rcases mem_snoc.mp hm with hold | hnew
      · exact i1 c g v hold
      · subst hnew
        cases hs' with
        | putSend c g v x y ch hx hy hin hpc hop hopen hrecv =>
          rcases i2 c x hx (by simp [hop, Op.isPut]) with h | h <;> rw [hpc] at h <;> cases h
    · by_contra hcon
      simp only [not_or] at hcon
      rcases hs'.pending_back i z' hz' hcon.1 hcon.2 with ⟨z, hz, hop, h1, h2⟩ | ⟨hnew, _⟩
      · rcases i2 i z hz (by rw [hop]; exact hp) with h | h
        · exact h1 h
        · exact h2 h
      · subst hnew
        cases hzo : z'.op with
        | put w => simp [isPutCall, hzo] at hne
        | get => simp [hzo, Op.isPut] at hp
        | stop => simp [hzo, Op.isPut] at hp

theorem lastPut_append_no_send (p t : List (Event α)) (h : ∀ c g v, Event.putSend c g v ∉ t) :
    lastPut (p ++ t) = lastPut p := by
  induction t using List.reverseRecOn with
  | nil => simp
  | append_singleton t e ih =>
    rw [← List.append_assoc, lastPut_snoc, ih (fun c g v hm => h c g v (mem_snoc.mpr (Or.inl hm)))]
    cases e with
    | putSend c g v => exact absurd (mem_snoc.mpr (Or.inr rfl)) (h c g v)
    | _ => rfl

/-- Right after a handoff the goroutine holds the value handed over. -/
theorem thing_after_send {s s' : Sys α} {c g : Nat} {v : Value α}
    (h : Step s (.putSend c g v) s') : ∃ y, s'.gos[g]? = some y ∧ y.thing = v := by
  cases h with
  | putSend c g v x y ch hx hy hin hpc hop hopen hrecv =>
    refine ⟨afterRecv y v true, List.getElem?_set_self (List.getElem?_eq_some.mp hy).1, ?_⟩
    unfold afterRecv
    split <;> rfl

/-- When the calls of `Put` have not overlapped up to a handoff and no `Put` is
called after it, the value handed over stays the last one. -/
theorem wins_core {a t : List (Event α)} {cp gp : Nat} {vn : Value α} {s : Sys α}
    (hrun : run init (a ++ .putSend cp gp vn :: t) = some s)
    (hseq : seqPuts (a ++ [.putSend cp gp vn]) = true) (hnp : noPut t = true) :
    lastPut (a ++ .putSend cp gp vn :: t) = some vn := by
  have e1 : a ++ .putSend cp gp vn :: t = (a ++ [.putSend cp gp vn]) ++ t := by simp
  rw [e1] at hrun ⊢
  obtain ⟨m1, hm1, htail⟩ := run_append_some hrun
  have hdone : PutsDone m1 := (seq_done hm1 hseq).1 (by rw [putBusy_snoc]; rfl)
  have hnosend := (no_send_after hdone htail hnp).1
  rw [lastPut_append_no_send _ _ hnosend, lastPut_snoc]
  rfl

/-! ## Progress: what the program can always do next -/

/-- An event the step relation allows is enabled, with that effect. -/
theorem Step.to_step {s s' : Sys α} {e : Event α} (h : Step s e s') : step s e = some s' := by
  cases h with
  | invoke op => rfl
  | doStart c x hx hpc ho => simp [step, hx, hpc, ho]
  | doSkip c x hx hpc ho => simp [step, hx, hpc, ho]
  | mkIn c x hx hpc => simp [step, hx, hpc]
  | mkOut c x hx hpc => simp [step, hx, hpc]
  | copyIn c x hx hpc => simp [step, hx, hpc]
  | spawn c x hx hpc => simp [step, hx, hpc]
  | putSend c g v x y ch hx hy hin hpc hop hopen hrecv =>
    simp [step, hx, hy, hin, hpc, hop, hopen, hrecv]
  | putPanic c x ch hx hin hpc hop hclosed => simp [step, hx, hin, hpc, hop, hclosed]
  | getRecv c g v x y ch hx hy hout hpc hop hopen hsel hv =>
    simp [step, hx, hy, hout, hpc, hop, hopen, hsel, hv]
  | getClosed c x ch hx hout hpc hop hclosed => simp [step, hx, hout, hpc, hop, hclosed]
  | stopClose c x ch hx hin hpc hop hopen => simp [step, hx, hin, hpc, hop, hopen]
  | stopPanic c x hx hpc hop hno => simp [step, hx, hpc, hop, hno]
  | gDefer g y hy hpc => simp [step, hy, hpc]
  | gRecvClosed g y ch hy hrecv hclosed => simp [step, hy, hrecv, hclosed]
  | gTest g y hy hpc => simp [step, hy, hpc]
  | gClose g y ch hy hd hpc hopen => simp [step, hy, hd, hpc, hopen]
  | gPanic g y hy hp => simp [step, hy, hp]

theorem run_cons_some {s m s' : Sys α} {e : Event α} {es : List (Event α)}
    (h1 : Step s e m) (h2 : run m es = some s') : run s (e :: es) = some s' := by
  rw [run_cons, h1.to_step]; exact h2

theorem run_append_of {s m s' : Sys α} {a b : List (Event α)} (h1 : run s a = some m)
    (h2 : run m b = some s') : run s (a ++ b) = some s' := by
  rw [run_append, h1]; exact h2

/-- Once `Stop` has closed the inbound channel the goroutine runs to its end by
steps of its own, whatever line it is at, and closes the outbound channel. -/
theorem gor_finishes {s : Sys α} (hi : Inv s) (ho : s.once = .done)
    (hc : isClosed s 0 = true) :
    ∃ gs s', run s gs = some s' ∧ (∀ e ∈ gs, isGorStep e = true) ∧ s'.calls = s.calls ∧
      isClosed s' 1 = true ∧ s'.once = .done ∧ gs.length ≤ 6 := by
  obtain ⟨h1, h2, ci, co, y, h3, h4, h5, h6⟩ := hi.done ho
  obtain ⟨g1, g2, g3, g4, g5, g6, g7⟩ := h5
  obtain ⟨lin, lout, once, chans, gos, calls⟩ := s
  obtain ⟨pc, cin, dout, thing, ok⟩ := y
  simp only at h1 h2 h3 h4 ho g1 g2 g3 g4 g5 g6 g7
  subst h1 h2 h3 h4 ho g1
  have hci : ci = true := by simpa [isClosed] using hc
  subst hci
  cases pc with
  | l38 =>
    have hco : co = false := by cases co <;> simp_all
    subst hco
    exact ⟨[.gDefer 0, .gRecvClosed 0, .gTest 0, .gRecvClosed 0, .gTest 0, .gClose 0], _, rfl,
      by simp [isGorStep], rfl, rfl, rfl, by simp⟩
  | l39 =>
    have hco : co = false := by cases co <;> simp_all
    have hd : dout = some 1 := g2 (by simp)
    subst hco hd
    exact ⟨[.gRecvClosed 0, .gTest 0, .gRecvClosed 0, .gTest 0, .gClose 0], _, rfl,
      by simp [isGorStep], rfl, rfl, rfl, by simp⟩
  | l40 =>
    have hco : co = false := by cases co <;> simp_all
    have hd : dout = some 1 := g2 (by simp)
    subst hco hd
    cases ok with
    | true =>
      exact ⟨[.gTest 0, .gRecvClosed 0, .gTest 0, .gClose 0], _, rfl,
        by simp [isGorStep], rfl, rfl, rfl, by simp⟩
    | false =>
      exact ⟨[.gTest 0, .gClose 0], _, rfl, by simp [isGorStep], rfl, rfl, rfl, by simp⟩
  | l41 =>
    have hco : co = false := by cases co <;> simp_all
    have hd : dout = some 1 := g2 (by simp)
    subst hco hd
    exact ⟨[.gRecvClosed 0, .gTest 0, .gClose 0], _, rfl,
      by simp [isGorStep], rfl, rfl, rfl, by simp⟩
  | ret =>
    have hco : co = false := by cases co <;> simp_all
    have hd : dout = some 1 := g2 (by simp)
    subst hco hd
    exact ⟨[.gClose 0], _, rfl, by simp [isGorStep], rfl, rfl, rfl, by simp⟩
  | done =>
    have hco : co = true := by simpa using g4
    subst hco
    exact ⟨[], _, rfl, by simp, rfl, rfl, rfl, by simp⟩
  | dead => exact absurd rfl g3

/-- A pending `Get` returns nil once `Stop` has closed the inbound channel: the
goroutine's own steps close the outbound channel, and the `Get` then receives
from the closed channel. -/
theorem get_after_close {s : Sys α} (hi : Inv s) (hc : isClosed s 0 = true) {c : Nat}
    {x : Call α} (hx : s.calls[c]? = some x) (hop : x.op = .get) (hpc : x.pc ≠ .ret) :
    ∃ gs fin s', run s (gs ++ fin) = some s' ∧ (∀ e ∈ gs, isGorStep e = true) ∧
      (fin = [.getClosed c] ∨ fin = [.doSkip c, .getClosed c]) ∧
      ∃ x', s'.calls[c]? = some x' ∧ x'.op = .get ∧ x'.pc = .ret ∧ x'.res = none := by
  have ho : s.once = .done := by
    cases hon : s.once with
    | done => rfl
    | fresh =>
      have := (hi.fresh hon).2.2.1
      simp [isClosed, this] at hc
    | running r =>
      obtain ⟨_, _, z, _, hst⟩ := hi.running r hon
      rcases hst with h | h | h | h <;> simp [isClosed, h.2.1] at hc
  obtain ⟨_, _, ci, co, y, _, _, _, h6⟩ := hi.done ho
  obtain ⟨gs, s1, hrun, hgs, hcalls, hout, ho1, _⟩ := gor_finishes hi ho hc
  have hi1 : Inv s1 := inv_along hi hrun
  have hlout : s1.lout = some 1 := (hi1.done ho1).2.1
  have hx1 : s1.calls[c]? = some x := by rw [hcalls]; exact hx
  have hlt := (List.getElem?_eq_some.mp hx1).1
  obtain ⟨k1, k2, _⟩ := h6 c x hx
  rcases k1 with hp | hp | hp | hp
  · -- still at `l.once.Do`
    have st1 := Step.doSkip s1 c x hx1 hp ho1
    have st2 := Step.getClosed (setCall s1 c { x with pc := .body }) c { x with pc := .body } 1
      (by simp [setCall, List.getElem?_set_self hlt]) hlout rfl hop hout
    refine ⟨gs, [.doSkip c, .getClosed c], _, run_append_of hrun
      (run_cons_some st1 (run_cons_some st2 rfl)), hgs, Or.inr rfl, ?_⟩
    exact ⟨{ x with pc := .ret, res := none }, by simp [setCall, hlt], hop, rfl, rfl⟩
  · have st2 := Step.getClosed s1 c x 1 hx1 hlout hp hop hout
    refine ⟨gs, [.getClosed c], _, run_append_of hrun (run_cons_some st2 rfl), hgs, Or.inl rfl, ?_⟩
    exact ⟨{ x with pc := .ret, res := none }, by simp [setCall, hlt], hop, rfl, rfl⟩
  · exact absurd hp hpc
  · exact absurd hop (k2 hp).2

theorem set_same {β : Type} {l : List β} {c : Nat} {x : β} (h : l[c]? = some x) :
    l.set c x = l := by
  induction l generalizing c with
  | nil => rfl
  | cons a l ih =>
    cases c with
    | zero => simp at h; subst h; rfl
    | succ n => simp at h; simp [ih h]

/-- In the serving loop the outbound channel is open and `start` has run. -/
theorem Serving.facts {s : Sys α} {v : Value α} (hi : Inv s) (h : Serving s v) :
    s.once = .done ∧ s.lout = some 1 ∧ isOpen s 1 = true := by
  obtain ⟨y, hg, hpc, _⟩ := h
  have ho := (hi.of_gor (g := 0) (y := y) (by simp [hg])).1
  obtain ⟨h1, h2, ci, co, y', h3, h4, h5, h6⟩ := hi.done ho
  rw [hg] at h4; cases h4
  refine ⟨ho, h2, ?_⟩
  have hco : co = false := by
    cases co with
    | false => rfl
    | true =>
      have := h5.2.2.2.1.mp rfl
      rcases hpc with hp | ⟨hp, _⟩ <;> rw [hp] at this <;> cases this
  simp [isOpen, h3, hco]

/-- A pending `Get` returns the held value when the goroutine is in its serving
loop: its own `l.once.Do` if still to do, the goroutine's loop condition if it
is there, and the handoff at the `select`. -/
theorem get_serving {s : Sys α} {v : Value α} (hi : Inv s) (hsv : Serving s v) {c : Nat}
    {x : Call α} (hx : s.calls[c]? = some x) (hop : x.op = .get) (hpc : x.pc ≠ .ret) :
    ∃ es' s', run s es' = some s' ∧ noCall es' = true ∧
      (∃ ea eb, es' = ea ++ (eb ++ [.getRecv c 0 v]) ∧
        (ea = [] ∧ x.pc = .body ∨ ea = [.doSkip c] ∧ x.pc = .once) ∧
        (eb = [] ∧ atTest s = false ∨ eb = [.gTest 0] ∧ atTest s = true)) ∧
      s'.calls = s.calls.set c { x with pc := .ret, res := v } ∧ Serving s' v ∧
      atTest s' = true := by
  obtain ⟨ho, hlout, hopen⟩ := hsv.facts hi
  obtain ⟨y, hg, hy, hth⟩ := hsv
  obtain ⟨_, _, ci, co, y', _, h4, _, h6⟩ := hi.done ho
  obtain ⟨k1, k2, _⟩ := h6 c x hx
  have hlt := (List.getElem?_eq_some.mp hx).1
  -- the call gets to its receive
  have hA : ∃ ea sa, run s ea = some sa ∧
      (ea = [] ∧ x.pc = .body ∨ ea = [.doSkip c] ∧ x.pc = .once) ∧
      sa = setCall s c { x with pc := .body } := by
    rcases k1 with hp | hp | hp | hp
    · exact ⟨[.doSkip c], _, run_cons_some (Step.doSkip s c x hx hp ho) rfl, Or.inr ⟨rfl, hp⟩,
        rfl⟩
    · refine ⟨[], _, rfl, Or.inl ⟨rfl, hp⟩, ?_⟩
      have : ({ x with pc := .body } : Call α) = x := by
        cases x; simp only at hp; subst hp; rfl
      rw [this]
      simp [setCall, set_same hx]
    · exact absurd hp hpc
    · exact absurd hop (k2 hp).2
  obtain ⟨ea, sa, hra, hea, hsa⟩ := hA
  -- the goroutine gets to its select
  have hga : sa.gos[0]? = some y := by simp [hsa, setCall, hg]
  have hB : ∃ eb sb, run sa eb = some sb ∧
      (eb = [] ∧ atTest s = false ∨ eb = [.gTest 0] ∧ atTest s = true) ∧
      sb = setGor sa 0 { y with pc := .l41 } := by
    rcases hy with hp | ⟨hp, hok⟩
    · refine ⟨[], _, rfl, Or.inl ⟨rfl, by simp [atTest, hg, hp]⟩, ?_⟩
      have : ({ y with pc := .l41 } : Gor α) = y := by
        cases y; simp only at hp; subst hp; rfl
      rw [this]
      simp [hsa, setGor, setCall, hg]
    · refine ⟨[.gTest 0], _, run_cons_some (Step.gTest sa 0 y hga hp) rfl,
        Or.inr ⟨rfl, by simp [atTest, hg, hp]⟩, ?_⟩
      simp [afterTest, hok]
  obtain ⟨eb, sb, hrb, heb, hsb⟩ := hB
  -- the handoff
  have hxb : sb.calls[c]? = some { x with pc := .body } := by
    simp [hsb, hsa, setGor, setCall, hlt]
  have hgb : sb.gos[0]? = some { y with pc := .l41 } := by
    simp [hsb, hsa, setGor, setCall, hg]
  have hC := Step.getRecv sb c 0 v { x with pc := .body } { y with pc := .l41 } 1 hxb hgb
    (by simp [hsb, hsa, setGor, setCall, hlout]) rfl hop
    (by simpa [hsb, hsa, setGor, setCall, isOpen] using hopen) rfl hth
  refine ⟨ea ++ (eb ++ [.getRecv c 0 v]), _,
    run_append_of hra (run_append_of hrb (run_cons_some hC rfl)), ?_, ?_, ?_, ?_, ?_⟩
  · rcases hea with ⟨h, _⟩ | ⟨h, _⟩ <;> rcases heb with ⟨h', _⟩ | ⟨h', _⟩ <;> subst h <;>
      subst h' <;> simp [noCall, isCall]
  · exact ⟨ea, eb, rfl, hea, heb⟩
  · simp [hsb, hsa, setGor, setCall]
  · exact ⟨{ y with pc := .l40 }, by simp [hsb, hsa, setGor, setCall, hg],
      Or.inr ⟨rfl, by
        rcases hy with hp | ⟨_, hok⟩
        · have ho' := (hi.done ho)
          obtain ⟨_, _, ci, co, y2, _, h42, h52, _⟩ := ho'
          rw [hg] at h42; cases h42
          exact h52.2.2.2.2.2.2 hp
        · exact hok⟩, hth⟩
  · simp [atTest, hsb, hsa, setGor, setCall, hg]

/-! ## After the first `Put` -/

theorem putCalls_mem {es : List (Event α)} {v : Value α} (h : Event.invoke (Op.put v) ∈ es) :
    v ∈ putCalls es := by
  simp only [putCalls, List.mem_filterMap]
  exact ⟨_, h, rfl⟩

theorem callsOf_mem {es : List (Event α)} {op : Op α} (h : Event.invoke op ∈ es) :
    op ∈ callsOf es := by
  simp only [callsOf, List.mem_filterMap]
  exact ⟨_, h, rfl⟩

theorem lastPut_of_mem {es : List (Event α)} {c g : Nat} {v : Value α}
    (h : Event.putSend c g v ∈ es) : ∃ w, lastPut es = some w := by
  induction es using List.reverseRecOn with
  | nil => simp at h
  | append_singleton es e ih =>
    rw [lastPut_snoc]
    rcases mem_snoc.mp h with hold | hnew
    · obtain ⟨w, hw⟩ := ih hold
      rw [hw]
      cases e <;> simp [lastPutStep]
    · subst hnew
      exact ⟨v, rfl⟩

/-- While `Stop` is not called, the goroutine is in its serving loop as soon as
a value has been handed over, and holds the last value handed over. -/
theorem serving_of_run {es : List (Event α)} {s : Sys α} {v : Value α}
    (h : run init es = some s) (hn : noStop es = true) (hl : lastPut es = some v) :
    Serving s v := by
  have hi := inv_of_run h
  have ht := tinv_of_run h
  obtain ⟨hopen, hnr⟩ := open_of_noStop h hn
  have hheld : held es = some v := by rw [held_eq_lastPut hnr]; exact hl
  cases hg : s.gos with
  | nil =>
    have := ht.held0 hg
    rw [this] at hheld; cases hheld
  | cons y rest =>
    have hy : s.gos[0]? = some y := by simp [hg]
    obtain ⟨ho, _, hgy⟩ := hi.of_gor hy
    obtain ⟨h1, h2, ci, co, y', h3, h4, h5, h6⟩ := hi.done ho
    rw [hgy] at h4; cases h4
    obtain ⟨g1, g2, g3, g4, g5, g6, g7⟩ := h5
    have hci : ci = false := by
      cases ci with
      | false => rfl
      | true => simp [isClosed, h3] at hopen
    obtain ⟨t1, t2⟩ := ht.held1 0 y hy
    have hn38 : y.pc ≠ .l38 := fun hp => by
      have := t1 (Or.inl hp); rw [this] at hheld; cases hheld
    have hn39 : y.pc ≠ .l39 := fun hp => by
      have := t1 (Or.inr hp); rw [this] at hheld; cases hheld
    have hth : y.thing = v := by
      have := t2 hn38 hn39
      rw [hheld] at this
      exact (Option.some.inj this).symm
    refine ⟨y, by rw [← hgy, hg], ?_, hth⟩
    cases hp : y.pc with
    | l38 => exact absurd hp hn38
    | l39 => exact absurd hp hn39
    | l40 =>
      right
      refine ⟨rfl, ?_⟩
      cases hok : y.ok with
      | true => rfl
      | false =>
        have := g6 hp hok
        rw [hci] at this; cases this
    | l41 => exact Or.inl rfl
    | ret => have := g5 (Or.inl hp); rw [hci] at this; cases this
    | done => have := g5 (Or.inr hp); rw [hci] at this; cases this
    | dead => exact absurd hp g3

/-- When every `Put` called has the same argument, that is the only value ever
handed over. -/
theorem lastPut_single {es : List (Event α)} {s : Sys α} {v w : Value α}
    (h : run init es = some s) (hp : putCalls es = [v]) (hl : lastPut es = some w) : w = v := by
  have ht := tinv_of_run h
  obtain ⟨c, g, hm⟩ := lastPut_mem hl
  obtain ⟨x, hx, hop, _⟩ := ht.put c g w hm
  have := ht.op c x hx
  rw [hop] at this
  have := putCalls_mem this
  rw [hp] at this
  simpa using this

/-- While `Stop` is not called and a single `Put` is, every `Get` that returns,
returns the argument of that `Put`. -/
theorem get_single {es pre post : List (Event α)} {s : Sys α} {e : Event α} {c : Nat}
    {v w : Value α} (hrun : run init es = some s) (hns : noStop es = true)
    (hp : putCalls es = [v]) (hsplit : es = pre ++ e :: post) (hret : getRet e = some (c, w)) :
    w = v := by
  have h := (get_from_put es pre post s e c w hrun hns hsplit hret).2.1
  have hm : Event.invoke (Op.put w) ∈ es := by rw [hsplit]; simp [h]
  have := putCalls_mem hm
  rw [hp] at this
  simpa using this

/-- While neither `Put` nor `Stop` is called no event at which a `Get` returns is
enabled: the goroutine is at or before its first receive and the outbound
channel is open. -/
theorem get_blocked {es : List (Event α)} {s : Sys α} (hrun : run init es = some s)
    (hns : noStop es = true) (hnp : noPut es = true) :
    (∀ (e : Event α) (c : Nat) (v : Value α), getRet e = some (c, v) → step s e = none) ∧
    (∀ y ∈ s.gos, y.pc = .l38 ∨ y.pc = .l39) ∧ isClosed s 1 = false := by
  have hi := inv_of_run hrun
  have ht := tinv_of_run hrun
  obtain ⟨hopen, hnr⟩ := open_of_noStop hrun hns
  have hnone : held es = none := by
    rw [held_eq_lastPut hnr]
    cases hl : lastPut es with
    | none => rfl
    | some w =>
      obtain ⟨c, g, hm⟩ := lastPut_mem hl
      exact absurd hm (no_send_of_noPut hrun hnp c g w)
  have hgor : ∀ y ∈ s.gos, y.pc = .l38 ∨ y.pc = .l39 := by
    intro y hy
    obtain ⟨g, hg⟩ := List.mem_iff_getElem?.mp hy
    obtain ⟨_, t2⟩ := ht.held1 g y hg
    by_contra hcon
    simp only [not_or] at hcon
    have := t2 hcon.1 hcon.2
    rw [hnone] at this; cases this
  have hout : isClosed s 1 = false := by
    cases hc : isClosed s 1 with
    | false => rfl
    | true =>
      exfalso
      cases ho : s.once with
      | fresh =>
        have := (hi.fresh ho).2.2.1
        simp [isClosed, this] at hc
      | running r =>
        obtain ⟨_, _, z, _, hst⟩ := hi.running r ho
        rcases hst with h | h | h | h <;> simp [isClosed, h.2.1] at hc
      | done =>
        obtain ⟨h1, h2, ci, co, y', h3, h4, h5, h6⟩ := hi.done ho
        have hco : co = true := by simpa [isClosed, h3] using hc
        have hd := h5.2.2.2.1.mp hco
        rcases hgor y' (by simp [h4]) with h | h <;> rw [h] at hd <;> cases hd
  refine ⟨fun e c v hret => ?_, hgor, hout⟩
  cases hs : step s e with
  | none => rfl
  | some s' =>
    exfalso
    have hst := Step.of_step hs
    cases hst with
    | getRecv c' g v' x y ch hx hy hout' hpc hop hopen' hsel hv =>
      have hmem : y ∈ s.gos := List.mem_iff_getElem?.mpr ⟨g, hy⟩
      rcases hgor y hmem with h | h <;> rw [h] at hsel <;> cases hsel
    | getClosed c' x ch hx hout' hpc hop hclosed =>
      have ho := hi.of_past hx (Or.inl hpc)
      have h2 := (hi.done ho).2.1
      rw [h2] at hout'; cases hout'
      rw [hout] at hclosed; cases hclosed
    | _ => simp [getRet] at hret

/-- From the serving loop, `k` calls of `Get` made one after the other run to
their ends and every one of them returns the held value. -/
theorem seq_gets {v : Value α} : ∀ (k : Nat) (s : Sys α), Inv s → Serving s v →
    ∃ s', run s (seqGets s.calls.length (atTest s) v k) = some s' ∧
      s'.calls.length = s.calls.length + k ∧
      (∀ j, j < k → ∃ x, s'.calls[s.calls.length + j]? = some x ∧ x.op = .get ∧
        x.pc = .ret ∧ x.res = v) ∧
      Serving s' v := by
  intro k
  induction k with
  | zero =>
    intro s _ hsv
    exact ⟨s, rfl, rfl, fun j hj => absurd hj (Nat.not_lt_zero j), hsv⟩
  | succ k ih =>
    intro s hi hsv
    -- the call
    have st0 := Step.invoke s (Op.get : Op α)
    have hi0 := hi.preserved st0
    have hsv0 : Serving { s with calls := s.calls ++
        [{ op := Op.get, pc := .once, cin := none, res := none }] } v := hsv
    have hx0 : ({ s with calls := s.calls ++
        [{ op := (Op.get : Op α), pc := .once, cin := none, res := none }] } : Sys α).calls[
          s.calls.length]? = some { op := Op.get, pc := .once, cin := none, res := none } := by
      simp
    obtain ⟨es', s1, hr1, _, ⟨ea, eb, hshape, hea, heb⟩, hcalls1, hsv1, hat1⟩ :=
      get_serving hi0 hsv0 hx0 rfl (by simp)
    have hea' : ea = [.doSkip s.calls.length] := by
      rcases hea with ⟨_, h⟩ | ⟨h, _⟩
      · simp at h
      · exact h
    have hat0 : atTest ({ s with calls := s.calls ++
        [{ op := (Op.get : Op α), pc := .once, cin := none, res := none }] } : Sys α)
        = atTest s := rfl
    rw [hat0] at heb
    have hblock : getBlock s.calls.length (atTest s) v = .invoke .get :: es' := by
      rw [hshape, hea']
      rcases heb with ⟨h, ht⟩ | ⟨h, ht⟩ <;> rw [h, ht] <;> rfl
    have hi1 : Inv s1 := inv_along hi0 hr1
    have hlen1 : s1.calls.length = s.calls.length + 1 := by
      rw [hcalls1]; simp
    have hc1 : s1.calls[s.calls.length]? =
        some { op := Op.get, pc := .ret, cin := none, res := v } := by
      rw [hcalls1]; simp
    obtain ⟨s', hr', hlen', hres', hsv'⟩ := ih s1 hi1 hsv1
    rw [hat1, hlen1] at hr'
    refine ⟨s', ?_, by rw [hlen', hlen1]; omega, ?_, hsv'⟩
    · show run s (getBlock s.calls.length (atTest s) v ++
        seqGets (s.calls.length + 1) true v k) = some s'
      rw [hblock]
      exact run_cons_some st0 (run_append_of hr1 hr')
    · intro j hj
      cases j with
      | zero =>
        obtain ⟨z', k1, k2, k3, _⟩ := run_calls_mono hr' _ _ hc1
        have := k3 rfl
        subst this
        exact ⟨_, k1, rfl, rfl, rfl⟩
      | succ j =>
        obtain ⟨x, hx, h1, h2, h3⟩ := hres' j (by omega)
        refine ⟨x, ?_, h1, h2, h3⟩
        rw [hlen1] at hx
        rw [← hx]
        congr 1
        omega

/-! ## The claims about the values a `Get` returns -/

/-- C5 (no invented values). In every execution from the zero-value `Latest`
in which `Stop` is never called, whatever the interleaving of the calls of
`Put` and `Get`: when a `Get` call `c` returns `v` at an event, a `Put` with
argument `v` was called and handed `v` over to the coordination goroutine at
an earlier event (so nil is returned only if nil was put), and the call `c`
is a `Get` that has returned `v`. -/
theorem no_invented_values (es pre post : List (Event α)) (s : Sys α) (e : Event α)
    (c : Nat) (v : Value α) (hrun : run init es = some s) (hns : noStop es = true)
    (hsplit : es = pre ++ e :: post) (hret : getRet e = some (c, v)) :
    (∃ c' g', Event.putSend c' g' v ∈ pre ∧
      ∃ x', s.calls[c']? = some x' ∧ x'.op = .put v ∧ x'.pc = .ret) ∧
    Event.invoke (Op.put v) ∈ pre ∧
    ∃ x, s.calls[c]? = some x ∧ x.op = .get ∧ x.pc = .ret ∧ x.res = v :=
  get_from_put es pre post s e c v hrun hns hsplit hret

/-- C2 (block until the first value). In every execution from the zero-value
`Latest` in which `Stop` is not called: as long as no `Put` is called, no
event at which a `Get` returns is enabled and none has occurred, the
goroutine being at or before its first receive and the outbound channel
open; and when a single `Put` is called, with argument `v1`, every `Get` that
returns, returns `v1`, and once that `Put` has handed `v1` over every pending
`Get` can run on to its return of `v1` without any further call. -/
theorem block_until_first_value (es : List (Event α)) (s : Sys α)
    (hrun : run init es = some s) (hns : noStop es = true) :
    (noPut es = true →
      (∀ (e : Event α) (c : Nat) (v : Value α), getRet e = some (c, v) → step s e = none) ∧
      (∀ e ∈ es, getRet e = none) ∧
      (∀ y ∈ s.gos, y.pc = .l38 ∨ y.pc = .l39) ∧ isClosed s 1 = false) ∧
    (∀ (v1 : Value α) (cp gp : Nat), putCalls es = [v1] → Event.putSend cp gp v1 ∈ es →
      (∀ (pre post : List (Event α)) (e : Event α) (c : Nat) (w : Value α),
        es = pre ++ e :: post → getRet e = some (c, w) → w = v1) ∧
      ∀ (c : Nat) (x : Call α), s.calls[c]? = some x → x.op = .get → x.pc ≠ .ret →
        ∃ es' s', run s es' = some s' ∧ noCall es' = true ∧
          ∃ x', s'.calls[c]? = some x' ∧ x'.op = .get ∧ x'.pc = .ret ∧ x'.res = v1) := by
  refine ⟨fun hnp => ?_, fun v1 cp gp hp hsent => ?_⟩
  · obtain ⟨b1, b2, b3⟩ := get_blocked hrun hns hnp
    refine ⟨b1, fun e he => ?_, b2, b3⟩
    cases hr : getRet e with
    | none => rfl
    | some cv =>
      obtain ⟨c, v⟩ := cv
      obtain ⟨pre, post, hsplit⟩ := List.append_of_mem he
      have h := (get_from_put es pre post s e c v hrun hns hsplit hr).2.1
      have hm : Event.invoke (Op.put v) ∈ es := by rw [hsplit]; simp [h]
      exact absurd hm (noPut_mem hnp v)
  · refine ⟨fun pre post e c w hsplit hret => get_single hrun hns hp hsplit hret, ?_⟩
    intro c x hx hop hpc
    obtain ⟨w, hw⟩ := lastPut_of_mem hsent
    have hwv := lastPut_single hrun hp hw
    subst hwv
    have hsv := serving_of_run hrun hns hw
    obtain ⟨es', s', hr, hnc, _, hcalls, _, _⟩ := get_serving (inv_of_run hrun) hsv hx hop hpc
    refine ⟨es', s', hr, hnc, { x with pc := .ret, res := w }, ?_, hop, rfl, rfl⟩
    rw [hcalls]
    exact List.getElem?_set_self (List.getElem?_eq_some.mp hx).1

/-- C6 (reading does not consume). In every execution from the zero-value
`Latest` in which `Stop` is not called and a single `Put` is, with argument
`v`, once that `Put` has handed `v` over: every `Get` that has returned has
returned `v`; for every `k`, `k` calls of `Get` made one after the other from
the state reached run to their ends and all return `v`; and the handoff to a
`Get` leaves the goroutine's `thing`, `ok` and channels as they were, its next
step (the loop condition) taking it back to the `select` it was at. -/
theorem reading_does_not_consume (es : List (Event α)) (s : Sys α) (v : Value α)
    (cp gp : Nat) (hrun : run init es = some s) (hns : noStop es = true)
    (hput : putCalls es = [v]) (hsent : Event.putSend cp gp v ∈ es) :
    (∀ (pre post : List (Event α)) (e : Event α) (c : Nat) (w : Value α),
      es = pre ++ e :: post → getRet e = some (c, w) → w = v) ∧
    (∀ k, ∃ s', run s (seqGets s.calls.length (atTest s) v k) = some s' ∧
      ∀ j, j < k → ∃ x, s'.calls[s.calls.length + j]? = some x ∧ x.op = .get ∧
        x.pc = .ret ∧ x.res = v) ∧
    (∀ (c g : Nat) (w : Value α) (s' : Sys α), step s (.getRecv c g w) = some s' →
      ∃ y, s.gos[g]? = some y ∧ y.thing = w ∧ y.pc = .l41 ∧ y.ok = true ∧
        s'.gos[g]? = some { y with pc := .l40 } ∧
        ∃ s'', step s' (.gTest g) = some s'' ∧ s''.gos = s.gos) := by
  have hi := inv_of_run hrun
  refine ⟨fun pre post e c w hsplit hret => get_single hrun hns hput hsplit hret, ?_, ?_⟩
  · intro k
    obtain ⟨w, hw⟩ := lastPut_of_mem hsent
    have hwv := lastPut_single hrun hput hw
    subst hwv
    obtain ⟨s', h1, _, h3, _⟩ := seq_gets k s hi (serving_of_run hrun hns hw)
    exact ⟨s', h1, h3⟩
  · intro c g w s' hs
    have hst := Step.of_step hs
    cases hst with
    | getRecv c g v' x y ch hx hy hout hpc hop hopen hsel hv =>
      obtain ⟨ho, hg0, hgy⟩ := hi.of_gor hy
      subst hg0
      obtain ⟨_, _, ci, co, y', _, h4, h5, _⟩ := hi.done ho
      rw [hgy] at h4; cases h4
      have hok : y.ok = true := h5.2.2.2.2.2.2 hsel
      have hg' : (s.gos.set 0 { y with pc := GPC.l40 })[0]? = some { y with pc := GPC.l40 } := by
        simp [hgy]
      refine ⟨y, hy, hv, hsel, hok, hg', _, (Step.gTest _ 0 _ hg' rfl).to_step, ?_⟩
      cases y
      simp only at hsel hok
      subst hsel hok
      simp [setGor, afterTest, hgy]

/-- C4 (shutdown unblocks readers). In every execution from the zero-value
`Latest` in which `Put` is never called: a `Get` that returns, returns nil
(whether the goroutine hands over the nil it received from the closed inbound
channel or the `Get` receives from the closed outbound channel); and from
every state reached after a `Stop` has returned, a pending `Get` is never
blocked for good: steps of the goroutine alone (`gs`), followed by the
`Get`'s own `l.once.Do` if it is still to do and its receive from the closed
outbound channel, are enabled one after the other and make it return nil. -/
theorem shutdown_unblocks_readers (es : List (Event α)) (s : Sys α)
    (hrun : run init es = some s) (hnp : noPut es = true) :
    (∀ (pre post : List (Event α)) (e : Event α) (c : Nat) (v : Value α),
      es = pre ++ e :: post → getRet e = some (c, v) → v = none) ∧
    (∀ (cs : Nat) (z : Call α), s.calls[cs]? = some z → z.op = .stop → z.pc = .ret →
      ∀ (c : Nat) (x : Call α), s.calls[c]? = some x → x.op = .get → x.pc ≠ .ret →
        ∃ gs fin s', run s (gs ++ fin) = some s' ∧ (∀ e ∈ gs, isGorStep e = true) ∧
          (fin = [.getClosed c] ∨ fin = [.doSkip c, .getClosed c]) ∧
          ∃ x', s'.calls[c]? = some x' ∧ x'.op = .get ∧ x'.pc = .ret ∧ x'.res = none) := by
  have hi := inv_of_run hrun
  refine ⟨fun pre post e c v hsplit hret => ?_, fun cs z hz hzop hzpc c x hx hop hpc => ?_⟩
  · subst hsplit
    obtain ⟨m, m', hpre, hs, _, _⟩ := run_split hrun
    have hnp' := (noPut_append.mp hnp).1
    rcases get_value hpre hs hret with ⟨h, _⟩ | ⟨h, _⟩
    · rcases held_no_put (no_send_of_noPut hpre hnp') with h' | h'
      · rw [h'] at h; cases h
      · rw [h'] at h; exact (Option.some.inj h).symm
    · exact h
  · have ho := hi.of_past hz (Or.inr (Or.inl hzpc))
    obtain ⟨_, _, ci, co, y, h3, _, _, h6⟩ := hi.done ho
    have hci : ci = true := (h6 cs z hz).2.2 hzop hzpc
    have hc : isClosed s 0 = true := by simp [isClosed, h3, hci]
    exact get_after_close hi hc hx hop hpc

/-! ## After `Stop` -/

/-- A call that has returned after a step had returned before, or the step is
its handoff, its receive from the closed channel or its close. -/
theorem Step.ret_back {s s' : Sys α} {e : Event α} (h : Step s e s') (i : Nat) (z' : Call α)
    (hz : s'.calls[i]? = some z') (hr : z'.pc = .ret) :
    s.calls[i]? = some z' ∨ (∃ g v, e = .putSend i g v) ∨ (∃ g v, e = .getRecv i g v) ∨
      e = .getClosed i ∨ e = .stopClose i := by
  have key : ∀ (c : Nat) (x' : Call α), (s.calls.set c x')[i]? = some z' →
      (c = i → x'.pc ≠ .ret) → s.calls[i]? = some z' := by
    intro c x' hset hne
    rw [List.getElem?_set] at hset
    split_ifs at hset with h1 h2
    · cases hset; exact absurd hr (hne h1)
    · exact hset
  have key2 : ∀ (c : Nat) (x' : Call α), (s.calls.set c x')[i]? = some z' →
      s.calls[i]? = some z' ∨ c = i := by
    intro c x' hset
    by_cases hci : c = i
    · exact Or.inr hci
    · rw [List.getElem?_set_ne hci] at hset; exact Or.inl hset
  cases h with
  | invoke op =>
    left
    have hz' : (s.calls ++ [{ op := op, pc := .once, cin := none, res := none }])[i]? =
        some z' := hz
    rw [List.getElem?_append] at hz'
    split_ifs at hz' with hlt
    · exact hz'
    · have : z' = { op := op, pc := .once, cin := none, res := none } := by
        have hm := List.mem_iff_getElem?.mpr ⟨_, hz'⟩
        simpa using hm
      subst this
      cases hr
  | doStart c x hx hpc ho => exact Or.inl (key c _ hz (fun _ => by simp))
  | doSkip c x hx hpc ho => exact Or.inl (key c _ hz (fun _ => by simp))
  | mkIn c x hx hpc => exact Or.inl (key c _ hz (fun _ => by simp))
  | mkOut c x hx hpc => exact Or.inl (key c _ hz (fun _ => by simp))
  | copyIn c x hx hpc => exact Or.inl (key c _ hz (fun _ => by simp))
  | spawn c x hx hpc => exact Or.inl (key c _ hz (fun _ => by simp))
  | putPanic c x ch hx hin hpc hop hclosed => exact Or.inl (key c _ hz (fun _ => by simp))
  | stopPanic c x hx hpc hop hno => exact Or.inl (key c _ hz (fun _ => by simp))
  | putSend c g v x y ch hx hy hin hpc hop hopen hrecv =>
    rcases key2 c _ hz with h | h
    · exact Or.inl h
    · subst h; exact Or.inr (Or.inl ⟨g, v, rfl⟩)
  | getRecv c g v x y ch hx hy hout hpc hop hopen hsel hv =>
    rcases key2 c _ hz with h | h
    · exact Or.inl h
    · subst h; exact Or.inr (Or.inr (Or.inl ⟨g, v, rfl⟩))
  | getClosed c x ch hx hout hpc hop hclosed =>
    rcases key2 c _ hz with h | h
    · exact Or.inl h
    · subst h; exact Or.inr (Or.inr (Or.inr (Or.inl rfl)))
  | stopClose c x ch hx hin hpc hop hopen =>
    rcases key2 c _ hz with h | h
    · exact Or.inl h
    · subst h; exact Or.inr (Or.inr (Or.inr (Or.inr rfl)))
  | gDefer g y hy hpc => exact Or.inl hz
  | gRecvClosed g y ch hy hrecv hclosed => exact Or.inl hz
  | gTest g y hy hpc => exact Or.inl hz
  | gClose g y ch hy hd hpc hopen => exact Or.inl hz
  | gPanic g y hy hp => exact Or.inl hz

/-- With the inbound channel closed, neither a handoff from a `Put` nor a close
by a `Stop` is enabled. -/
theorem closed_blocks {s s' : Sys α} {e : Event α} (hi : Inv s) (hc : isClosed s 0 = true)
    (h : Step s e s') : (∀ c g v, e ≠ .putSend c g v) ∧ ∀ c, e ≠ .stopClose c := by
  have hopen : ∀ (c : Nat) (x : Call α) (ch : Chan), s.calls[c]? = some x → x.pc = .body →
      s.lin = some ch → isOpen s ch = true → False := by
    intro c x ch hx hpc hin ho
    have hd := hi.of_past hx (Or.inl hpc)
    have h1 := (hi.done hd).1
    rw [h1] at hin; cases hin
    simp only [isOpen, isClosed, decide_eq_true_eq] at ho hc
    rw [hc] at ho; cases ho
  cases h with
  | putSend c g v x y ch hx hy hin hpc hop hopen' hrecv => exact (hopen c x ch hx hpc hin hopen').elim
  | stopClose c x ch hx hin hpc hop hopen' => exact (hopen c x ch hx hpc hin hopen').elim
  | _ => exact ⟨fun _ _ _ h => (by cases h), fun _ h => (by cases h)⟩

/-- Once the inbound channel is closed it stays closed, no `Put` hands a value
over, no `Stop` closes, and no `Put` or `Stop` called from then on returns. -/
theorem after_close {m s : Sys α} {post : List (Event α)} (hi : Inv m)
    (hc : isClosed m 0 = true) (hrun : run m post = some s) (c2 : Nat)
    (hnew : m.calls.length ≤ c2) :
    isClosed s 0 = true ∧ (∀ c g v, Event.putSend c g v ∉ post) ∧
      (∀ c, Event.stopClose c ∉ post) ∧
      ∀ (x : Call α), s.calls[c2]? = some x → x.op ≠ .get → x.pc ≠ .ret := by
  refine run_induction (fun es t => Inv t ∧ isClosed t 0 = true ∧
    (∀ c g v, Event.putSend c g v ∉ es) ∧ (∀ c, Event.stopClose c ∉ es) ∧
    ∀ (x : Call α), t.calls[c2]? = some x → x.op ≠ .get → x.pc ≠ .ret) ?_ ?_ post s hrun
    |>.2
  · refine ⟨hi, hc, fun c g v h => (by simp at h), fun c h => (by simp at h), fun x hx => ?_⟩
    rw [List.getElem?_eq_none hnew] at hx; cases hx
  · intro es t e t' _ ⟨hit, hct, ih1, ih2, ih3⟩ hs
    have hst := Step.of_step hs
    obtain ⟨b1, b2⟩ := closed_blocks hit hct hst
    refine ⟨hit.preserved hst, hst.closed_mono 0 hct, fun c g v hm => ?_, fun c hm => ?_,
      fun x hx hop hr => ?_⟩
    · rcases mem_snoc.mp hm with h | h
      · exact ih1 c g v h
      · exact b1 c g v h.symm
    · rcases mem_snoc.mp hm with h | h
      · exact ih2 c h
      · exact b2 c h.symm
    · rcases hst.ret_back c2 x hx hr with h | ⟨g, v, h⟩ | ⟨g, v, h⟩ | h | h
      · exact ih3 x h hop hr
      · exact b1 c2 g v h
      · subst h
        cases hst with
        | getRecv c g v x0 y ch hx0 hy hout hpc hop0 hopen hsel hv =>
          obtain ⟨z', k1, k2, _, _⟩ := (Step.getRecv t c2 g v x0 y ch hx0 hy hout hpc hop0 hopen
            hsel hv).calls_mono c2 x0 hx0
          rw [hx] at k1; cases k1
          exact hop (k2.trans hop0)
      · subst h
        cases hst with
        | getClosed c x0 ch hx0 hout hpc hop0 hclosed =>
          obtain ⟨z', k1, k2, _, _⟩ := (Step.getClosed t c2 x0 ch hx0 hout hpc hop0
            hclosed).calls_mono c2 x0 hx0
          rw [hx] at k1; cases k1
          exact hop (k2.trans hop0)
      · exact b2 c2 h

/-- A returned `Stop` has closed the inbound channel. -/
theorem closed_of_stop {s : Sys α} (hi : Inv s) {c : Nat} {z : Call α}
    (hz : s.calls[c]? = some z) (hop : z.op = .stop) (hpc : z.pc = .ret) :
    isClosed s 0 = true ∧ s.once = .done := by
  have ho := hi.of_past hz (Or.inr (Or.inl hpc))
  obtain ⟨_, _, ci, co, y, h3, _, _, h6⟩ := hi.done ho
  have hci : ci = true := (h6 c z hz).2.2 hop hpc
  exact ⟨by simp [isClosed, h3, hci], ho⟩

theorem held_recv_no_put (p t : List (Event α)) {g : Nat} (hg : Event.gRecvClosed g ∈ t)
    (h : ∀ c g v, Event.putSend c g v ∉ t) : held (p ++ t) = some none := by
  induction t using List.reverseRecOn with
  | nil => simp at hg
  | append_singleton t e ih =>
    rw [← List.append_assoc, held_snoc]
    have h' : ∀ c g v, Event.putSend c g v ∉ t := fun c g v hm =>
      h c g v (mem_snoc.mpr (Or.inl hm))
    cases e with
    | putSend c g v => exact absurd (mem_snoc.mpr (Or.inr rfl)) (h c g v)
    | gRecvClosed g' => rfl
    | _ =>
      rcases mem_snoc.mp hg with hold | hnew
      · exact ih hold h'
      · cases hnew

/-- The value held comes from a handoff, or is nil. -/
theorem held_mem {es : List (Event α)} {v : Value α} (h : held es = some v) :
    v = none ∨ ∃ c g, Event.putSend c g v ∈ es := by
  induction es using List.reverseRecOn generalizing v with
  | nil => simp [held] at h
  | append_singleton es e ih =>
    rw [held_snoc] at h
    cases e with
    | putSend c g w =>
      simp [heldStep] at h
      subst h
      exact Or.inr ⟨c, g, by simp⟩
    | gRecvClosed g =>
      simp [heldStep] at h
      exact Or.inl h.symm
    | _ =>
      simp only [heldStep] at h
      rcases ih h with h1 | ⟨c, g, hm⟩
      · exact Or.inl h1
      · exact Or.inr ⟨c, g, mem_snoc.mpr (Or.inl hm)⟩

/-- C3, counterexample. In the execution `staleTrace` the call `Put(7)` hands 7
over and returns, then `Stop` is called, closes the inbound channel and
returns, then `Get` is called; at the `select` both branches are ready and the
send branch is taken: the `Get` (call 2) returns 7, not nil. -/
theorem get_after_stop_returns_put_value :
    staleTrace = staleHead ++ .stopClose 1 ::
      ([] ++ .invoke .get :: ([.doSkip 2] ++ .getRecv 2 0 (some 7) :: [])) ∧
    Event.putSend 0 0 (some 7) ∈ staleHead ∧
    getRet (Event.getRecv 2 0 (some 7) : Event Nat) =
      some (invokes (staleHead ++ .stopClose 1 :: []), some 7) ∧
    run init staleTrace = some staleState ∧
    staleState.calls[2]? = some { op := .get, pc := .ret, cin := none, res := some 7 } ∧
    (some 7 : Value Nat) ≠ none := by
  refine ⟨rfl, by decide, rfl, by decide, rfl, by decide⟩

/-- A `Get` called after a `Stop` has closed the inbound channel returns nil or
the value of the last handoff before that close, and nil if the goroutine has
received from the closed inbound channel in between. -/
theorem stop_value_core (es a b d post : List (Event α)) (cs : Nat) (e : Event α)
    (v : Value α) (s : Sys α) (hrun : run init es = some s)
    (hsplit : es = a ++ .stopClose cs :: (b ++ .invoke .get :: (d ++ e :: post)))
    (hret : getRet e = some (invokes (a ++ .stopClose cs :: b), v)) :
    (v = none ∨ lastPut a = some v) ∧
    ((∃ g, Event.gRecvClosed g ∈ b ++ .invoke .get :: d) → v = none) := by
  have e1 : es = (a ++ [.stopClose cs] ++ (b ++ .invoke .get :: d)) ++ e :: post := by
    rw [hsplit]; simp
  rw [e1] at hrun
  obtain ⟨m, m', hpre, hs, _, _⟩ := run_split hrun
  obtain ⟨m1, hm1, htail⟩ := run_append_some hpre
  obtain ⟨ma, hma, hstep⟩ := run_snoc_some hm1
  have hia := inv_of_run hma
  have hi1 := inv_of_run hm1
  -- the inbound channel was open before the close, and is closed after it
  have hboth : isClosed ma 0 = false ∧ isClosed m1 0 = true := by
    have hst := Step.of_step hstep
    cases hst with
    | stopClose c x ch hx hin hpc hop hopen =>
      have ho := hia.of_past hx (Or.inl hpc)
      obtain ⟨h1, _, ci, co, y, h3, _, _, _⟩ := hia.done ho
      rw [h1] at hin; cases hin
      have hci : ci = false := by simpa [isOpen, h3] using hopen
      subst hci
      exact ⟨by simp [isClosed, h3], by simp [isClosed, h3]⟩
  have hnr : ∀ g, Event.gRecvClosed g ∉ a := by
    intro g hm
    have := (tinv_of_run hma).recv g hm
    rw [hboth.1] at this; cases this
  have hnosend := (after_close hi1 hboth.2 htail m1.calls.length (Nat.le_refl _)).2.1
  have hheld_a : held (a ++ [.stopClose cs]) = lastPut a := by
    rw [held_snoc, held_eq_lastPut hnr]; rfl
  rcases get_value hpre hs hret with ⟨h, _⟩ | ⟨h, _⟩
  · refine ⟨?_, fun ⟨g, hg⟩ => ?_⟩
    · rcases held_append_no_put (a ++ [.stopClose cs]) _ hnosend with h' | h'
      · rw [h', hheld_a] at h; exact Or.inr h
      · rw [h'] at h; exact Or.inl (Option.some.inj h).symm
    · have := held_recv_no_put (a ++ [.stopClose cs]) _ hg hnosend
      rw [this] at h; exact (Option.some.inj h).symm
  · exact ⟨Or.inl h, fun _ => h⟩

/-- C7 (a second `Stop` is fatal). In every execution from the zero-value
`Latest`, once a `Stop` has returned (state `m`), a `Stop` called later (call
`c2`) never returns: in every later state `s` the close of the inbound channel
is enabled for no call at all, the call `c2` is at its `l.once.Do`, at its
`close(l.in)` or has panicked, and as long as it has not panicked its own
steps lead it into the panic of `close` on the closed channel. -/
theorem second_stop_panics (pre post : List (Event α)) (m s : Sys α) (c1 c2 : Nat)
    (z1 x2 : Call α) (hpre : run init pre = some m) (hpost : run m post = some s)
    (hz1 : m.calls[c1]? = some z1) (hop1 : z1.op = .stop) (hpc1 : z1.pc = .ret)
    (hnew : m.calls.length ≤ c2) (hx2 : s.calls[c2]? = some x2) (hop2 : x2.op = .stop) :
    x2.pc ≠ .ret ∧ (∀ c, step s (.stopClose c) = none) ∧
    (x2.pc = .once ∨ x2.pc = .body ∨ x2.pc = .dead) ∧
    (x2.pc ≠ .dead → ∃ fin s', run s fin = some s' ∧
      (fin = [.stopPanic c2] ∨ fin = [.doSkip c2, .stopPanic c2]) ∧
      s'.calls[c2]? = some { x2 with pc := .dead }) := by
  have him := inv_of_run hpre
  obtain ⟨hcm, hom⟩ := closed_of_stop him hz1 hop1 hpc1
  have his := inv_along him hpost
  obtain ⟨hcs, _, _, hnr⟩ := after_close him hcm hpost c2 hnew
  have hos := (fields_stable him hpost).2.2 hom |>.1
  obtain ⟨h1, h2, ci, co, y, h3, h4, h5, h6⟩ := his.done hos
  have hnot : x2.pc ≠ .ret := hnr x2 hx2 (by simp [hop2])
  have hno : optOpen s s.lin = false := by
    simp only [isClosed, decide_eq_true_eq] at hcs
    simp [optOpen, h1, isOpen, hcs]
  have hlt := (List.getElem?_eq_some.mp hx2).1
  refine ⟨hnot, fun c => ?_, ?_, fun hnd => ?_⟩
  · cases hs : step s (.stopClose c) with
    | none => rfl
    | some s' => exact absurd rfl ((closed_blocks his hcs (Step.of_step hs)).2 c)
  · rcases (h6 c2 x2 hx2).1 with h | h | h | h
    · exact Or.inl h
    · exact Or.inr (Or.inl h)
    · exact absurd h hnot
    · exact Or.inr (Or.inr h)
  · rcases (h6 c2 x2 hx2).1 with h | h | h | h
    · have st1 := Step.doSkip s c2 x2 hx2 h hos
      have st2 := Step.stopPanic (setCall s c2 { x2 with pc := .body }) c2
        { x2 with pc := .body } (by simp [setCall, hlt]) rfl hop2
        (by simpa [setCall, optOpen, isOpen] using hno)
      exact ⟨[.doSkip c2, .stopPanic c2], _, run_cons_some st1 (run_cons_some st2 rfl),
        Or.inr rfl, by simp [setCall, hlt]⟩
    · have st2 := Step.stopPanic s c2 x2 hx2 h hop2 hno
      exact ⟨[.stopPanic c2], _, run_cons_some st2 rfl, Or.inl rfl, by simp [setCall, hlt]⟩
    · exact absurd h hnot
    · exact absurd h hnd

/-- C10 (`Put` after `Stop` never publishes). In every execution from the
zero-value `Latest`, once a `Stop` has returned (state `m`), a `Put` called
later (call `c2`, argument `v`) never returns and never hands its value over:
no handoff of call `c2` occurs in the execution and none is enabled in any
later state `s`; as long as it has not panicked its own steps lead it into
the panic of the send on the closed channel, a step that leaves the
goroutines, the channels and the fields as they are; and every value a `Get`
returns is nil or was handed over by a call other than `c2`. -/
theorem put_after_stop_panics (pre post : List (Event α)) (m s : Sys α) (c1 c2 : Nat)
    (z1 x2 : Call α) (v : Value α) (hpre : run init pre = some m)
    (hpost : run m post = some s) (hz1 : m.calls[c1]? = some z1) (hop1 : z1.op = .stop)
    (hpc1 : z1.pc = .ret) (hnew : m.calls.length ≤ c2) (hx2 : s.calls[c2]? = some x2)
    (hop2 : x2.op = .put v) :
    x2.pc ≠ .ret ∧ (∀ g w, Event.putSend c2 g w ∉ pre ++ post) ∧
    (∀ g w, step s (.putSend c2 g w) = none) ∧
    (x2.pc ≠ .dead → ∃ fin s', run s fin = some s' ∧
      (fin = [.putPanic c2] ∨ fin = [.doSkip c2, .putPanic c2]) ∧
      s'.calls[c2]? = some { x2 with pc := .dead } ∧ s'.gos = s.gos ∧ s'.chans = s.chans ∧
      s'.lin = s.lin ∧ s'.lout = s.lout) ∧
    (∀ (p q : List (Event α)) (e : Event α) (c : Nat) (w : Value α),
      pre ++ post = p ++ e :: q → getRet e = some (c, w) →
      w = none ∨ ∃ c' g', Event.putSend c' g' w ∈ p ∧ c' ≠ c2) := by
  have him := inv_of_run hpre
  obtain ⟨hcm, hom⟩ := closed_of_stop him hz1 hop1 hpc1
  have his := inv_along him hpost
  obtain ⟨hcs, hns, _, hnr⟩ := after_close him hcm hpost c2 hnew
  have hos := (fields_stable him hpost).2.2 hom |>.1
  obtain ⟨h1, h2, ci, co, y, h3, h4, h5, h6⟩ := his.done hos
  have hnot : x2.pc ≠ .ret := hnr x2 hx2 (by simp [hop2])
  have hlt := (List.getElem?_eq_some.mp hx2).1
  have hnever : ∀ g w, Event.putSend c2 g w ∉ pre ++ post := by
    intro g w hm
    rcases List.mem_append.mp hm with h | h
    · obtain ⟨x, hx, _, _⟩ := (tinv_of_run hpre).put c2 g w h
      rw [List.getElem?_eq_none hnew] at hx; cases hx
    · exact hns c2 g w h
  have hclosed1 : isClosed s 0 = true := hcs
  refine ⟨hnot, hnever, fun g w => ?_, fun hnd => ?_, fun p q e c w hsplit hret => ?_⟩
  · cases hs : step s (.putSend c2 g w) with
    | none => rfl
    | some s' => exact absurd rfl ((closed_blocks his hcs (Step.of_step hs)).1 c2 g w)
  · rcases (h6 c2 x2 hx2).1 with h | h | h | h
    · have st1 := Step.doSkip s c2 x2 hx2 h hos
      have st2 := Step.putPanic (setCall s c2 { x2 with pc := .body }) c2
        { x2 with pc := .body } 0 (by simp [setCall, hlt]) h1 rfl (by simp [hop2, Op.isPut])
        (by simpa [setCall, isClosed] using hclosed1)
      exact ⟨[.doSkip c2, .putPanic c2], _, run_cons_some st1 (run_cons_some st2 rfl),
        Or.inr rfl, by simp [setCall, hlt], rfl, rfl, rfl, rfl⟩
    · have st2 := Step.putPanic s c2 x2 0 hx2 h1 h (by simp [hop2, Op.isPut]) hclosed1
      exact ⟨[.putPanic c2], _, run_cons_some st2 rfl, Or.inl rfl, by simp [setCall, hlt],
        rfl, rfl, rfl, rfl⟩
    · exact absurd h hnot
    · exact absurd h hnd
  · have hall : run init (pre ++ post) = some s := run_append_of hpre hpost
    rw [hsplit] at hall
    obtain ⟨mp, mp', hp, hst, _, _⟩ := run_split hall
    rcases get_value hp hst hret with ⟨h, _⟩ | ⟨h, _⟩
    · rcases held_mem h with h' | ⟨c', g', hm⟩
      · exact Or.inl h'
      · refine Or.inr ⟨c', g', hm, fun hc => ?_⟩
        subst hc
        exact hnever g' w (by rw [hsplit]; simp [hm])
    · exact Or.inl h

/-! ## `Stop` on a cell never used -/

theorem sum_map_set {β : Type} (f : β → Nat) {l : List β} {c : Nat} {x : β} (x' : β)
    (h : l[c]? = some x) : ((l.set c x').map f).sum + f x = (l.map f).sum + f x' := by
  induction l generalizing c with
  | nil => simp at h
  | cons a l ih =>
    cases c with
    | zero =>
      simp at h; subst h
      simp; omega
    | succ n =>
      simp only [List.getElem?_cons_succ] at h
      have := ih h
      simp only [List.set_cons_succ, List.map_cons, List.sum_cons]
      omega

theorem invokes_eq_callsOf (es : List (Event α)) : invokes es = (callsOf es).length := by
  induction es with
  | nil => rfl
  | cons e es ih =>
    cases e <;> simp [invokes, callsOf, List.filterMap_cons] <;> simpa [callsOf] using ih

/-- When only `Stop` is called every step other than a call uses up work. -/
theorem work_decreases {s s' : Sys α} {e : Event α} (hi : Inv s) (h : Step s e s')
    (hcall : isCall e = false)
    (honly : ∀ (i : Nat) (x : Call α), s.calls[i]? = some x → x.op = .stop) :
    work s' + 1 ≤ work s := by
  have cset : ∀ (c : Nat) (x x' : Call α) (gos : List (Gor α)), s.calls[c]? = some x →
      x'.pc.rank + 1 ≤ x.pc.rank →
      ((s.calls.set c x').map (fun x => x.pc.rank)).sum + (gos.map Gor.rank).sum + 1 ≤
        (s.calls.map (fun x => x.pc.rank)).sum + (gos.map Gor.rank).sum := by
    intro c x x' gos hx hr
    have := sum_map_set (fun x : Call α => x.pc.rank) x' hx
    simp only at this
    omega
  have gset : ∀ (y y' : Gor α), s.gos = [y] → y'.rank + 1 ≤ y.rank →
      (s.calls.map (fun x => x.pc.rank)).sum + (([y'] : List (Gor α)).map Gor.rank).sum + 1 ≤
        (s.calls.map (fun x => x.pc.rank)).sum + (s.gos.map Gor.rank).sum := by
    intro y y' hg hr
    rw [hg]; simp; omega
  cases h with
  | invoke op => simp [isCall] at hcall
  | doStart c x hx hpc ho => exact cset c x _ _ hx (by simp [hpc, CPC.rank])
  | doSkip c x hx hpc ho => exact cset c x _ _ hx (by simp [hpc, CPC.rank])
  | mkIn c x hx hpc => exact cset c x _ _ hx (by simp [hpc, CPC.rank])
  | mkOut c x hx hpc => exact cset c x _ _ hx (by simp [hpc, CPC.rank])
  | copyIn c x hx hpc => exact cset c x _ _ hx (by simp [hpc, CPC.rank])
  | spawn c x hx hpc =>
    have hg := (hi.of_start hx (Or.inr (Or.inr (Or.inr hpc)))).2.1
    have := sum_map_set (fun x : Call α => x.pc.rank) { x with pc := .body } hx
    have hfx : x.pc.rank = 8 := by rw [hpc]; rfl
    have hfx' : ({ x with pc := CPC.body } : Call α).pc.rank = 1 := rfl
    have hgr : Gor.rank (⟨.l38, x.cin, none, none, false⟩ : Gor α) = 6 := rfl
    simp only [hfx, hfx'] at this
    simp only [work, hg, List.nil_append, List.map_cons, List.map_nil, List.sum_cons,
      List.sum_nil, hgr]
    omega
  | putSend c g v x y ch hx hy hin hpc hop hopen hrecv =>
    have := honly c x hx; rw [hop] at this; cases this
  | putPanic c x ch hx hin hpc hop hclosed =>
    have := honly c x hx; rw [this] at hop; simp [Op.isPut] at hop
  | getRecv c g v x y ch hx hy hout hpc hop hopen hsel hv =>
    have := honly c x hx; rw [hop] at this; cases this
  | getClosed c x ch hx hout hpc hop hclosed =>
    have := honly c x hx; rw [hop] at this; cases this
  | stopClose c x ch hx hin hpc hop hopen => exact cset c x _ _ hx (by simp [hpc, CPC.rank])
  | stopPanic c x hx hpc hop hno => exact cset c x _ _ hx (by simp [hpc, CPC.rank])
  | gDefer g y hy hpc =>
    obtain ⟨_, hg0, hgy⟩ := hi.of_gor hy
    subst hg0
    have := gset y { y with pc := .l39, dout := s.lout } hgy (by simp [Gor.rank, hpc])
    simpa [work, setGor, hgy] using this
  | gRecvClosed g y ch hy hrecv hclosed =>
    obtain ⟨_, hg0, hgy⟩ := hi.of_gor hy
    subst hg0
    have hpcy : y.pc = .l39 ∨ y.pc = .l41 := by
      unfold recvChan at hrecv
      split at hrecv <;> simp_all
    have := gset y (afterRecv y none false) hgy
      (by rcases hpcy with hp | hp <;> simp [Gor.rank, afterRecv, hp])
    simpa [work, setGor, hgy] using this
  | gTest g y hy hpc =>
    obtain ⟨_, hg0, hgy⟩ := hi.of_gor hy
    subst hg0
    have := gset y (afterTest y) hgy
      (by cases hok : y.ok <;> simp [Gor.rank, afterTest, hpc, hok])
    simpa [work, setGor, hgy] using this
  | gClose g y ch hy hd hpc hopen =>
    obtain ⟨_, hg0, hgy⟩ := hi.of_gor hy
    subst hg0
    have := gset y { y with pc := .done } hgy (by simp [Gor.rank, hpc])
    simpa [work, hgy] using this
  | gPanic g y hy hp =>
    obtain ⟨_, hg0, hgy⟩ := hi.of_gor hy
    subst hg0
    have := gset y { y with pc := .dead } hgy
      (by rcases hp with ⟨hp, _⟩ | ⟨hp, _⟩ <;> simp [Gor.rank, hp])
    simpa [work, setGor, hgy] using this

/-- When only `Stop` is called an execution has at most 13 events for each call. -/
theorem length_bound {es : List (Event α)} {s : Sys α} (h : run init es = some s)
    (honly : ∀ op ∈ callsOf es, op = Op.stop) : es.length + work s ≤ 13 * invokes es := by
  revert honly
  refine reach_induction (fun es s => (∀ op ∈ callsOf es, op = Op.stop) →
    es.length + work s ≤ 13 * invokes es) ?_ ?_ es s h
  · intro _; simp [work, init, invokes]
  · intro es s e s' hr hi ih hs honly
    have honly' : ∀ op ∈ callsOf es, op = Op.stop := by
      intro op hop
      refine honly op ?_
      simp only [callsOf, List.filterMap_append, List.mem_append] at hop ⊢
      exact Or.inl hop
    have ih' := ih honly'
    have hstop : ∀ (i : Nat) (x : Call α), s.calls[i]? = some x → x.op = .stop :=
      fun i x hx => honly' _ (callsOf_mem ((tinv_of_run hr).op i x hx))
    rw [invokes_snoc, List.length_append]
    cases hc : isCall e with
    | false =>
      have := work_decreases hi hs hc hstop
      simp
      omega
    | true =>
      cases hs with
      | invoke op =>
        have : work ({ s with calls := s.calls ++
            [{ op := op, pc := .once, cin := none, res := none }] } : Sys α) = work s + 12 := by
          simp [work, CPC.rank]; omega
        rw [this]
        simp
        omega
      | _ => simp [isCall] at hc

/-- C8 (`Stop` on a cell never used leaks no goroutine). In every execution
from the zero-value `Latest` in which the only call ever made is one `Stop`:
the execution has at most 13 events (finitely many steps); no value is ever
handed over on either channel, so the goroutine's receives return only on the
closed inbound channel; and in the state reached either the `Stop` has
returned, both channels are closed and the goroutine has terminated, or an
event other than a call is enabled: nothing stays blocked. -/
theorem stop_alone_terminates (es : List (Event α)) (s : Sys α)
    (hrun : run init es = some s) (honly : callsOf es = [.stop]) :
    es.length ≤ 13 ∧
    (∀ c g v, Event.putSend c g v ∉ es ∧ Event.getRecv c g v ∉ es) ∧
    ((∃ x y, s.calls = [x] ∧ x.op = .stop ∧ x.pc = .ret ∧ s.gos = [y] ∧ y.pc = .done ∧
        isClosed s 0 = true ∧ isClosed s 1 = true) ∨
      ∃ e s', isCall e = false ∧ step s e = some s') := by
  have hi := inv_of_run hrun
  have ht := tinv_of_run hrun
  have hall : ∀ op ∈ callsOf es, op = Op.stop := by
    intro op hop; rw [honly] at hop; simpa using hop
  have hinv : invokes es = 1 := by rw [invokes_eq_callsOf, honly]; rfl
  have hstop : ∀ (i : Nat) (x : Call α), s.calls[i]? = some x → x.op = .stop :=
    fun i x hx => hall _ (callsOf_mem (ht.op i x hx))
  have hlen : s.calls.length = 1 := by rw [ht.len, hinv]
  obtain ⟨x, hcalls⟩ : ∃ x, s.calls = [x] := by
    cases hc : s.calls with
    | nil => rw [hc] at hlen; cases hlen
    | cons a l =>
      cases l with
      | nil => exact ⟨a, rfl⟩
      | cons b l => rw [hc] at hlen; simp at hlen
  have hx : s.calls[0]? = some x := by simp [hcalls]
  have hxop := hstop 0 x hx
  have hidx : ∀ (i : Nat) (z : Call α), s.calls[i]? = some z → i = 0 := by
    intro i z hz
    have := (List.getElem?_eq_some.mp hz).1
    omega
  refine ⟨?_, fun c g v => ⟨fun hm => ?_, fun hm => ?_⟩, ?_⟩
  · have := length_bound hrun hall
    rw [hinv] at this
    omega
  · obtain ⟨z, hz, hop, _⟩ := ht.put c g v hm
    have := hstop c z hz
    rw [hop] at this; cases this
  · obtain ⟨z, hz, hop, _⟩ := ht.get _ hm c v rfl
    have := hstop c z hz
    rw [hop] at this; cases this
  · cases ho : s.once with
    | fresh =>
      have hp := (hi.fresh ho).2.2.2.2 0 x hx
      exact Or.inr ⟨.doStart 0, _, rfl, (Step.doStart s 0 x hx hp ho).to_step⟩
    | running r =>
      obtain ⟨_, _, z, hz, hst⟩ := hi.running r ho
      have := hidx r z hz
      subst this
      rw [hx] at hz; cases hz
      rcases hst with h | h | h | h
      · exact Or.inr ⟨.mkIn 0, _, rfl, (Step.mkIn s 0 x hx h.1).to_step⟩
      · exact Or.inr ⟨.mkOut 0, _, rfl, (Step.mkOut s 0 x hx h.1).to_step⟩
      · exact Or.inr ⟨.copyIn 0, _, rfl, (Step.copyIn s 0 x hx h.1).to_step⟩
      · exact Or.inr ⟨.spawn 0, _, rfl, (Step.spawn s 0 x hx h.1).to_step⟩
    | done =>
      obtain ⟨h1, h2, ci, co, y, h3, h4, h5, h6⟩ := hi.done ho
      obtain ⟨g1, g2, g3, g4, g5, g6, g7⟩ := h5
      have hy : s.gos[0]? = some y := by simp [h4]
      obtain ⟨c1, c2, c3⟩ := h6 0 x hx
      -- while the inbound channel is open the `Stop` has a step to take
      have hstopstep : ci = false → ∃ e s', isCall e = false ∧ step s e = some s' := by
        intro hci
        rcases c1 with hp | hp | hp | hp
        · exact ⟨.doSkip 0, _, rfl, (Step.doSkip s 0 x hx hp ho).to_step⟩
        · exact ⟨.stopClose 0, _, rfl, (Step.stopClose s 0 x 0 hx h1 hp hxop
            (by simp [isOpen, h3, hci])).to_step⟩
        · have := c3 hxop hp; rw [hci] at this; cases this
        · have := (c2 hp).1; rw [hci] at this; cases this
      -- with the inbound channel closed a receive of the goroutine returns
      have hrecv : y.pc = .l39 ∨ y.pc = .l41 →
          ∃ e s', isCall e = false ∧ step s e = some s' := by
        intro hpc
        cases hci : ci with
        | false => exact hstopstep hci
        | true =>
          have hr : recvChan s y = some 0 := by
            rcases hpc with hp | hp <;> simp [recvChan, hp, h1, g1]
          exact ⟨.gRecvClosed 0, _, rfl, (Step.gRecvClosed s 0 y 0 hy hr
            (by simp [isClosed, h3, hci])).to_step⟩
      cases hp : y.pc with
      | l38 => exact Or.inr ⟨.gDefer 0, _, rfl, (Step.gDefer s 0 y hy hp).to_step⟩
      | l39 => exact Or.inr (hrecv (Or.inl hp))
      | l40 => exact Or.inr ⟨.gTest 0, _, rfl, (Step.gTest s 0 y hy hp).to_step⟩
      | l41 => exact Or.inr (hrecv (Or.inr hp))
      | ret =>
        have hco : co = false := by
          cases co with
          | false => rfl
          | true => have := g4.mp rfl; rw [hp] at this; cases this
        exact Or.inr ⟨.gClose 0, _, rfl, (Step.gClose s 0 y 1 hy (g2 (by simp [hp])) hp
          (by simp [isOpen, h3, hco])).to_step⟩
      | done =>
        have hci : ci = true := g5 (Or.inr hp)
        have hco : co = true := g4.mpr hp
        obtain ⟨c, hm⟩ := ht.closed (by simp [isClosed, h3, hci])
        obtain ⟨z, hz, _, hzr⟩ := ht.stop c hm
        have := hidx c z hz
        subst this
        rw [hx] at hz; cases hz
        exact Or.inl ⟨x, y, hcalls, hxop, hzr, h4, hp, by simp [isClosed, h3, hci],
          by simp [isClosed, h3, hco]⟩
      | dead => exact absurd hp g3

/-! ## A `Get` called after the last `Put`, or after `Stop`, does return -/

/-- The value a returned `Get` holds is the value of the event at which it returned. -/
theorem res_of_events {m s : Sys α} {d : List (Event α)} {c : Nat} (V : Value α → Prop)
    (hrun : run m d = some s)
    (hnew : ∀ (x : Call α), m.calls[c]? = some x → x.pc ≠ .ret)
    (hV : ∀ (d1 d2 : List (Event α)) (e : Event α) (v : Value α), d = d1 ++ e :: d2 →
      getRet e = some (c, v) → V v) :
    ∀ (x : Call α), s.calls[c]? = some x → x.op = .get → x.pc = .ret → V x.res := by
  revert hV
  refine run_induction (fun d t => (∀ (d1 d2 : List (Event α)) (e : Event α) (v : Value α),
      d = d1 ++ e :: d2 → getRet e = some (c, v) → V v) →
    ∀ (x : Call α), t.calls[c]? = some x → x.op = .get → x.pc = .ret → V x.res) ?_ ?_ d s hrun
  · intro _ x hx _ hpc
    exact absurd hpc (hnew x hx)
  · intro d' t e t' _ ih hs hV x hx hop hpc
    have hV' : ∀ (d1 d2 : List (Event α)) (e0 : Event α) (v : Value α), d' = d1 ++ e0 :: d2 →
        getRet e0 = some (c, v) → V v := by
      intro d1 d2 e0 v hsplit hr
      exact hV d1 (d2 ++ [e]) e0 v (by rw [hsplit]; simp) hr
    have hst := Step.of_step hs
    rcases hst.ret_back c x hx hpc with h | ⟨g, v, h⟩ | ⟨g, v, h⟩ | h | h
    · exact ih hV' x h hop hpc
    · subst h
      cases hst with
      | putSend c g v x0 y ch hx0 hy hin hpc0 hop0 hopen hrecv =>
        rw [List.getElem?_set_self (List.getElem?_eq_some.mp hx0).1] at hx
        cases hx
        rw [hop0] at hop; cases hop
    · subst h
      have hv := hV d' [] (.getRecv c g v) v rfl rfl
      cases hst with
      | getRecv c g v x0 y ch hx0 hy hout hpc0 hop0 hopen hsel hv0 =>
        rw [List.getElem?_set_self (List.getElem?_eq_some.mp hx0).1] at hx
        cases hx
        exact hv
    · subst h
      have hv := hV d' [] (.getClosed c) none rfl rfl
      cases hst with
      | getClosed c x0 ch hx0 hout hpc0 hop0 hclosed =>
        simp only [setCall] at hx
        rw [List.getElem?_set_self (List.getElem?_eq_some.mp hx0).1] at hx
        cases hx
        exact hv
    · subst h
      cases hst with
      | stopClose c x0 ch hx0 hin hpc0 hop0 hopen =>
        rw [List.getElem?_set_self (List.getElem?_eq_some.mp hx0).1] at hx
        cases hx
        rw [hop0] at hop; cases hop

/-- The call made by the last event of an execution is at its `l.once.Do`, and
its call id is the number of calls made before. -/
theorem call_of_invoke {p : List (Event α)} {op : Op α} {m : Sys α}
    (hrun : run init (p ++ [.invoke op]) = some m) :
    m.calls[invokes p]? = some { op := op, pc := .once, cin := none, res := none } := by
  obtain ⟨m0, hm0, hstep⟩ := run_snoc_some hrun
  have hlen := (tinv_of_run hm0).len
  simp only [step, Option.some.injEq] at hstep
  subst hstep
  rw [← hlen]
  simp

/-- C1 (latest wins). Take any execution from the zero-value `Latest` in which
`Stop` is not called and the calls of `Put` do not overlap (each `Put` is
called when no `Put` is in progress), in which a `Put` hands over `vn` at some
event (that is where it returns) and, no `Put` being called after that, a
`Get` is called; `m` is the state at that call.  Then right after the handoff
the goroutine's `thing` is `vn`, whatever the events before; and however the
execution goes on from `m` without a call of `Put` or `Stop`, the `Get` has
returned `vn` or can run on to its return of `vn` without any further call,
and at whatever event it returns, it returns `vn`, never an earlier value. -/
theorem latest_wins (a b : List (Event α)) (cp gp : Nat) (vn : Value α) (m : Sys α)
    (hrun : run init (a ++ .putSend cp gp vn :: (b ++ [.invoke .get])) = some m)
    (hns : noStop (a ++ .putSend cp gp vn :: (b ++ [.invoke .get])) = true)
    (hseq : seqPuts (a ++ .putSend cp gp vn :: (b ++ [.invoke .get])) = true)
    (hnp : noPut b = true) :
    (∃ m1 y, run init (a ++ [.putSend cp gp vn]) = some m1 ∧ m1.gos[gp]? = some y ∧
      y.thing = vn) ∧
    (∀ (d : List (Event α)) (s : Sys α), run m d = some s → noStop d = true →
      noPut d = true →
      ∃ x, s.calls[invokes (a ++ .putSend cp gp vn :: b)]? = some x ∧ x.op = .get ∧
        ((x.pc = .ret ∧ x.res = vn) ∨
          ∃ es' s', run s es' = some s' ∧ noCall es' = true ∧
            ∃ x', s'.calls[invokes (a ++ .putSend cp gp vn :: b)]? = some x' ∧
              x'.op = .get ∧ x'.pc = .ret ∧ x'.res = vn)) ∧
    (∀ (d post : List (Event α)) (e : Event α) (v : Value α) (s : Sys α),
      run m (d ++ e :: post) = some s → noStop d = true → noPut d = true →
      getRet e = some (invokes (a ++ .putSend cp gp vn :: b), v) →
      v = vn ∧ ∃ x, s.calls[invokes (a ++ .putSend cp gp vn :: b)]? = some x ∧
        x.op = .get ∧ x.pc = .ret ∧ x.res = vn) := by
  have hseq1 : seqPuts (a ++ [.putSend cp gp vn]) = true := by
    have e1 : a ++ .putSend cp gp vn :: (b ++ [.invoke .get])
        = (a ++ [.putSend cp gp vn]) ++ (b ++ [.invoke .get]) := by simp
    rw [e1] at hseq
    exact seqPuts_append_left hseq
  -- the execution continued by `d`
  have cont : ∀ (d : List (Event α)) (s : Sys α), run m d = some s → noStop d = true →
      noPut d = true →
      run init (a ++ .putSend cp gp vn :: ((b ++ [.invoke .get]) ++ d)) = some s ∧
      noStop (a ++ .putSend cp gp vn :: ((b ++ [.invoke .get]) ++ d)) = true ∧
      lastPut (a ++ .putSend cp gp vn :: ((b ++ [.invoke .get]) ++ d)) = some vn := by
    intro d s hd hnsd hnpd
    have e2 : a ++ .putSend cp gp vn :: ((b ++ [.invoke .get]) ++ d)
        = (a ++ .putSend cp gp vn :: (b ++ [.invoke .get])) ++ d := by simp
    have hr : run init (a ++ .putSend cp gp vn :: ((b ++ [.invoke .get]) ++ d)) = some s := by
      rw [e2]; exact run_append_of hrun hd
    have hn : noStop (a ++ .putSend cp gp vn :: ((b ++ [.invoke .get]) ++ d)) = true := by
      rw [e2]; exact noStop_append.mpr ⟨hns, hnsd⟩
    have hp : noPut ((b ++ [.invoke .get]) ++ d) = true := by
      refine noPut_append.mpr ⟨noPut_append.mpr ⟨hnp, ?_⟩, hnpd⟩
      simp [noPut, isPutCall]
    exact ⟨hr, hn, wins_core hr hseq1 hp⟩
  -- at whatever event the `Get` returns, it returns `vn`
  have safe : ∀ (d post : List (Event α)) (e : Event α) (v : Value α) (s : Sys α),
      run m (d ++ e :: post) = some s → noStop d = true → noPut d = true →
      getRet e = some (invokes (a ++ .putSend cp gp vn :: b), v) → v = vn := by
    intro d post e v s hd hnsd hnpd hret
    obtain ⟨mp, mp', hmp, hst, _, _⟩ := run_split hd
    obtain ⟨hr, hn, hl⟩ := cont d mp hmp hnsd hnpd
    obtain ⟨hopen, hnr⟩ := open_of_noStop hr hn
    rcases get_value hr hst hret with ⟨h, _⟩ | ⟨_, _, _, hc⟩
    · rw [held_eq_lastPut hnr, hl] at h
      exact (Option.some.inj h).symm
    · rw [hopen] at hc; cases hc
  have hcall : m.calls[invokes (a ++ .putSend cp gp vn :: b)]? =
      some { op := .get, pc := .once, cin := none, res := none } := by
    have e3 : a ++ .putSend cp gp vn :: (b ++ [.invoke .get])
        = (a ++ .putSend cp gp vn :: b) ++ [.invoke .get] := by simp
    rw [e3] at hrun
    exact call_of_invoke hrun
  refine ⟨?_, fun d s hd hnsd hnpd => ?_, fun d post e v s hd hnsd hnpd hret => ?_⟩
  · have e4 : a ++ .putSend cp gp vn :: (b ++ [.invoke .get])
        = (a ++ [.putSend cp gp vn]) ++ (b ++ [.invoke .get]) := by simp
    rw [e4] at hrun
    obtain ⟨m1, hm1, _⟩ := run_append_some hrun
    obtain ⟨ma, _, hstep⟩ := run_snoc_some hm1
    obtain ⟨y, hy, hth⟩ := thing_after_send (Step.of_step hstep)
    exact ⟨m1, y, hm1, hy, hth⟩
  · obtain ⟨x, hx, hop, _, _⟩ := run_calls_mono hd _ _ hcall
    obtain ⟨hr, hn, hl⟩ := cont d s hd hnsd hnpd
    refine ⟨x, hx, hop, ?_⟩
    by_cases hpc : x.pc = .ret
    · left
      refine ⟨hpc, ?_⟩
      refine res_of_events (fun v => v = vn) hd ?_ ?_ x hx hop hpc
      · intro x0 hx0
        rw [hcall] at hx0; cases hx0
        simp
      · intro d1 d2 e v hsplit hret
        subst hsplit
        obtain ⟨hs1, _⟩ := noStop_append.mp hnsd
        obtain ⟨hp1, _⟩ := noPut_append.mp hnpd
        exact safe d1 d2 e v s hd hs1 hp1 hret
    · right
      obtain ⟨es', s', hr', hnc, _, hcalls, _, _⟩ :=
        get_serving (inv_of_run hr) (serving_of_run hr hn hl) hx hop hpc
      refine ⟨es', s', hr', hnc, { x with pc := .ret, res := vn }, ?_, hop, rfl, rfl⟩
      rw [hcalls]
      exact List.getElem?_set_self (List.getElem?_eq_some.mp hx).1
  · have hv := safe d post e v s hd hnsd hnpd hret
    subst hv
    have hfull : run init ((a ++ .putSend cp gp v :: (b ++ [.invoke .get])) ++
        (d ++ e :: post)) = some s := run_append_of hrun hd
    exact ⟨rfl, (tinv_of_run hfull).get e (by simp) _ _ hret⟩

/-- C3, amended. In every execution from the zero-value `Latest` in which a
`Get` is called after a `Stop` has closed the inbound channel and returned
(`m` is the state at that call): however the execution goes on from `m`, the
`Get` does return, it has returned or the goroutine's own steps followed by
its own make it return (nil, on the closed outbound channel); and the value it
returns, at whatever event it returns, is nil or the value of the last handoff
from a `Put` before that close (the value the goroutine held when `Stop`
returned), never an earlier one, and nil if the goroutine has received from
the closed inbound channel in between. -/
theorem get_after_stop_value (a b : List (Event α)) (cs : Nat) (m : Sys α)
    (hrun : run init (a ++ .stopClose cs :: (b ++ [.invoke .get])) = some m) :
    (∀ (d : List (Event α)) (s : Sys α), run m d = some s →
      ∃ x, s.calls[invokes (a ++ .stopClose cs :: b)]? = some x ∧ x.op = .get ∧
        ((x.pc = .ret ∧ (x.res = none ∨ lastPut a = some x.res)) ∨
          ∃ gs fin s', run s (gs ++ fin) = some s' ∧ (∀ e ∈ gs, isGorStep e = true) ∧
            (fin = [.getClosed (invokes (a ++ .stopClose cs :: b))] ∨
              fin = [.doSkip (invokes (a ++ .stopClose cs :: b)),
                     .getClosed (invokes (a ++ .stopClose cs :: b))]) ∧
            ∃ x', s'.calls[invokes (a ++ .stopClose cs :: b)]? = some x' ∧
              x'.op = .get ∧ x'.pc = .ret ∧ x'.res = none)) ∧
    (∀ (d post : List (Event α)) (e : Event α) (v : Value α) (s : Sys α),
      run m (d ++ e :: post) = some s →
      getRet e = some (invokes (a ++ .stopClose cs :: b), v) →
      (v = none ∨ lastPut a = some v) ∧
      ((∃ g, Event.gRecvClosed g ∈ b ++ .invoke .get :: d) → v = none)) := by
  have safe : ∀ (d post : List (Event α)) (e : Event α) (v : Value α) (s : Sys α),
      run m (d ++ e :: post) = some s →
      getRet e = some (invokes (a ++ .stopClose cs :: b), v) →
      (v = none ∨ lastPut a = some v) ∧
      ((∃ g, Event.gRecvClosed g ∈ b ++ .invoke .get :: d) → v = none) := by
    intro d post e v s hd hret
    have hfull := run_append_of hrun hd
    exact stop_value_core _ a b d post cs e v s hfull (by simp) hret
  have e3 : a ++ .stopClose cs :: (b ++ [.invoke .get])
      = (a ++ .stopClose cs :: b) ++ [.invoke .get] := by simp
  have hcall : m.calls[invokes (a ++ .stopClose cs :: b)]? =
      some { op := .get, pc := .once, cin := none, res := none } := by
    have h := hrun
    rw [e3] at h
    exact call_of_invoke h
  -- the inbound channel is closed at the call of the `Get`
  have hclosed : isClosed m 0 = true := by
    have ht := tinv_of_run hrun
    obtain ⟨z, hz, hzop, hzpc⟩ := ht.stop cs (by simp)
    exact (closed_of_stop (inv_of_run hrun) hz hzop hzpc).1
  refine ⟨fun d s hd => ?_, safe⟩
  obtain ⟨x, hx, hop, _, _⟩ := run_calls_mono hd _ _ hcall
  have his : Inv s := inv_along (inv_of_run hrun) hd
  refine ⟨x, hx, hop, ?_⟩
  by_cases hpc : x.pc = .ret
  · left
    refine ⟨hpc, ?_⟩
    refine res_of_events (fun v => v = none ∨ lastPut a = some v) hd ?_ ?_ x hx hop hpc
    · intro x0 hx0
      rw [hcall] at hx0; cases hx0
      simp
    · intro d1 d2 e v hsplit hret
      subst hsplit
      exact (safe d1 d2 e v s hd hret).1
  · right
    exact get_after_close his (run_closed_mono hd 0 hclosed) hx hop hpc

/-! ## The claims on sample executions -/

/-- `Put(1)`, `Put(2)`, `Get` one after the other: the `Get` can return, and
in `winsTrace` it returns 2. -/
theorem latest_wins_witness :
    run init (winsHead ++ .putSend 1 0 (some 2) :: ([] ++ [.invoke .get])) = some winsMid ∧
    noStop (winsHead ++ .putSend 1 0 (some 2) :: ([] ++ [.invoke .get])) = true ∧
    seqPuts (winsHead ++ .putSend 1 0 (some 2) :: ([] ++ [.invoke .get])) = true ∧
    (∃ x, winsMid.calls[2]? = some x ∧ x.op = .get ∧
      ((x.pc = .ret ∧ x.res = some 2) ∨
        ∃ es' s', run winsMid es' = some s' ∧ noCall es' = true ∧
          ∃ x', s'.calls[2]? = some x' ∧ x'.op = .get ∧ x'.pc = .ret ∧ x'.res = some 2)) ∧
    run winsMid ([.doSkip 2, .gTest 0] ++ .getRecv 2 0 (some 2) :: []) = some winsState ∧
    ((some 2 : Value Nat) = some 2 ∧
      ∃ x, winsState.calls[2]? = some x ∧ x.op = .get ∧ x.pc = .ret ∧ x.res = some 2) :=
  ⟨by decide, by decide, by decide,
    (latest_wins winsHead [] 1 0 (some 2) winsMid (by decide) (by decide) (by decide)
      (by decide)).2.1 [] winsMid rfl (by decide) (by decide),
    by decide,
    (latest_wins winsHead [] 1 0 (some 2) winsMid (by decide) (by decide) (by decide)
      (by decide)).2.2 [.doSkip 2, .gTest 0] [] (.getRecv 2 0 (some 2)) (some 2) winsState
      (by decide) (by decide) (by decide) rfl⟩

/-- A `Get` waits for the first `Put`; once `Put(1)` has handed 1 over the
pending `Get` can return 1. -/
theorem block_until_first_value_witness :
    (run init blockTrace = some blockState ∧ noStop blockTrace = true ∧
      ∃ es' s', run blockState es' = some s' ∧ noCall es' = true ∧
        ∃ x', s'.calls[0]? = some x' ∧ x'.op = .get ∧ x'.pc = .ret ∧ x'.res = some 1) ∧
    (run init waitTrace = some waitState ∧ noStop waitTrace = true ∧
      noPut waitTrace = true ∧ step waitState (.getClosed 0) = none ∧
      (∀ y ∈ waitState.gos, y.pc = .l38 ∨ y.pc = .l39)) :=
  ⟨⟨by decide, by decide,
    ((block_until_first_value blockTrace blockState (by decide) (by decide)).2 (some 1) 1 0
      (by decide) (by decide)).2 0 { op := .get, pc := .body, cin := some 0, res := none }
      (by decide) rfl (by decide)⟩,
   ⟨by decide, by decide, by decide,
    ((block_until_first_value waitTrace waitState (by decide) (by decide)).1 (by decide)).1
      (.getClosed 0) 0 none rfl,
    ((block_until_first_value waitTrace waitState (by decide) (by decide)).1
      (by decide)).2.2.1⟩⟩

/-- In `staleTrace` the `Get` called after `Stop` can return, and there it
returns the last value put. -/
theorem get_after_stop_value_witness :
    run init (staleHead ++ .stopClose 1 :: ([] ++ [.invoke .get])) = some staleMid ∧
    (∃ x, staleMid.calls[2]? = some x ∧ x.op = .get ∧
      ((x.pc = .ret ∧ (x.res = none ∨ lastPut staleHead = some x.res)) ∨
        ∃ gs fin s', run staleMid (gs ++ fin) = some s' ∧ (∀ e ∈ gs, isGorStep e = true) ∧
          (fin = [.getClosed 2] ∨ fin = [.doSkip 2, .getClosed 2]) ∧
          ∃ x', s'.calls[2]? = some x' ∧ x'.op = .get ∧ x'.pc = .ret ∧ x'.res = none)) ∧
    run staleMid ([.doSkip 2] ++ .getRecv 2 0 (some 7) :: []) = some staleState ∧
    ((some 7 : Value Nat) = none ∨ lastPut staleHead = some (some 7)) :=
  ⟨by decide,
    (get_after_stop_value staleHead [] 1 staleMid (by decide)).1 [] staleMid rfl,
    by decide,
    ((get_after_stop_value staleHead [] 1 staleMid (by decide)).2 [.doSkip 2] []
      (.getRecv 2 0 (some 7)) (some 7) staleState (by decide) rfl).1⟩

/-- After `Stop` the pending `Get` of `shutTrace` can return nil. -/
theorem shutdown_unblocks_readers_witness :
    (run init shutTrace = some shutState ∧ noPut shutTrace = true ∧
      ∃ gs fin s', run shutState (gs ++ fin) = some s' ∧ (∀ e ∈ gs, isGorStep e = true) ∧
        (fin = [.getClosed 0] ∨ fin = [.doSkip 0, .getClosed 0]) ∧
        ∃ x', s'.calls[0]? = some x' ∧ x'.op = .get ∧ x'.pc = .ret ∧ x'.res = none) ∧
    (run init shutServed = some shutServedState ∧ noPut shutServed = true ∧
      (none : Value Nat) = none) :=
  ⟨⟨by decide, by decide,
    (shutdown_unblocks_readers shutTrace shutState (by decide) (by decide)).2 1
      { op := .stop, pc := .ret, cin := none, res := none } (by decide) rfl rfl 0
      { op := .get, pc := .body, cin := some 0, res := none } (by decide) rfl (by decide)⟩,
   ⟨by decide, by decide,
    (shutdown_unblocks_readers shutServed shutServedState (by decide) (by decide)).1
      shutHead [] (.getRecv 0 0 none) 0 none
      rfl rfl⟩⟩

/-- In `readTrace` the value 1 the `Get` returns was put. -/
theorem no_invented_values_witness :
    run init readTrace = some readState ∧ noStop readTrace = true ∧
    Event.invoke (Op.put (some 1)) ∈ readHead :=
  ⟨by decide, by decide,
    (no_invented_values readTrace readHead []
      readState (.getRecv 1 0 (some 1)) 1 (some 1) (by decide) (by decide) rfl rfl).2.1⟩

/-- After `Put(1)`, three calls of `Get` one after the other all return 1. -/
theorem reading_does_not_consume_witness :
    run init demoStart = some demoState ∧ noStop demoStart = true ∧
    putCalls demoStart = [some 1] ∧
    ∃ s', run demoState (seqGets demoState.calls.length (atTest demoState) (some 1) 3)
        = some s' ∧
      ∀ j, j < 3 → ∃ x, s'.calls[demoState.calls.length + j]? = some x ∧ x.op = .get ∧
        x.pc = .ret ∧ x.res = some 1 :=
  ⟨by decide, by decide, by decide,
    (reading_does_not_consume demoStart demoState (some 1) 0 0 (by decide) (by decide)
      (by decide) (by decide)).2.1 3⟩

/-- After the `Stop` of `stopPre` a second `Stop` panics. -/
theorem second_stop_panics_witness :
    run init stopPre = some stopState ∧
    run stopState [.invoke .stop, .doSkip 1] = some (stopThen .stop) ∧
    ∃ fin s', run (stopThen .stop) fin = some s' ∧
      (fin = [.stopPanic 1] ∨ fin = [.doSkip 1, .stopPanic 1]) ∧
      s'.calls[1]? = some { op := .stop, pc := .dead, cin := none, res := none } :=
  ⟨by decide, by decide,
    (second_stop_panics stopPre [.invoke .stop, .doSkip 1] stopState (stopThen .stop) 0 1
      { op := .stop, pc := .ret, cin := some 0, res := none }
      { op := .stop, pc := .body, cin := none, res := none } (by decide) (by decide)
      (by decide) rfl rfl (by decide) (by decide) rfl).2.2.2 (by decide)⟩

/-- `Stop` alone: the execution `aloneTrace` has 13 events and ends with the
goroutine terminated. -/
theorem stop_alone_terminates_witness :
    run init aloneTrace = some aloneState ∧ callsOf aloneTrace = [.stop] ∧
    aloneTrace.length ≤ 13 :=
  ⟨by decide, by decide,
    (stop_alone_terminates aloneTrace aloneState (by decide) (by decide)).1⟩

/-- A `Get` comes first and runs `start`; the `Put` that follows does not. -/
theorem lazy_start_exactly_once_witness :
    run init lazyPre = some lazyMid ∧ run lazyMid lazyPost = some lazyEnd ∧
    starts (lazyPre ++ lazyPost) ≤ 1 :=
  ⟨by decide, by decide,
    (lazy_start_exactly_once lazyPre lazyPost lazyMid lazyEnd (by decide) (by decide)).1⟩

/-- After the `Stop` of `stopPre` a `Put(3)` never hands 3 over: it panics. -/
theorem put_after_stop_panics_witness :
    run init stopPre = some stopState ∧
    run stopState [.invoke (.put (some 3)), .doSkip 1] = some (stopThen (.put (some 3))) ∧
    ∀ g w, step (stopThen (.put (some 3))) (.putSend 1 g w) = none :=
  ⟨by decide, by decide,
    (put_after_stop_panics stopPre [.invoke (.put (some 3)), .doSkip 1] stopState
      (stopThen (.put (some 3))) 0 1 { op := .stop, pc := .ret, cin := some 0, res := none }
      { op := .put (some 3), pc := .body, cin := none, res := none } (some 3) (by decide)
      (by decide) (by decide) rfl rfl (by decide) (by decide) rfl).2.2.1⟩

end Latest
